import Mathlib

/-!
Verification of the memory-consolidation engine of `memory_service`.

The Python sources embedded here are:
* `agents/reflection_agent.py` — `MemoryManager` (markdown category stores,
  duplicate detection via `difflib.SequenceMatcher.ratio`, fact merging) and
  `ReflectionAgent` (response parsing, extraction normalisation, `process`).
* `services/scheduler.py` — `ReflectionScheduler` (trigger policy, the
  reflection run, the mutual-exclusion lock).

Machine strings are modelled as `List Char`; Python floats are modelled as
exact rationals (`ℚ`); `dict`s are modelled as insertion-ordered association
lists; exceptions are modelled with `Except`/`Option`.
-/

/-- Python strings, modelled as lists of characters. -/
abbrev PStr := List Char

/-- Coerce a Lean string literal to the model's string type. -/
def pstr (s : String) : PStr := s.data

/-- The characters Python's `str.strip()` (and `\s` in `re`) treats as
whitespace (the Unicode whitespace code points). -/
def isPySpace (c : Char) : Bool :=
  let n := c.toNat
  n = 0x20 || (0x9 ≤ n && n ≤ 0xd) || (0x1c ≤ n && n ≤ 0x1f) || n = 0x85 ||
  n = 0xa0 || n = 0x1680 || (0x2000 ≤ n && n ≤ 0x200a) || n = 0x2028 ||
  n = 0x2029 || n = 0x202f || n = 0x205f || n = 0x3000

/-- `s.strip()` restricted to a character class `p`: drop the characters
satisfying `p` from both ends. -/
def pyStripP (p : Char → Bool) (s : PStr) : PStr :=
  ((s.dropWhile p).reverse.dropWhile p).reverse

/-- Python `str.strip()` (no argument): strip whitespace from both ends. -/
def pyStrip (s : PStr) : PStr := pyStripP isPySpace s

/-- Membership of a character in the strip set `"- "`. -/
def isDashSpace (c : Char) : Bool := c = '-' || c = ' '

/-- Python `str.strip("- ")`. -/
def pyStripDash (s : PStr) : PStr := pyStripP isDashSpace s

/-- Python `str.lower()` (ASCII case folding). -/
def pyLower (s : PStr) : PStr := s.map Char.toLower

/-- Python `c in s` for a single character. -/
def pyContainsChar (s : PStr) (c : Char) : Bool := s.contains c

/-- Python `s.startswith(p)`. -/
def pyStartsWith (s p : PStr) : Bool := p.isPrefixOf s

/-- Fuel-driven worker for `stripParens`. -/
def stripParensF : Nat → PStr → PStr
  | 0, s => s
  | _ + 1, [] => []
  | fuel + 1, c :: cs =>
    if c = '(' then
      match cs.dropWhile (fun d => !(d = ')')) with
      | [] => c :: cs
      | _ :: rest => stripParensF fuel rest
    else c :: stripParensF fuel cs

/-- `re.sub(r'\(.*?\)', '', s)`: repeatedly delete the leftmost
`(`…`)` span whose closing parenthesis is the nearest one; a `(` with no
subsequent `)` is left in place (as is everything after it). -/
def stripParens (s : PStr) : PStr := stripParensF s.length s

/-! ## The `difflib.SequenceMatcher` model

`is_duplicate` computes `SequenceMatcher(None, existing_clean, new_clean).ratio()`.
We model `find_longest_match` (with the autojunk heuristic on `b`),
the recursive matching-block total, and the ratio `2*M/(len a + len b)`. -/

/-- The autojunk predicate of `SequenceMatcher`: with `len(b) >= 200`, an
element of `b` occurring more than `len(b)//100 + 1` times is "popular" and
treated as junk. -/
def bjunk (b : PStr) (c : Char) : Bool :=
  decide (200 ≤ b.length) && decide (b.length / 100 + 1 < b.count c)

/-- Character of `s` at `i`, if in range. -/
def charAt (s : PStr) (i : Nat) : Option Char := s.get? i

/-- Do `a[i]` and `b[j]` exist, match, and is `b[j]` not junk? -/
def matchAt (a b : PStr) (junk : Char → Bool) (i j : Nat) : Bool :=
  match charAt a i, charAt b j with
  | some x, some y => x = y && !junk y
  | _, _ => false

/-- Length of the matching run ending at `(i, j)` that stays within
`a[alo:]` and `b[blo:bhi]` and avoids junk in `b` — the value difflib's
`j2len` dynamic programming table holds for `(i, j)`. -/
def runlen (a b : PStr) (junk : Char → Bool) (alo blo bhi : Nat) :
    Nat → Nat → Nat
  | i, j =>
    if alo ≤ i ∧ blo ≤ j ∧ j < bhi ∧ matchAt a b junk i j then
      match i, j with
      | 0, _ => 1
      | _ + 1, 0 => 1
      | i' + 1, j' + 1 => runlen a b junk alo blo bhi i' j' + 1
    else 0

/-- One candidate endpoint of the DP scan: record the block ending at
`(i, j)` iff its run is strictly longer than the best so far (difflib's
`if k > bestsize`). -/
def bestStep (a b : PStr) (junk : Char → Bool) (alo blo bhi : Nat)
    (best : Nat × Nat × Nat) (ij : Nat × Nat) : Nat × Nat × Nat :=
  let k := runlen a b junk alo blo bhi ij.1 ij.2
  if best.2.2 < k then (ij.1 + 1 - k, ij.2 + 1 - k, k) else best

/-- All endpoints `(i, j)` with `alo ≤ i < ahi`, `blo ≤ j < bhi`, in the
scan order of difflib's loops (`i` ascending, then `j` ascending). -/
def scanPairs (alo ahi blo bhi : Nat) : List (Nat × Nat) :=
  (List.range' alo (ahi - alo)).flatMap fun i =>
    (List.range' blo (bhi - blo)).map fun j => (i, j)

/-- The scan loop of the DP phase, with the best block held in three
accumulators (kept strict so that the kernel can evaluate it). -/
def dpGo (a b : PStr) (junk : Char → Bool) (alo blo bhi : Nat) :
    List (Nat × Nat) → Nat → Nat → Nat → Nat × Nat × Nat
  | [], bi, bj, bk => (bi, bj, bk)
  | p :: ps, bi, bj, bk =>
    let k := runlen a b junk alo blo bhi p.1 p.2
    if bk < k then dpGo a b junk alo blo bhi ps (p.1 + 1 - k) (p.2 + 1 - k) k
    else dpGo a b junk alo blo bhi ps bi bj bk

/-- The dynamic-programming phase of `find_longest_match`: the first
endpoint (in scan order) achieving each new strictly larger run length
wins, starting from `(alo, blo, 0)`. -/
def dpBest (a b : PStr) (junk : Char → Bool) (alo ahi blo bhi : Nat) :
    Nat × Nat × Nat :=
  dpGo a b junk alo blo bhi (scanPairs alo ahi blo bhi) alo blo 0

/-- One backward extension loop of `find_longest_match`: while the
preceding characters match and `b`'s junk status equals `wantJunk`, grow
the block backward. `fuel` bounds the iteration. -/
def extBack (a b : PStr) (junk : Char → Bool) (wantJunk : Bool)
    (alo blo : Nat) : Nat → Nat × Nat × Nat → Nat × Nat × Nat
  | 0, best => best
  | fuel + 1, (i, j, k) =>
    if alo < i ∧ blo < j ∧ matchAt a b (fun c => junk c ≠ wantJunk) (i - 1) (j - 1) then
      extBack a b junk wantJunk alo blo fuel (i - 1, j - 1, k + 1)
    else (i, j, k)

/-- One forward extension loop of `find_longest_match`: while the
characters just past the block match and `b`'s junk status equals
`wantJunk`, grow the block forward. -/
def extFwd (a b : PStr) (junk : Char → Bool) (wantJunk : Bool)
    (ahi bhi : Nat) : Nat → Nat × Nat × Nat → Nat × Nat × Nat
  | 0, best => best
  | fuel + 1, (i, j, k) =>
    if i + k < ahi ∧ j + k < bhi ∧ matchAt a b (fun c => junk c ≠ wantJunk) (i + k) (j + k) then
      extFwd a b junk wantJunk ahi bhi fuel (i, j, k + 1)
    else (i, j, k)

/-- `SequenceMatcher.find_longest_match(alo, ahi, blo, bhi)`: the DP scan
followed by the four extension loops (non-junk backward/forward, then junk
backward/forward). -/
def find_longest_match (a b : PStr) (junk : Char → Bool)
    (alo ahi blo bhi : Nat) : Nat × Nat × Nat :=
  let f := a.length + b.length + 1
  let s0 := dpBest a b junk alo ahi blo bhi
  let s1 := extBack a b junk false alo blo f s0
  let s2 := extFwd a b junk false ahi bhi f s1
  let s3 := extBack a b junk true alo blo f s2
  extFwd a b junk true ahi bhi f s3

/-- Total size of the matching blocks found by the recursive decomposition
of `get_matching_blocks` (the queue in difflib computes exactly this sum;
merging adjacent blocks preserves it).  `fuel` dominates the recursion
depth. -/
def matchSum (a b : PStr) (junk : Char → Bool) :
    Nat → Nat → Nat → Nat → Nat → Nat
  | 0, _, _, _, _ => 0
  | fuel + 1, alo, ahi, blo, bhi =>
    let t := find_longest_match a b junk alo ahi blo bhi
    if t.2.2 = 0 then 0
    else
      matchSum a b junk fuel alo t.1 blo t.2.1 + t.2.2 +
        matchSum a b junk fuel (t.1 + t.2.2) ahi (t.2.1 + t.2.2) bhi

/-- The number of matching characters `M` used by `ratio`. -/
def matchTotal (a b : PStr) : Nat :=
  matchSum a b (bjunk b) (a.length + b.length + 1) 0 a.length 0 b.length

/-- `SequenceMatcher(None, a, b).ratio() = 2*M / (len a + len b)`
(and `1.0` when both strings are empty), as an exact rational. -/
def similarity (a b : PStr) : ℚ :=
  if a.length + b.length = 0 then 1
  else (2 * matchTotal a b : ℚ) / (a.length + b.length)

/-! ## `MemoryManager.is_duplicate` -/

/-- The normalisation applied to both strings in `is_duplicate`:
`re.sub(r'\(.*?\)', '', s).lower().strip("- ").strip()`. -/
def cleanFact (s : PStr) : PStr := pyStrip (pyStripDash (pyLower (stripParens s)))

/-- The default similarity threshold `0.85`. -/
def dupThreshold : ℚ := mkRat 85 100

/-- The comparison `threshold ≤ ratio(a, b)` in cross-multiplied integer
form (`ratio(a, b) = 2*M/(len a + len b)`), so that the kernel can
evaluate it; `ratioGE_iff` below identifies it with the rational
comparison. -/
def ratioGE (threshold : ℚ) (a b : PStr) : Bool :=
  if a.length + b.length = 0 then decide (threshold ≤ 1)
  else
    decide (threshold.num * (a.length + b.length) ≤
      2 * (matchTotal a b : Int) * threshold.den)

/-- `MemoryManager.is_duplicate(existing_facts, new_fact, threshold)`:
some existing fact's cleaned form has `SequenceMatcher` ratio at least
`threshold` to the cleaned candidate. -/
def is_duplicate (existing_facts : List PStr) (new_fact : PStr) (threshold : ℚ) : Bool :=
  existing_facts.any fun e => ratioGE threshold (cleanFact e) (cleanFact new_fact)

/-! ## The markdown category store (`MemoryManager.read_category` /
`write_category`)

A parsed store is the insertion-ordered dictionary
`{subcategory-or-none : [fact line]}`. -/

/-- A parsed category store: insertion-ordered association list from
subcategory (`none` = no subcategory) to the list of fact lines. -/
abbrev Store := List (Option PStr × List PStr)

/-- Keys of a store, in insertion order. -/
def storeKeys (st : Store) : List (Option PStr) := st.map Prod.fst

/-- Does the store have the given key? -/
def storeHasKey (st : Store) (k : Option PStr) : Bool :=
  st.any fun p => p.1 = k

/-- The bucket of a key (empty if absent). -/
def storeGet (st : Store) (k : Option PStr) : List PStr :=
  ((st.find? fun p => p.1 = k).map Prod.snd).getD []

/-- Append a fact to an existing bucket. -/
def storeAppend (st : Store) (k : Option PStr) (f : PStr) : Store :=
  st.map fun p => if p.1 = k then (p.1, p.2 ++ [f]) else p

/-- Python `content.split("\n")`. -/
def splitNl : PStr → List PStr
  | [] => [[]]
  | c :: cs =>
    let r := splitNl cs
    if c = '\n' then [] :: r
    else
      match r with
      | h :: t => (c :: h) :: t
      | [] => [[c]]

/-- `"\n".join(lines)`. -/
def joinNl (lines : List PStr) : PStr := List.intercalate ['\n'] lines

/-- The parsing loop of `read_category` over the (already split) lines:
`## ` opens (and if needed creates) a bucket, `- ` appends to the current
bucket, all other lines are ignored. -/
def parseLines : List PStr → Option PStr → Store → Store
  | [], _, st => st
  | l :: ls, cur, st =>
    let l' := pyStrip l
    if pyStartsWith l' (pstr "## ") then
      let sub := pyStrip (l'.drop 3)
      let st' := if storeHasKey st (some sub) then st else st ++ [(some sub, [])]
      parseLines ls (some sub) st'
    else if pyStartsWith l' (pstr "- ") then
      parseLines ls cur (storeAppend st cur l')
    else parseLines ls cur st

/-- `MemoryManager.read_category`, as a function of the file's content. -/
def read_category (content : PStr) : Store :=
  parseLines (splitNl content) none [(none, [])]

/-- Python `s.replace("_", " ")`. -/
def replaceUnderscore (s : PStr) : PStr :=
  s.map fun c => if c = '_' then ' ' else c

/-- Worker for `pyTitle`: the flag says whether the previous character was
a letter. -/
def pyTitleGo : Bool → PStr → PStr
  | _, [] => []
  | prev, c :: cs =>
    (if c.isAlpha then (if prev then c.toLower else c.toUpper) else c) ::
      pyTitleGo c.isAlpha cs

/-- Python `s.title()` (ASCII). -/
def pyTitle (s : PStr) : PStr := pyTitleGo false s

/-- `category.replace("_", " ").title()` — the title line's text. -/
def categoryTitle (category : PStr) : PStr := pyTitle (replaceUnderscore category)

/-- Python string comparison `x < y` (lexicographic on code points). -/
def pstrLt : PStr → PStr → Bool
  | [], [] => false
  | [], _ :: _ => true
  | _ :: _, [] => false
  | c :: cs, d :: ds => if c = d then pstrLt cs ds else decide (c < d)

/-- Insert into a list sorted by `le` (stable). -/
def insertLe (le : α → α → Bool) (x : α) : List α → List α
  | [] => [x]
  | y :: ys => if le x y then x :: y :: ys else y :: insertLe le x ys

/-- Stable insertion sort by `le` — models Python `sorted` (the keys being
distinct, any correct sort produces Python's output). -/
def sortLe (le : α → α → Bool) : List α → List α
  | [] => []
  | x :: xs => insertLe le x (sortLe le xs)

/-- The named-subcategory pairs of a store. -/
def namedPairs (st : Store) : List (PStr × List PStr) :=
  st.filterMap fun p =>
    match p with
    | (some k, fs) => some (k, fs)
    | (none, _) => none

/-- The serialised lines of `write_category` before joining: title, then
the `None` bucket (followed by a blank line), then each non-empty named
subcategory in sorted order, each followed by a blank line. -/
def writeLines (category : PStr) (data : Store) : List PStr :=
  let t : PStr := pstr "# " ++ categoryTitle category
  let noneLines : List PStr :=
    if storeHasKey data none ∧ storeGet data none ≠ [] then
      storeGet data none ++ [[]]
    else []
  let subs := sortLe (fun p q => !(pstrLt q.1 p.1)) (namedPairs data)
  let subLines : List PStr :=
    subs.flatMap fun p =>
      if p.2 ≠ [] then (pstr "## " ++ p.1) :: p.2 ++ [[]] else []
  t :: noneLines ++ subLines

/-- `MemoryManager.write_category`: the file content written,
`"\n".join(lines).strip() + "\n"`. -/
def write_category (category : PStr) (data : Store) : PStr :=
  pyStrip (joinNl (writeLines category data)) ++ ['\n']

/-! ## `MemoryManager.merge_facts` -/

/-- The fixed category enumeration. -/
def CATEGORIES : List PStr :=
  [pstr "personal_info", pstr "preferences", pstr "goals", pstr "activities",
   pstr "habits", pstr "experiences", pstr "relationships", pstr "work_life",
   pstr "opinions", pstr "knowledge"]

/-- The memory directory: one markdown content per category name. -/
abbrev Files := PStr → PStr

/-- Overwrite one category's content. -/
def updateFile (fs : Files) (cat content : PStr) : Files :=
  fun c => if c = cat then content else fs c

/-- Normalise one incoming fact as `merge_facts` does: prefix `- ` if
missing, then append ` (today)` when the fact contains no `(today`
substring and no `(` at all. -/
def prepFact (today fact : PStr) : PStr :=
  let f1 := if pyStartsWith fact (pstr "- ") then fact else pstr "- " ++ fact
  if ¬ (('(' :: today) <:+: f1) ∧ ¬ pyContainsChar f1 '(' then
    f1 ++ (' ' :: '(' :: today ++ [')'])
  else f1

/-- State of the merge loop: the store being extended, the list
`all_existing` used for duplicate checks, and the count of added facts. -/
abbrev MergeState := Store × List PStr × Nat

/-- The body of the inner fact loop of `merge_facts`. -/
def mergeFactStep (today : PStr) (sub : Option PStr) (ms : MergeState)
    (fact : PStr) : MergeState :=
  let f := prepFact today fact
  if ¬ is_duplicate ms.2.1 f dupThreshold then
    (storeAppend ms.1 sub f, ms.2.1 ++ [f], ms.2.2 + 1)
  else ms

/-- The body of the subcategory loop of `merge_facts`: create the bucket
if absent, then process each fact. -/
def mergeSubStep (today : PStr) (ms : MergeState)
    (entry : Option PStr × List PStr) : MergeState :=
  let st := if storeHasKey ms.1 entry.1 then ms.1 else ms.1 ++ [(entry.1, [])]
  entry.2.foldl (mergeFactStep today entry.1) (st, ms.2.1, ms.2.2)

/-- `MemoryManager.merge_facts` on parsed new data (all facts already
strings): read, merge with duplicate filtering, write back; returns the
new directory and the number of added facts. -/
def merge_facts (fs : Files) (category : PStr)
    (new_data : List (Option PStr × List PStr)) (today : PStr) : Files × Nat :=
  let existing := read_category (fs category)
  let all0 := existing.flatMap Prod.snd
  let ms := new_data.foldl (mergeSubStep today) (existing, all0, 0)
  (updateFile fs category (write_category category ms.1), ms.2.2)

/-! ## JSON values and `json.loads`

`_parse_response` calls `json.loads`; its output feeds
`_normalize_extraction`.  Numbers are kept as uninterpreted lexemes (no
claim depends on numeric values).  Objects are insertion-ordered with
last-value-wins duplicate keys, as in Python. -/

inductive Json where
  | null : Json
  | bool : Bool → Json
  | num : PStr → Json
  | str : PStr → Json
  | arr : List Json → Json
  | obj : List (PStr × Json) → Json

instance : Inhabited Json := ⟨Json.null⟩

/-- JSON whitespace (the only characters `json.loads` skips). -/
def isJsonWs (c : Char) : Bool := c = ' ' || c = '\t' || c = '\n' || c = '\x0d'

/-- Skip JSON whitespace. -/
def skipWs (s : PStr) : PStr := s.dropWhile isJsonWs

/-- Insert a key into an object: duplicate keys keep their first position
and take the new value (Python dict assignment). -/
def objInsert (kvs : List (PStr × Json)) (k : PStr) (v : Json) :
    List (PStr × Json) :=
  if kvs.any fun p => p.1 = k then
    kvs.map fun p => if p.1 = k then (k, v) else p
  else kvs ++ [(k, v)]

/-- Parse one hex digit. -/
def hexDigit (c : Char) : Option Nat :=
  if '0' ≤ c ∧ c ≤ '9' then some (c.toNat - '0'.toNat)
  else if 'a' ≤ c ∧ c ≤ 'f' then some (c.toNat - 'a'.toNat + 10)
  else if 'A' ≤ c ∧ c ≤ 'F' then some (c.toNat - 'A'.toNat + 10)
  else none

/-- Parse the body of a JSON string after the opening quote. -/
def parseJString : Nat → PStr → Option (PStr × PStr)
  | 0, _ => none
  | _ + 1, [] => none
  | fuel + 1, c :: cs =>
    if c = '"' then some ([], cs)
    else if c = '\\' then
      match cs with
      | [] => none
      | e :: cs' =>
        if e = 'u' then
          match cs' with
          | h1 :: h2 :: h3 :: h4 :: cs'' =>
            match hexDigit h1, hexDigit h2, hexDigit h3, hexDigit h4 with
            | some a, some b, some c', some d =>
              let n := ((a * 16 + b) * 16 + c') * 16 + d
              (parseJString fuel cs'').map fun r =>
                ((if h : n.isValidChar then Char.ofNatAux n h else 'x') :: r.1, r.2)
            | _, _, _, _ => none
          | _ => none
        else
          let dec : Option Char :=
            if e = '"' then some '"' else if e = '\\' then some '\\'
            else if e = '/' then some '/' else if e = 'b' then some '\x08'
            else if e = 'f' then some '\x0c' else if e = 'n' then some '\n'
            else if e = 'r' then some '\x0d' else if e = 't' then some '\t'
            else none
          match dec with
          | some d => (parseJString fuel cs').map fun r => (d :: r.1, r.2)
          | none => none
    else if c.toNat < 0x20 then none
    else (parseJString fuel cs).map fun r => (c :: r.1, r.2)

/-- Parse the digits/fraction/exponent of a JSON number starting at `s`;
returns the lexeme.  Grammar: `-?(0|[1-9][0-9]*)(\.[0-9]+)?([eE][+-]?[0-9]+)?`. -/
def parseJNumber (s : PStr) : Option (PStr × PStr) :=
  let sign : PStr × PStr :=
    match s with
    | '-' :: rest => (['-'], rest)
    | _ => ([], s)
  let intPart : Option (PStr × PStr) :=
    match sign.2 with
    | '0' :: rest => some (['0'], rest)
    | c :: _ =>
      if '1' ≤ c ∧ c ≤ '9' then
        some (sign.2.takeWhile Char.isDigit, sign.2.dropWhile Char.isDigit)
      else none
    | [] => none
  match intPart with
  | none => none
  | some (ip, r1) =>
    let frac : Option (PStr × PStr) :=
      match r1 with
      | '.' :: d :: rest =>
        if d.isDigit then
          some ('.' :: (d :: rest).takeWhile Char.isDigit,
                (d :: rest).dropWhile Char.isDigit)
        else none
      | _ => some ([], r1)
    match frac with
    | none => none
    | some (fp, r2) =>
      let expo : Option (PStr × PStr) :=
        match r2 with
        | e :: rest =>
          if e = 'e' ∨ e = 'E' then
            let (sgn, rest') : PStr × PStr :=
              match rest with
              | '+' :: r => (['+'], r)
              | '-' :: r => (['-'], r)
              | _ => ([], rest)
            match rest' with
            | d :: _ =>
              if d.isDigit then
                some (e :: sgn ++ rest'.takeWhile Char.isDigit,
                      rest'.dropWhile Char.isDigit)
              else none
            | [] => none
          else some ([], r2)
        | [] => some ([], r2)
      match expo with
      | none => none
      | some (ep, r3) => some (sign.1 ++ ip ++ fp ++ ep, r3)

/-- The parsing task of the recursive-descent worker: a full value, the
inside of an object (with the entries parsed so far), or the inside of an
array.  A single fuel-indexed function keeps the recursion structural. -/
inductive PTask where
  | value : PTask
  | objBody : List (PStr × Json) → Bool → PTask
  | arrBody : List Json → Bool → PTask

/-- Recursive-descent parser for JSON values (after leading whitespace was
skipped).  `fuel` dominates the nesting depth. -/
def parseJ : Nat → PTask → PStr → Option (Json × PStr)
  | 0, _, _ => none
  | fuel + 1, PTask.value, s =>
    match s with
    | [] => none
    | c :: cs =>
      if c = '"' then (parseJString (fuel + 1) cs).map fun r => (Json.str r.1, r.2)
      else if c = '{' then parseJ fuel (PTask.objBody [] true) (skipWs cs)
      else if c = '[' then parseJ fuel (PTask.arrBody [] true) (skipWs cs)
      else if pyStartsWith s (pstr "null") then some (Json.null, s.drop 4)
      else if pyStartsWith s (pstr "true") then some (Json.bool true, s.drop 4)
      else if pyStartsWith s (pstr "false") then some (Json.bool false, s.drop 5)
      else if pyStartsWith s (pstr "NaN") then some (Json.num (pstr "NaN"), s.drop 3)
      else if pyStartsWith s (pstr "Infinity") then
        some (Json.num (pstr "Infinity"), s.drop 8)
      else if pyStartsWith s (pstr "-Infinity") then
        some (Json.num (pstr "-Infinity"), s.drop 9)
      else (parseJNumber s).map fun r => (Json.num r.1, r.2)
  | fuel + 1, PTask.objBody acc first, s =>
    match s with
    | '}' :: rest => if first then some (Json.obj [], rest) else none
    | '"' :: cs =>
      match parseJString (fuel + 1) cs with
      | none => none
      | some (k, r1) =>
        match skipWs r1 with
        | ':' :: r2 =>
          match parseJ fuel PTask.value (skipWs r2) with
          | none => none
          | some (v, r3) =>
            let acc' := objInsert acc k v
            match skipWs r3 with
            | ',' :: r4 => parseJ fuel (PTask.objBody acc' false) (skipWs r4)
            | '}' :: r4 => some (Json.obj acc', r4)
            | _ => none
        | _ => none
    | _ => none
  | fuel + 1, PTask.arrBody acc first, s =>
    match s, first with
    | ']' :: rest, true => some (Json.arr [], rest)
    | _, _ =>
      match parseJ fuel PTask.value s with
      | none => none
      | some (v, r1) =>
        match skipWs r1 with
        | ',' :: r2 => parseJ fuel (PTask.arrBody (acc ++ [v]) false) (skipWs r2)
        | ']' :: r2 => some (Json.arr (acc ++ [v]), r2)
        | _ => none

/-- `json.loads`: parse a full document; anything but trailing whitespace
after the value is an error.  `none` models `json.JSONDecodeError`. -/
def jsonLoads (s : PStr) : Option Json :=
  match parseJ (s.length + 1) PTask.value (skipWs s) with
  | some (v, rest) => if skipWs rest = [] then some v else none
  | none => none

/-! ## `ReflectionAgent._parse_response` -/

/-- Right-strip of Python/`re` whitespace. -/
def pyRstrip (s : PStr) : PStr := (s.reverse.dropWhile isPySpace).reverse

/-- Split a string at its first occurrence of three backticks, returning
the part before and the part after the backticks. -/
def splitAtTicks : PStr → Option (PStr × PStr)
  | [] => none
  | c :: cs =>
    if pyStartsWith (c :: cs) (pstr "```") then some ([], (c :: cs).drop 3)
    else (splitAtTicks cs).map fun r => (c :: r.1, r.2)

/-- The matched group of `re.search(r'```(?:json)?\s*([\s\S]*?)\s*```', s)`
at one candidate start (the text directly after an opening fence): skip an
optional `json` and greedy whitespace, then take everything up to the next
fence, right-stripping whitespace (no fence means no match here). -/
def fencedHere (afterTicks : PStr) : Option PStr :=
  let afterJson :=
    if pyStartsWith afterTicks (pstr "json") then afterTicks.drop 4 else afterTicks
  let content := afterJson.dropWhile isPySpace
  (splitAtTicks content).map fun r => pyRstrip r.1

/-- The whole search: try each start position left to right (`re.search`
semantics for a pattern anchored on a literal fence). -/
def fencedExtract : PStr → Option PStr
  | [] => none
  | c :: cs =>
    if pyStartsWith (c :: cs) (pstr "```") then
      match fencedHere ((c :: cs).drop 3) with
      | some g => some g
      | none => fencedExtract cs
    else fencedExtract cs

/-- `re.search(r'\{[\s\S]*\}', s)`: the span from the first `{` to the
last `}` after it, if any. -/
def braceExtract (s : PStr) : Option PStr :=
  match s.dropWhile fun c => !(c = '{') with
  | [] => none
  | c :: rest =>
    match rest.reverse.dropWhile fun d => !(d = '}') with
    | [] => none
    | tail => some (c :: tail.reverse)

/-- `ReflectionAgent._parse_response`: try `json.loads` directly; on
failure find a fenced block and parse its contents (a parse error here
propagates — the call is outside the `try`); otherwise find a `{...}`
span and parse it (same caveat); otherwise return `{}`.  `Except.error`
models an uncaught `json.JSONDecodeError`. -/
def parse_response (response_text : PStr) : Except Unit Json :=
  match jsonLoads response_text with
  | some v => .ok v
  | none =>
    match fencedExtract response_text with
    | some g =>
      match jsonLoads g with
      | some v => .ok v
      | none => .error ()
    | none =>
      match braceExtract response_text with
      | some h =>
        match jsonLoads h with
        | some v => .ok v
        | none => .error ()
      | none => .ok (Json.obj [])

/-! ## `ReflectionAgent._normalize_extraction` -/

/-- Python `category in raw` on a decoded JSON value: key membership for
objects, element equality for lists, substring for strings, `TypeError`
otherwise. -/
def jsonHasCat (raw : Json) (cat : PStr) : Except Unit Bool :=
  match raw with
  | .obj kvs => .ok (kvs.any fun p => p.1 = cat)
  | .arr xs => .ok (xs.any fun j => match j with | .str t => t = cat | _ => false)
  | .str s => .ok (decide (cat <:+: s))
  | _ => .error ()

/-- Python `raw[category]`: object lookup; `TypeError` for lists (string
index) and strings. -/
def jsonGetItem (raw : Json) (cat : PStr) : Except Unit Json :=
  match raw with
  | .obj kvs => .ok (((kvs.find? fun p => p.1 = cat).map Prod.snd).getD .null)
  | _ => .error ()

/-- Python `cat_data.items()`: only mappings have it (`AttributeError`
otherwise). -/
def jsonItems (catData : Json) : Except Unit (List (PStr × Json)) :=
  match catData with
  | .obj kvs => .ok kvs
  | _ => .error ()

/-- Buckets of one normalised category. -/
abbrev RawBuckets := List (Option PStr × List Json)

/-- Python dict assignment `normalized[key] = facts` on the bucket dict. -/
def bucketInsert (l : RawBuckets) (k : Option PStr) (v : List Json) : RawBuckets :=
  if l.any fun p => p.1 = k then
    l.map fun p => if p.1 = k then (k, v) else p
  else l ++ [(k, v)]

/-- The inner loop of `_normalize_extraction`: map the subcategory keys
`"null"`/`"None"` to the no-subcategory bucket and keep only values that
are lists. -/
def normCatBuckets (kvs : List (PStr × Json)) : RawBuckets :=
  kvs.foldl
    (fun acc p =>
      let key : Option PStr :=
        if p.1 = pstr "null" ∨ p.1 = pstr "None" then none else some p.1
      match p.2 with
      | .arr xs => bucketInsert acc key xs
      | _ => acc)
    []

/-- `ReflectionAgent._normalize_extraction`: keep only the fixed
categories, normalise each category's buckets, and drop categories whose
normalised dict is empty. -/
def normalize_extraction (raw : Json) :
    Except Unit (List (PStr × RawBuckets)) :=
  CATEGORIES.foldlM
    (fun acc cat => do
      let has ← jsonHasCat raw cat
      if has then
        let catData ← jsonGetItem raw cat
        let kvs ← jsonItems catData
        let normalized := normCatBuckets kvs
        pure (if normalized.isEmpty then acc else acc ++ [(cat, normalized)])
      else pure acc)
    []

/-! ## `ReflectionAgent.process` -/

/-- Every fact of every bucket must be a string — `merge_facts` calls
`fact.startswith` on each, raising `AttributeError` otherwise (before the
category's write-back, so a failing category leaves its file untouched). -/
def bucketsAsStrs (bs : RawBuckets) :
    Except Unit (List (Option PStr × List PStr)) :=
  bs.mapM fun p => do
    let facts ← p.2.mapM fun j =>
      match j with
      | Json.str s => Except.ok s
      | _ => Except.error ()
    pure (p.1, facts)

/-- `ReflectionAgent.process` as a function of the oracle's response text:
parse, normalise, then merge each extracted category in order, collecting
the categories with at least one added fact. -/
def process (fs : Files) (response_text today : PStr) :
    Except Unit (Files × List (PStr × Nat)) := do
  let raw ← parse_response response_text
  let extracted ← normalize_extraction raw
  extracted.foldlM
    (fun st entry => do
      let data ← bucketsAsStrs entry.2
      let r := merge_facts st.1 entry.1 data today
      pure (r.1, if 0 < r.2 then st.2 ++ [(entry.1, r.2)] else st.2))
    (fs, [])

/-! ## `ReflectionScheduler`

The scheduler state: the memory directory, the message ledger (the
database), the `_last_run` baseline and the mutual-exclusion lock. -/

structure Msg where
  id : Nat
  role : PStr
  content : PStr
  processed : Bool

/-- The message ledger: messages in timestamp order, plus the reflection
log. A log entry is `(last_processed_id, messages_processed,
categories_updated)`. -/
structure Ledger where
  msgs : List Msg
  logs : List (Nat × Nat × List PStr)

/-- `MessageRepository.get_unprocessed_count`. -/
def get_unprocessed_count (l : Ledger) : Nat :=
  (l.msgs.filter fun m => !m.processed).length

/-- `MessageRepository.get_unprocessed_messages(limit)`: oldest first. -/
def get_unprocessed_messages (l : Ledger) (limit : Nat) : List Msg :=
  (l.msgs.filter fun m => !m.processed).take limit

/-- `MessageRepository.mark_messages_processed`. -/
def mark_messages_processed (l : Ledger) (ids : List Nat) : Ledger :=
  { l with msgs := l.msgs.map fun m =>
      if ids.contains m.id then { m with processed := true } else m }

/-- `ReflectionLogRepository.log_reflection`. -/
def log_reflection (l : Ledger) (lastId count : Nat) (cats : List PStr) : Ledger :=
  { l with logs := l.logs ++ [(lastId, count, cats)] }

/-- `ReflectionScheduler._check_and_run`'s firing condition:
`(time_trigger or message_trigger) and unprocessed_count > 0`. -/
def check_and_run_fires (time_elapsed time_interval : ℚ)
    (unprocessed_count message_threshold : Nat) : Bool :=
  (decide (time_interval ≤ time_elapsed) ||
    decide (message_threshold ≤ unprocessed_count)) &&
  decide (0 < unprocessed_count)

/-- The mutable scheduler-plus-world state seen by `_run_reflection`. -/
structure SchedState where
  files : Files
  ledger : Ledger
  lastRun : ℚ
  lockFree : Bool

/-- `ReflectionScheduler._run_reflection`, parametrised by the outcome of
`self.reflection_agent.process` (which may fail — oracle error, storage
error, non-string fact — after having written some category files; the
first component is the possibly partially-updated directory).  The
database session commits at the end of the `with get_db()` block and rolls
back on an exception, so the ledger changes only on full success;
`_last_run` is assigned only after the logging step. -/
def run_reflection (proc : Files → Files × Except Unit (List (PStr × Nat)))
    (st : SchedState) (now : ℚ) : SchedState × Except Unit Unit :=
  let msgs := get_unprocessed_messages st.ledger 20
  if msgs.isEmpty then ({ st with lockFree := true }, .ok ())
  else
    match proc st.files with
    | (files', .error e) => ({ st with files := files', lockFree := true }, .error e)
    | (files', .ok results) =>
      let ids := msgs.map Msg.id
      let l1 := mark_messages_processed st.ledger ids
      let l2 := log_reflection l1 (ids.getLast?.getD 0) msgs.length
        (results.map Prod.fst)
      ({ files := files', ledger := l2, lastRun := now, lockFree := true }, .ok ())

/-! ## The mutual-exclusion model for the reflection critical section

Both entry points — the scheduled path (`_check_and_run` →
`_run_reflection`) and the forced path (`force_run`, which starts a thread
running `_run_reflection`) — execute `with self._lock: ...` around the
whole body.  We model the two threads as programs `acquire; write^n;
release` over a shared lock, with an interleaving small-step semantics;
`trace` records the order of store/ledger mutations. -/

inductive Tid where
  | sched : Tid
  | forced : Tid
deriving DecidableEq

/-- A state of the two-thread system.  `pc = 0`: before the `with`
statement; `1 ≤ pc ≤ n+1`: inside the critical section having done
`pc - 1` of its `n` mutations; `pc = n+2`: finished (lock released). -/
structure CSys where
  pcS : Nat
  pcF : Nat
  lock : Option Tid
  trace : List Tid

/-- Interleaving semantics: each thread can acquire the free lock, perform
its next mutation inside the critical section, or release at the end. -/
inductive CStep (nS nF : Nat) : CSys → CSys → Prop where
  | acqS (s : CSys) : s.pcS = 0 → s.lock = none →
      CStep nS nF s { s with pcS := 1, lock := some .sched }
  | wrS (s : CSys) : 1 ≤ s.pcS → s.pcS ≤ nS →
      CStep nS nF s { s with pcS := s.pcS + 1, trace := s.trace ++ [.sched] }
  | relS (s : CSys) : s.pcS = nS + 1 →
      CStep nS nF s { s with pcS := nS + 2, lock := none }
  | acqF (s : CSys) : s.pcF = 0 → s.lock = none →
      CStep nS nF s { s with pcF := 1, lock := some .forced }
  | wrF (s : CSys) : 1 ≤ s.pcF → s.pcF ≤ nF →
      CStep nS nF s { s with pcF := s.pcF + 1, trace := s.trace ++ [.forced] }
  | relF (s : CSys) : s.pcF = nF + 1 →
      CStep nS nF s { s with pcF := nF + 2, lock := none }

/-- Both threads idle, lock free, nothing written. -/
def initCSys : CSys := ⟨0, 0, none, []⟩

/-- The reachable states of the two-thread system. -/
def CReach (nS nF : Nat) (s : CSys) : Prop :=
  Relation.ReflTransGen (CStep nS nF) initCSys s

/-- The scheduled thread is inside the critical section. -/
def inCritS (nS : Nat) (s : CSys) : Prop := 1 ≤ s.pcS ∧ s.pcS ≤ nS + 1

/-- The forced thread is inside the critical section. -/
def inCritF (nF : Nat) (s : CSys) : Prop := 1 ≤ s.pcF ∧ s.pcF ≤ nF + 1

/-- Number of mutations the scheduled thread has performed. -/
def wCountS (nS : Nat) (s : CSys) : Nat :=
  if s.pcS = 0 then 0 else min (s.pcS - 1) nS

/-- Number of mutations the forced thread has performed. -/
def wCountF (nF : Nat) (s : CSys) : Nat :=
  if s.pcF = 0 then 0 else min (s.pcF - 1) nF

/-- The inductive invariant: program counters in range, the lock is held
by whichever thread is inside the critical section, and the mutation trace
is two contiguous blocks — a block may only follow another thread's
nonempty block if that thread has finished. -/
def CInv (nS nF : Nat) (s : CSys) : Prop :=
  s.pcS ≤ nS + 2 ∧ s.pcF ≤ nF + 2 ∧
  (inCritS nS s → s.lock = some .sched) ∧
  (inCritF nF s → s.lock = some .forced) ∧
  ((s.trace = List.replicate (wCountS nS s) .sched ++
      List.replicate (wCountF nF s) .forced ∧
      (1 ≤ wCountF nF s → wCountS nS s = 0 ∨ s.pcS = nS + 2)) ∨
   (s.trace = List.replicate (wCountF nF s) .forced ++
      List.replicate (wCountS nS s) .sched ∧
      (1 ≤ wCountS nS s → wCountF nF s = 0 ∨ s.pcF = nF + 2)))

/-! ## Helper notions used by the theorems -/

/-- The `(subcategory, fact)` pairs of a store, bucket by bucket. -/
def storePairs (st : Store) : List (Option PStr × PStr) :=
  st.flatMap fun p => p.2.map fun f => (p.1, f)

/-- All fact lines of a store, in bucket order. -/
def storeFacts (st : Store) : List PStr := st.flatMap Prod.snd

/-- Strip subcategory names and fact lines (trailing/leading whitespace is
not semantically significant in the file format). -/
def stripStore (st : Store) : Store :=
  st.map fun p => (p.1.map pyStrip, p.2.map pyStrip)

/-- The stripped lines of a file that the store parser collects as facts. -/
def dashLines (content : PStr) : List PStr :=
  ((splitNl content).map pyStrip).filter fun l => pyStartsWith l (pstr "- ")

/-- The significant lines of a line list: each line stripped, blank lines
dropped (the parser of `read_category` ignores everything else). -/
def sigOf (xs : List PStr) : List PStr :=
  (xs.map pyStrip).filter fun l => !l.isEmpty

/-- The significant lines emitted by `write_category` for one non-empty
named bucket. -/
def blockSig (b : PStr × List PStr) : List PStr :=
  pyStrip (pstr "## " ++ b.1) :: b.2.map pyStrip

/-- A well-formed fact line for the round-trip: a single line whose
stripped form carries the `- ` marker. -/
def WFFact (f : PStr) : Prop :=
  '\n' ∉ f ∧ pyStartsWith (pyStrip f) (pstr "- ") = true

/-- A well-formed subcategory label: a single line with visible content. -/
def WFKey (k : PStr) : Prop := '\n' ∉ k ∧ pyStrip k ≠ []

/-- A well-formed category store (hypotheses of the round-trip):
every fact of a non-empty bucket is a fact line, every non-empty bucket's
label is usable, and the keys are distinct (it models a `dict`). -/
def WFStore (st : Store) : Prop :=
  (∀ p ∈ st, p.2 ≠ [] → (∀ f ∈ p.2, WFFact f) ∧ ∀ k, p.1 = some k → WFKey k) ∧
  (storeKeys st).Nodup

/-- An incoming oracle fact that merges reversibly: a single line with no
trailing whitespace. -/
def WFNewFact (s : PStr) : Prop := '\n' ∉ s ∧ pyRstrip s = s

/-- Decidable form of the incoming-fact condition on a raw JSON fact:
string facts are single-line with no trailing whitespace (non-strings are
rejected later by the merge and need no condition). -/
def factWF (j : Json) : Bool :=
  match j with
  | Json.str s => decide ('\n' ∉ s) && decide (pyRstrip s = s)
  | _ => true

/-- Decidable form of the subcategory-key condition: a usable, stripped,
single-line label. -/
def keyWF (k : Option PStr) : Bool :=
  match k with
  | some s => decide ('\n' ∉ s) && !(pyStrip s).isEmpty && decide (pyStrip s = s)
  | none => true

/-- The invariant of the stores handled by `merge_facts`: every fact is a
self-stripped single-line `- ` item, every named key is a usable stripped
single-line label, and the keys are distinct. -/
def StoreInv (st : Store) : Prop :=
  (∀ p ∈ st, (∀ f ∈ p.2, WFFact f ∧ pyStrip f = f) ∧
    ∀ k, p.1 = some k → WFKey k ∧ pyStrip k = k) ∧
  (storeKeys st).Nodup

/-- A date string that the dedup normalisation can strip back out. -/
def WFDate (d : PStr) : Prop := '\n' ∉ d ∧ ')' ∉ d

/-- All string facts in a parsed-and-normalised extraction are
well-formed (hypothesis of the idempotence theorem). -/
def ExtractWF (r : PStr) : Prop :=
  ∀ raw ex, parse_response r = .ok raw → normalize_extraction raw = .ok ex →
    ∀ e ∈ ex, ∀ b ∈ e.2, (∀ j ∈ b.2, factWF j = true) ∧ keyWF b.1 = true

/-- Two consecutive `process` calls with the same response: the added
counts reported by the second call. -/
def processTwice (fs : Files) (r d1 d2 : PStr) :
    Except Unit (List (PStr × Nat)) := do
  let s1 ← process fs r d1
  let s2 ← process s1.1 r d2
  pure s2.2

/-- The `all_existing` list at the end of one `merge_facts` call. -/
def merge_all_existing (fs : Files) (category : PStr)
    (new_data : List (Option PStr × List PStr)) (today : PStr) : List PStr :=
  (new_data.foldl (mergeSubStep today)
    (read_category (fs category),
     storeFacts (read_category (fs category)), 0)).2.1

/-- The facts accepted (appended to `all_existing`) during one
`merge_facts` call, in acceptance order. -/
def merge_added (fs : Files) (category : PStr)
    (new_data : List (Option PStr × List PStr)) (today : PStr) : List PStr :=
  (merge_all_existing fs category new_data today).drop
    (storeFacts (read_category (fs category))).length

/-- Two fact lines the duplicate filter would conflate. -/
def SimilarAtLeast (x y : PStr) : Prop :=
  dupThreshold ≤ similarity (cleanFact x) (cleanFact y)

/-- How a merge step may extend the duplicate-check state: `all_existing`
grows by a tail of accepted facts, the added count grows by the tail's
length, the tail is internally duplicate-free, and nothing in the tail is
a duplicate of what was already present. -/
def MergeExt (ms ms' : MergeState) : Prop :=
  ∃ t, ms'.2.1 = ms.2.1 ++ t ∧ ms'.2.2 = ms.2.2 + t.length ∧
    List.Pairwise (fun x y => ¬ SimilarAtLeast x y) t ∧
    ∀ x ∈ ms.2.1, ∀ y ∈ t, ¬ SimilarAtLeast x y

/-- `subcategory in ("null", "None", None)` of `_normalize_extraction`. -/
def normSubKey (k : PStr) : Option PStr :=
  if k = pstr "null" ∨ k = pstr "None" then none else some k

/-- First-match object lookup (Python `dict` access; keys are unique). -/
def objLookup (kvs : List (PStr × Json)) (k : PStr) : Option Json :=
  (kvs.find? fun p => p.1 = k).map Prod.snd

/-- The buckets `_normalize_extraction` keeps for one category whose
normalised subcategory keys are distinct: exactly the list-valued entries,
in order, under their normalised keys. -/
def keptBuckets (inner : List (PStr × Json)) : RawBuckets :=
  inner.filterMap fun q =>
    match q.2 with
    | Json.arr xs => some (normSubKey q.1, xs)
    | _ => none

/-- What `_normalize_extraction` returns on a mapping-of-mappings input. -/
def normalizeSpec (kvs : List (PStr × Json)) : List (PStr × RawBuckets) :=
  CATEGORIES.filterMap fun cat =>
    match objLookup kvs cat with
    | some (Json.obj inner) =>
      if (keptBuckets inner).isEmpty then none else some (cat, keptBuckets inner)
    | _ => none

/-- Well-formedness of one parsed category's data as handed to
`merge_facts`: every fact is a clean single line and every named
subcategory label is usable. -/
def GoodData (data : List (Option PStr × List PStr)) : Prop :=
  ∀ b ∈ data, (∀ c ∈ b.2, WFNewFact c) ∧
    ∀ k, b.1 = some k → WFKey k ∧ pyStrip k = k

/-- The invariant carried through the merge fold: the store satisfies the
store invariant and `all_existing` only holds facts present in the store. -/
def MergeInv (ms : MergeState) : Prop :=
  StoreInv ms.1 ∧ ∀ x ∈ ms.2.1, x ∈ storeFacts ms.1

/-- One step of the category fold inside `_normalize_extraction`. -/
def normStep (raw : Json) (acc : List (PStr × RawBuckets)) (cat : PStr) :
    Except Unit (List (PStr × RawBuckets)) := do
  let has ← jsonHasCat raw cat
  if has then
    let catData ← jsonGetItem raw cat
    let kvs ← jsonItems catData
    let normalized := normCatBuckets kvs
    pure (if normalized.isEmpty then acc else acc ++ [(cat, normalized)])
  else pure acc

/-- One step of the category fold inside `process`. -/
def procStep (today : PStr) (st : Files × List (PStr × Nat))
    (entry : PStr × RawBuckets) :
    Except Unit (Files × List (PStr × Nat)) := do
  let data ← bucketsAsStrs entry.2
  let r := merge_facts st.1 entry.1 data today
  pure (r.1, if 0 < r.2 then st.2 ++ [(entry.1, r.2)] else st.2)

/-! ## Concrete instances used in witnesses and counterexamples -/

/-- An empty memory directory. -/
def emptyFiles : Files := fun _ => []

def dateD1 : PStr := pstr "2026-10-12"

def dateD2 : PStr := pstr "2026-10-13"

/-- An oracle response whose extracted fact contains a newline: the
idempotence counterexample. -/
def respNl : PStr :=
  pstr "\x7b\"goals\": \x7b\"null\": [\"- wants\\nto learn rust and ocaml deeply\"]\x7d\x7d"

/-- A well-formed oracle response (single-line facts, no trailing
whitespace). -/
def respOk : PStr :=
  pstr "Sure! ```json\n\x7b\"goals\": \x7b\"null\": [\"- wants to learn Rust\"]\x7d\x7d\n``` done"

/-- The first `process` run on the well-formed response. -/
def run1W : Except Unit (Files × List (PStr × Nat)) :=
  process emptyFiles respOk dateD1

/-- The directory produced by the first run. -/
def fs1W : Files :=
  match run1W with
  | .ok s => s.1
  | .error _ => emptyFiles

/-- The category counts reported by the first run. -/
def res1W : List (PStr × Nat) :=
  match run1W with
  | .ok s => s.2
  | .error _ => []

/-- Existing stored fact for the batch-dedup counterexample. -/
def factX : PStr := pstr "- the user likes tea q (2025-01-01)"

/-- Earlier candidate: near-duplicate of `factX` (rejected). -/
def candC1 : PStr := pstr "the user likes tea qwvxyzj"

/-- Later candidate: near-duplicate of `candC1` but not of `factX`
(accepted). -/
def candC2 : PStr := pstr "the user likes tea qwvxyzjkm"

/-- A directory whose `preferences` store holds `factX`. -/
def filesPref : Files :=
  updateFile emptyFiles (pstr "preferences")
    (pstr "# Preferences\n- the user likes tea q (2025-01-01)\n")

/-- Witness store for the round-trip. -/
def storeW : Store :=
  [(none, [pstr "- a"]), (some (pstr "Work"), [pstr "- b", pstr "- c"])]

def msg1 : Msg := { id := 1, role := pstr "user", content := pstr "hi", processed := false }

def ledger1 : Ledger := { msgs := [msg1], logs := [] }

def schedSt1 : SchedState :=
  { files := emptyFiles, ledger := ledger1, lastRun := 0, lockFree := true }

/-- A `process` outcome that raises (oracle/storage failure). -/
def failProc : Files → Files × Except Unit (List (PStr × Nat)) :=
  fun fs => (fs, .error ())

/-- A `process` outcome that succeeds with one updated category. -/
def okProc : Files → Files × Except Unit (List (PStr × Nat)) :=
  fun fs => (fs, .ok [(pstr "goals", 2)])

/-- A state of the lock model with the scheduled thread inside the
critical section. -/
def inCritState : CSys := ⟨1, 0, some .sched, []⟩

/-- Non-mapping category value: the normalisation counterexample. -/
def rawBadGoals : Json := Json.obj [(pstr "goals", Json.num (pstr "7"))]

/-- A normalisation witness input. -/
def rawGood : Json :=
  Json.obj
    [(pstr "goals", Json.obj
        [(pstr "null", Json.arr [Json.str (pstr "- wants to learn Rust")]),
         (pstr "Sub", Json.str (pstr "oops")),
         (pstr "other", Json.num (pstr "3"))]),
     (pstr "not_a_category", Json.obj
        [(pstr "null", Json.arr [Json.str (pstr "- dropped")])]),
     (pstr "habits", Json.obj [(pstr "x", Json.num (pstr "1"))])]

/-! # Theorems -/

/-- C2: on an Idle-state tick, a reflection run is triggered iff the
unprocessed count is positive and (the elapsed time reaches
`time_interval` or the count reaches `message_threshold`); with the
default configuration, 3 messages at 301 s fires, 3 messages at 50 s does
not, 0 messages at 301 s does not. -/
theorem scheduler_trigger_iff :
    (∀ (elapsed ti : ℚ) (count mt : Nat),
      check_and_run_fires elapsed ti count mt = true ↔
        (0 < count ∧ (ti ≤ elapsed ∨ mt ≤ count))) ∧
    check_and_run_fires 301 300 3 5 = true ∧
    check_and_run_fires 50 300 3 5 = false ∧
    check_and_run_fires 301 300 0 5 = false := by
  refine ⟨?_, ?_, ?_, ?_⟩
  · intro e ti c mt
    simp only [check_and_run_fires, Bool.and_eq_true, Bool.or_eq_true,
      decide_eq_true_eq]
    tauto
  · simp only [check_and_run_fires, Bool.and_eq_true, Bool.or_eq_true,
      decide_eq_true_eq]
    norm_num
  · simp only [check_and_run_fires, Bool.and_eq_true, Bool.or_eq_true,
      decide_eq_true_eq]
    norm_num
  · simp only [check_and_run_fires, Bool.and_eq_true, Bool.or_eq_true,
      decide_eq_true_eq]
    norm_num

/-- C7: if the run fails after fetching a non-empty batch (the
`process` call raises — oracle error/timeout or a store read/write
failure), the exception aborts the run: no message is marked processed,
no reflection log entry is written, the ledger is unchanged, and the next
fetch returns the same messages. -/
theorem reflection_failure_aborts
    (proc : Files → Files × Except Unit (List (PStr × Nat)))
    (st : SchedState) (now : ℚ) (files' : Files)
    (hne : (get_unprocessed_messages st.ledger 20).isEmpty = false)
    (hfail : proc st.files = (files', Except.error ())) :
    (run_reflection proc st now).1.ledger.msgs = st.ledger.msgs ∧
    (run_reflection proc st now).1.ledger.logs = st.ledger.logs ∧
    (run_reflection proc st now).1.lastRun = st.lastRun ∧
    get_unprocessed_messages (run_reflection proc st now).1.ledger 20 =
      get_unprocessed_messages st.ledger 20 ∧
    (run_reflection proc st now).2 = Except.error () := by
  simp [run_reflection, hne, hfail]

/-- Witness for the failure-abort theorem at a concrete state. -/
theorem reflection_failure_aborts_witness :
    (run_reflection failProc schedSt1 5).1.ledger.msgs = schedSt1.ledger.msgs ∧
    (run_reflection failProc schedSt1 5).2 = Except.error () := by
  have h := reflection_failure_aborts failProc schedSt1 5 emptyFiles rfl rfl
  exact ⟨h.1, h.2.2.2.2⟩

/-- C8 (amended): on successful completion of a run that fetched a
non-empty batch, the completion time becomes the new baseline and the
lock is released; on failure, or when the fetch was empty, the run still
releases the lock but leaves the baseline unchanged. -/
theorem reflection_baseline
    (proc : Files → Files × Except Unit (List (PStr × Nat)))
    (st : SchedState) (now : ℚ) :
    (∀ files' results,
      (get_unprocessed_messages st.ledger 20).isEmpty = false →
      proc st.files = (files', Except.ok results) →
      (run_reflection proc st now).1.lastRun = now ∧
      (run_reflection proc st now).1.lockFree = true) ∧
    (∀ files',
      (get_unprocessed_messages st.ledger 20).isEmpty = false →
      proc st.files = (files', Except.error ()) →
      (run_reflection proc st now).1.lastRun = st.lastRun ∧
      (run_reflection proc st now).1.lockFree = true) ∧
    ((get_unprocessed_messages st.ledger 20).isEmpty = true →
      (run_reflection proc st now).1.lastRun = st.lastRun ∧
      (run_reflection proc st now).1.lockFree = true) := by
  refine ⟨?_, ?_, ?_⟩
  · intro files' results hne hok
    simp [run_reflection, hne, hok]
  · intro files' hne hfail
    simp [run_reflection, hne, hfail]
  · intro hempty
    simp [run_reflection, hempty]

/-- Witness for the baseline theorem: a successful run at `now = 5`
records `5`, and a failing run leaves the old baseline. -/
theorem reflection_baseline_witness :
    (run_reflection okProc schedSt1 5).1.lastRun = 5 ∧
    (run_reflection failProc schedSt1 5).1.lastRun = 0 := by
  refine ⟨((reflection_baseline okProc schedSt1 5).1 emptyFiles
    [(pstr "goals", 2)] rfl rfl).1, ?_⟩
  have h := ((reflection_baseline failProc schedSt1 5).2.1 emptyFiles rfl rfl).1
  exact h

/-- C8's original form is false: a failing run does not record the
completion time — the baseline stays at its old value. -/
theorem reflection_baseline_counterexample :
    (run_reflection failProc schedSt1 5).2 = Except.error () ∧
    (run_reflection failProc schedSt1 5).1.lastRun = 0 ∧ (0 : ℚ) ≠ 5 := by
  refine ⟨rfl, rfl, by norm_num⟩

/-- C3 (amended): the parser tries (a) a direct parse, then (b) the first
fenced code block, then (c) the first `{...}` span; when tier (a) fails
and neither pattern occurs, it returns the empty extraction without
raising; but when a pattern is found whose content fails to parse, the
`json.JSONDecodeError` propagates to the caller (the `json.loads` calls of
tiers (b) and (c) are outside the `try`). -/
theorem parse_response_tiers (r : PStr) :
    (∀ v, jsonLoads r = some v → parse_response r = Except.ok v) ∧
    (jsonLoads r = none → ∀ g, fencedExtract r = some g →
      parse_response r =
        (match jsonLoads g with
         | some v => Except.ok v
         | none => Except.error ())) ∧
    (jsonLoads r = none → fencedExtract r = none → ∀ h, braceExtract r = some h →
      parse_response r =
        (match jsonLoads h with
         | some v => Except.ok v
         | none => Except.error ())) ∧
    (jsonLoads r = none → fencedExtract r = none → braceExtract r = none →
      parse_response r = Except.ok (Json.obj [])) := by
  refine ⟨?_, ?_, ?_, ?_⟩
  · intro v hv
    simp only [parse_response, hv]
  · intro hnone g hg
    simp only [parse_response, hnone, hg]
  · intro hnone hfen h hh
    simp only [parse_response, hnone, hfen, hh]
  · intro hnone hfen hbr
    simp only [parse_response, hnone, hfen, hbr]

/-- Witness: a pattern-free unparseable response yields the empty
extraction without an error. -/
theorem parse_response_tiers_witness :
    parse_response (pstr "just words") = Except.ok (Json.obj []) :=
  (parse_response_tiers (pstr "just words")).2.2.2 rfl rfl rfl

/-- C3's original form is false: when the fenced block's content is not
valid JSON, `_parse_response` raises instead of returning the empty
extraction. -/
theorem parse_response_counterexample :
    parse_response (pstr "x ```json\nhello\n``` y") = Except.error () := by rfl

/-- The invariant holds initially. -/
theorem cinv_init (nS nF : Nat) : CInv nS nF initCSys := by
  refine ⟨by simp [initCSys], by simp [initCSys], ?_, ?_, ?_⟩
  · intro h
    exact absurd h.1 (by simp [initCSys])
  · intro h
    exact absurd h.1 (by simp [initCSys])
  · left
    simp [initCSys, wCountS, wCountF]

/-- The invariant is preserved by every step of either thread. -/
theorem cinv_step {nS nF : Nat} {s s' : CSys} (hinv : CInv nS nF s)
    (hstep : CStep nS nF s s') : CInv nS nF s' := by
  obtain ⟨hb1, hb2, hl1, hl2, htr⟩ := hinv
  cases hstep with
  | acqS hpc hlock =>
    refine ⟨by simp <;> omega, by simpa using hb2, ?_, ?_, ?_⟩
    · intro _
      rfl
    · intro hc
      have := hl2 (by simpa [inCritF] using hc)
      rw [hlock] at this
      exact absurd this (by simp)
    · have hw : wCountS nS { s with pcS := 1, lock := some Tid.sched } = wCountS nS s := by
        simp [wCountS, hpc]
      have hw2 : wCountF nF { s with pcS := 1, lock := some Tid.sched } = wCountF nF s := rfl
      rcases htr with ⟨he, hc⟩ | ⟨he, hc⟩
      · left
        rw [hw, hw2]
        refine ⟨he, ?_⟩
        intro h1
        rcases hc h1 with h | h
        · exact Or.inl h
        · exfalso
          omega
      · right
        rw [hw, hw2]
        exact ⟨he, hc⟩
  | wrS hpc1 hpc2 =>
    have hlockS : s.lock = some Tid.sched := hl1 ⟨hpc1, by omega⟩
    have hpcF : s.pcF = 0 ∨ s.pcF = nF + 2 := by
      by_contra hcon
      push_neg at hcon
      have := hl2 ⟨by omega, by omega⟩
      rw [hlockS] at this
      simp at this
    have hwS : wCountS nS { s with pcS := s.pcS + 1, trace := s.trace ++ [Tid.sched] }
        = wCountS nS s + 1 := by
      simp only [wCountS]
      rw [if_neg (by omega), if_neg (by omega), Nat.min_eq_left (by omega),
        Nat.min_eq_left (by omega)]
      omega
    have hwF : wCountF nF { s with pcS := s.pcS + 1, trace := s.trace ++ [Tid.sched] }
        = wCountF nF s := rfl
    refine ⟨by simp <;> omega, by simpa using hb2, ?_, ?_, ?_⟩
    · intro _
      exact hlockS
    · intro hc
      exact hl2 (by simpa [inCritF] using hc)
    · rcases htr with ⟨he, hc⟩ | ⟨he, hc⟩
      · by_cases hf : 1 ≤ wCountF nF s
        · rcases hc hf with h0 | hdone
          · right
            rw [hwS, hwF]
            constructor
            · rw [h0] at he
              simp only [List.replicate_zero, List.nil_append] at he
              show s.trace ++ [Tid.sched] = _
              rw [he, h0, List.replicate_succ']
              simp
            · intro _
              right
              rcases hpcF with h | h
              · exfalso
                simp [wCountF, h] at hf
              · exact h
          · exfalso
            omega
        · left
          rw [hwS, hwF]
          have hf0 : wCountF nF s = 0 := by omega
          constructor
          · rw [hf0] at he
            simp only [List.replicate_zero, List.append_nil] at he
            show s.trace ++ [Tid.sched] = _
            rw [he, hf0, List.replicate_succ']
            simp
          · intro h1
            exfalso
            omega
      · right
        rw [hwS, hwF]
        constructor
        · show s.trace ++ [Tid.sched] = _
          rw [he, List.replicate_succ', List.append_assoc]
        · intro _
          by_cases hws : 1 ≤ wCountS nS s
          · exact hc hws
          · rcases hpcF with h | h
            · left
              simp [wCountF, h]
            · right
              exact h
  | relS hpc =>
    have hlockS : s.lock = some Tid.sched := hl1 ⟨by omega, by omega⟩
    have hnF : ¬ inCritF nF s := by
      intro hc
      have := hl2 hc
      rw [hlockS] at this
      simp at this
    have hwS : wCountS nS { s with pcS := nS + 2, lock := none } = wCountS nS s := by
      simp only [wCountS, hpc]
      rw [if_neg (by omega), if_neg (by omega), Nat.min_eq_right (by omega),
        Nat.min_eq_right (by omega)]
    have hwF : wCountF nF { s with pcS := nS + 2, lock := none } = wCountF nF s := rfl
    refine ⟨by simp, by simpa using hb2, ?_, ?_, ?_⟩
    · intro hc
      have h2 := hc.2
      simp only [] at h2
      omega
    · intro hc
      exact absurd (by simpa [inCritF] using hc) hnF
    · rcases htr with ⟨he, hc⟩ | ⟨he, hc⟩
      · left
        rw [hwS, hwF]
        refine ⟨he, ?_⟩
        intro _
        right
        rfl
      · right
        rw [hwS, hwF]
        refine ⟨he, ?_⟩
        intro h1
        exact hc h1
  | acqF hpc hlock =>
    refine ⟨by simpa using hb1, by simp <;> omega, ?_, ?_, ?_⟩
    · intro hc
      have := hl1 (by simpa [inCritS] using hc)
      rw [hlock] at this
      exact absurd this (by simp)
    · intro _
      rfl
    · have hw : wCountF nF { s with pcF := 1, lock := some Tid.forced } = wCountF nF s := by
        simp [wCountF, hpc]
      have hw2 : wCountS nS { s with pcF := 1, lock := some Tid.forced } = wCountS nS s := rfl
      rcases htr with ⟨he, hc⟩ | ⟨he, hc⟩
      · left
        rw [hw, hw2]
        exact ⟨he, hc⟩
      · right
        rw [hw, hw2]
        refine ⟨he, ?_⟩
        intro h1
        rcases hc h1 with h | h
        · exact Or.inl h
        · exfalso
          omega
  | wrF hpc1 hpc2 =>
    have hlockF : s.lock = some Tid.forced := hl2 ⟨hpc1, by omega⟩
    have hpcS : s.pcS = 0 ∨ s.pcS = nS + 2 := by
      by_contra hcon
      push_neg at hcon
      have := hl1 ⟨by omega, by omega⟩
      rw [hlockF] at this
      simp at this
    have hwF : wCountF nF { s with pcF := s.pcF + 1, trace := s.trace ++ [Tid.forced] }
        = wCountF nF s + 1 := by
      simp only [wCountF]
      rw [if_neg (by omega), if_neg (by omega), Nat.min_eq_left (by omega),
        Nat.min_eq_left (by omega)]
      omega
    have hwS : wCountS nS { s with pcF := s.pcF + 1, trace := s.trace ++ [Tid.forced] }
        = wCountS nS s := rfl
    refine ⟨by simpa using hb1, by simp <;> omega, ?_, ?_, ?_⟩
    · intro hc
      exact hl1 (by simpa [inCritS] using hc)
    · intro _
      exact hlockF
    · rcases htr with ⟨he, hc⟩ | ⟨he, hc⟩
      · left
        rw [hwS, hwF]
        constructor
        · show s.trace ++ [Tid.forced] = _
          rw [he, List.replicate_succ', List.append_assoc]
        · intro _
          by_cases hwf : 1 ≤ wCountF nF s
          · exact hc hwf
          · rcases hpcS with h | h
            · left
              simp [wCountS, h]
            · right
              exact h
      · by_cases hws : 1 ≤ wCountS nS s
        · rcases hc hws with h0 | hdone
          · left
            rw [hwS, hwF]
            constructor
            · rw [h0] at he
              simp only [List.replicate_zero, List.nil_append] at he
              show s.trace ++ [Tid.forced] = _
              rw [he, h0, List.replicate_succ']
              simp
            · intro _
              right
              rcases hpcS with h | h
              · exfalso
                simp [wCountS, h] at hws
              · exact h
          · exfalso
            omega
        · right
          rw [hwS, hwF]
          have hs0 : wCountS nS s = 0 := by omega
          constructor
          · rw [hs0] at he
            simp only [List.replicate_zero, List.append_nil] at he
            show s.trace ++ [Tid.forced] = _
            rw [he, hs0, List.replicate_succ']
            simp
          · intro h1
            exfalso
            omega
  | relF hpc =>
    have hlockF : s.lock = some Tid.forced := hl2 ⟨by omega, by omega⟩
    have hnS : ¬ inCritS nS s := by
      intro hc
      have := hl1 hc
      rw [hlockF] at this
      simp at this
    have hwF : wCountF nF { s with pcF := nF + 2, lock := none } = wCountF nF s := by
      simp only [wCountF, hpc]
      rw [if_neg (by omega), if_neg (by omega), Nat.min_eq_right (by omega),
        Nat.min_eq_right (by omega)]
    have hwS : wCountS nS { s with pcF := nF + 2, lock := none } = wCountS nS s := rfl
    refine ⟨by simpa using hb1, by simp, ?_, ?_, ?_⟩
    · intro hc
      exact absurd (by simpa [inCritS] using hc) hnS
    · intro hc
      have h2 := hc.2
      simp only [] at h2
      omega
    · rcases htr with ⟨he, hc⟩ | ⟨he, hc⟩
      · left
        rw [hwS, hwF]
        refine ⟨he, ?_⟩
        intro h1
        exact hc h1
      · right
        rw [hwS, hwF]
        refine ⟨he, ?_⟩
        intro _
        right
        rfl

/-- The invariant holds in every reachable state. -/
theorem cinv_reachable {nS nF : Nat} {s : CSys} (h : CReach nS nF s) :
    CInv nS nF s := by
  induction h with
  | refl => exact cinv_init nS nF
  | tail _ hstep ih => exact cinv_step ih hstep

/-- C9: both the scheduled and the forced entry point run the reflection
body under the same lock, so in every reachable state at most one of them
is inside the critical section, and when both runs have finished their
mutations form two contiguous blocks — one run's writes never interleave
with the other's. -/
theorem reflection_mutual_exclusion (nS nF : Nat) (s : CSys)
    (h : CReach nS nF s) :
    ¬(inCritS nS s ∧ inCritF nF s) ∧
    (s.pcS = nS + 2 → s.pcF = nF + 2 →
      s.trace = List.replicate nS Tid.sched ++ List.replicate nF Tid.forced ∨
      s.trace = List.replicate nF Tid.forced ++ List.replicate nS Tid.sched) := by
  obtain ⟨hb1, hb2, hl1, hl2, htr⟩ := cinv_reachable h
  constructor
  · rintro ⟨hS, hF⟩
    have h1 := hl1 hS
    have h2 := hl2 hF
    rw [h1] at h2
    exact absurd (Option.some.inj h2) (by simp)
  · intro hS hF
    have hwS : wCountS nS s = nS := by
      simp only [wCountS, hS]
      rw [if_neg (by omega), Nat.min_eq_right (by omega)]
    have hwF : wCountF nF s = nF := by
      simp only [wCountF, hF]
      rw [if_neg (by omega), Nat.min_eq_right (by omega)]
    rcases htr with ⟨he, _⟩ | ⟨he, _⟩
    · left
      rw [← hwS, ← hwF]
      exact he
    · right
      rw [← hwS, ← hwF]
      exact he

/-- Witness: a reachable state with the scheduled thread inside the
critical section, to which the mutual-exclusion theorem applies. -/
theorem reflection_mutual_exclusion_witness :
    CReach 1 1 inCritState ∧ ¬(inCritS 1 inCritState ∧ inCritF 1 inCritState) := by
  have hr : CReach 1 1 inCritState :=
    Relation.ReflTransGen.single (CStep.acqS initCSys rfl rfl)
  exact ⟨hr, (reflection_mutual_exclusion 1 1 inCritState hr).1⟩

/-- Inserting a fresh key appends. -/
theorem bucketInsert_of_not_mem (l : RawBuckets) (k : Option PStr)
    (v : List Json) (h : (l.any fun p => p.1 = k) = false) :
    bucketInsert l k v = l ++ [(k, v)] := by
  simp [bucketInsert, h]

/-- With distinct normalised keys, the bucket loop of
`_normalize_extraction` is a plain filter-map. -/
theorem normCat_go (inner : List (PStr × Json)) (acc : RawBuckets)
    (hnd : (inner.map fun q => normSubKey q.1).Nodup)
    (hdisj : ∀ q ∈ inner, ∀ p ∈ acc, p.1 ≠ normSubKey q.1) :
    inner.foldl
      (fun acc p =>
        let key : Option PStr :=
          if p.1 = pstr "null" ∨ p.1 = pstr "None" then none else some p.1
        match p.2 with
        | Json.arr xs => bucketInsert acc key xs
        | _ => acc)
      acc = acc ++ keptBuckets inner := by
  induction inner generalizing acc with
  | nil => simp [keptBuckets]
  | cons q rest ih =>
    simp only [List.map_cons, List.nodup_cons] at hnd
    have hkey : (if q.1 = pstr "null" ∨ q.1 = pstr "None" then none else some q.1)
        = normSubKey q.1 := rfl
    cases hq : q.2 with
    | arr xs =>
      have hfresh : (acc.any fun p => p.1 = normSubKey q.1) = false := by
        rw [List.any_eq_false]
        intro p hp
        simpa using hdisj q (by simp) p hp
      simp only [List.foldl_cons, hq, hkey, bucketInsert_of_not_mem _ _ _ hfresh]
      rw [ih _ hnd.2 ?_]
      · simp [keptBuckets, hq]
      · intro q' hq' p hp
        rcases List.mem_append.mp hp with h | h
        · exact hdisj q' (by simp [hq']) p h
        · simp only [List.mem_singleton] at h
          subst h
          intro hcon
          exact hnd.1 (by
            simp only [List.mem_map]
            exact ⟨q', hq', by rw [← hcon]⟩)
    | null =>
      simp only [List.foldl_cons, hq]
      rw [ih _ hnd.2 (fun q' hq' p hp => hdisj q' (by simp [hq']) p hp)]
      simp [keptBuckets, hq]
    | bool b =>
      simp only [List.foldl_cons, hq]
      rw [ih _ hnd.2 (fun q' hq' p hp => hdisj q' (by simp [hq']) p hp)]
      simp [keptBuckets, hq]
    | num n =>
      simp only [List.foldl_cons, hq]
      rw [ih _ hnd.2 (fun q' hq' p hp => hdisj q' (by simp [hq']) p hp)]
      simp [keptBuckets, hq]
    | str t =>
      simp only [List.foldl_cons, hq]
      rw [ih _ hnd.2 (fun q' hq' p hp => hdisj q' (by simp [hq']) p hp)]
      simp [keptBuckets, hq]
    | obj kvs' =>
      simp only [List.foldl_cons, hq]
      rw [ih _ hnd.2 (fun q' hq' p hp => hdisj q' (by simp [hq']) p hp)]
      simp [keptBuckets, hq]

/-- `normCatBuckets` equals the filter-map when normalised keys are
distinct. -/
theorem normCatBuckets_eq (inner : List (PStr × Json))
    (hnd : (inner.map fun q => normSubKey q.1).Nodup) :
    normCatBuckets inner = keptBuckets inner := by
  have := normCat_go inner [] hnd (by simp)
  simpa [normCatBuckets] using this

/-- Binding a successful `Except` computation applies the continuation. -/
theorem exceptOkBind {ε α β : Type} (a : α) (f : α → Except ε β) :
    (Except.ok a >>= f : Except ε β) = f a := rfl

/-- Binding a pure `Except` computation applies the continuation. -/
theorem exceptPureBind {ε α β : Type} (a : α) (f : α → Except ε β) :
    ((pure a : Except ε α) >>= f : Except ε β) = f a := rfl

/-- One category step of `_normalize_extraction`, under the
mapping-of-mappings hypothesis, appends what `normalizeSpec` prescribes. -/
theorem normalize_go (cats : List PStr) (kvs : List (PStr × Json))
    (acc : List (PStr × RawBuckets))
    (hvals : ∀ p ∈ kvs, p.1 ∈ cats →
      ∃ inner, p.2 = Json.obj inner ∧
        (inner.map fun q => normSubKey q.1).Nodup) :
    (cats.foldlM
      (fun acc cat => do
        let has ← jsonHasCat (Json.obj kvs) cat
        if has then
          let catData ← jsonGetItem (Json.obj kvs) cat
          let kvs' ← jsonItems catData
          let normalized := normCatBuckets kvs'
          pure (if normalized.isEmpty then acc else acc ++ [(cat, normalized)])
        else pure acc)
      acc) =
    Except.ok (acc ++ cats.filterMap fun cat =>
      match objLookup kvs cat with
      | some (Json.obj inner) =>
        if (keptBuckets inner).isEmpty then none else some (cat, keptBuckets inner)
      | _ => none) := by
  induction cats generalizing acc with
  | nil =>
    simp only [List.foldlM_nil, List.filterMap_nil, List.append_nil]
    rfl
  | cons cat rest ih =>
    rw [List.foldlM_cons]
    by_cases hhas : (kvs.any fun p => p.1 = cat) = true
    · have hex : ∃ p ∈ kvs, p.1 = cat := by simpa using hhas
      obtain ⟨p0, hp0mem, hp0⟩ := hex
      have hfind : ∃ q, kvs.find? (fun p => p.1 = cat) = some q := by
        rcases hq : kvs.find? (fun p => p.1 = cat) with _ | q
        · exfalso
          have := List.find?_eq_none.mp hq p0 hp0mem
          simp [hp0] at this
        · exact ⟨q, hq⟩
      obtain ⟨q, hq⟩ := hfind
      have hqmem : q ∈ kvs := List.mem_of_find?_eq_some hq
      have hqkey : q.1 = cat := by simpa using List.find?_some hq
      obtain ⟨inner, hinner, hnd⟩ := hvals q hqmem (by simp [hqkey])
      have hlookup : objLookup kvs cat = some (Json.obj inner) := by
        simp [objLookup, hq, hinner]
      have hstep : jsonHasCat (Json.obj kvs) cat = Except.ok true := by
        simp [jsonHasCat, hhas]
      have hget : jsonGetItem (Json.obj kvs) cat = Except.ok (Json.obj inner) := by
        simp [jsonGetItem, hq, hinner]
      have hitems : jsonItems (Json.obj inner) = Except.ok inner := rfl
      rw [hstep]
      simp only [exceptOkBind, if_true, hget, hitems, exceptPureBind,
        normCatBuckets_eq inner hnd]
      rw [ih _ (fun p hp hmem => hvals p hp (by simp [hmem]))]
      by_cases hemp : (keptBuckets inner).isEmpty
      · simp [hemp, List.filterMap_cons, hlookup]
      · simp only [hemp, Bool.false_eq_true, if_false]
        simp [List.filterMap_cons, hlookup, hemp]
    · have hhas' : (kvs.any fun p => p.1 = cat) = false :=
        Bool.eq_false_iff.mpr hhas
      have hstep : jsonHasCat (Json.obj kvs) cat = Except.ok false := by
        simp [jsonHasCat, hhas']
      have hfind : kvs.find? (fun p => p.1 = cat) = none := by
        rw [List.find?_eq_none]
        intro p hp
        have := List.any_eq_false.mp hhas' p hp
        simpa using this
      have hlookup : objLookup kvs cat = none := by
        simp [objLookup, hfind]
      rw [hstep]
      simp only [exceptOkBind, Bool.false_eq_true, if_false, exceptPureBind]
      rw [ih _ (fun p hp hmem => hvals p hp (by simp [hmem]))]
      simp [List.filterMap_cons, hlookup]

/-- C6 (amended): on a mapping whose kept-category values are mappings
(with distinct normalised subcategory keys), `_normalize_extraction`
returns — without error — exactly the enumerated categories present in
the input, each with its list-valued subcategories (the keys `"null"` and
`"None"` denoting the no-subcategory bucket), non-sequence subcategory
values dropped, and categories left empty omitted; a kept category whose
value is not a mapping instead raises (see the counterexample). -/
theorem normalize_extraction_spec (kvs : List (PStr × Json))
    (hvals : ∀ p ∈ kvs, p.1 ∈ CATEGORIES →
      ∃ inner, p.2 = Json.obj inner ∧
        (inner.map fun q => normSubKey q.1).Nodup) :
    normalize_extraction (Json.obj kvs) = Except.ok (normalizeSpec kvs) ∧
    (∀ e ∈ normalizeSpec kvs, e.1 ∈ CATEGORIES ∧ ∃ p ∈ kvs, p.1 = e.1) ∧
    (∀ e ∈ normalizeSpec kvs, e.2.isEmpty = false) ∧
    (∀ inner (q : PStr × Json) xs, q ∈ inner → q.2 = Json.arr xs →
      (normSubKey q.1, xs) ∈ keptBuckets inner) ∧
    (∀ inner (b : Option PStr × List Json), b ∈ keptBuckets inner →
      ∃ q ∈ inner, q.2 = Json.arr b.2 ∧ b.1 = normSubKey q.1) := by
  refine ⟨?_, ?_, ?_, ?_, ?_⟩
  · have := normalize_go CATEGORIES kvs [] hvals
    simpa [normalize_extraction, normalizeSpec] using this
  · intro e he
    simp only [normalizeSpec, List.mem_filterMap] at he
    obtain ⟨cat, hcat, hfe⟩ := he
    rcases hl : objLookup kvs cat with _ | v
    · rw [hl] at hfe
      simp at hfe
    · rw [hl] at hfe
      cases v with
      | obj inner =>
        by_cases hemp : (keptBuckets inner).isEmpty
        · simp [hemp] at hfe
        · simp only [hemp, Bool.false_eq_true, if_false, Option.some.injEq] at hfe
          obtain ⟨q, hq⟩ : ∃ q, kvs.find? (fun p => p.1 = cat) = some q := by
            rcases hq : kvs.find? (fun p => p.1 = cat) with _ | q
            · simp [objLookup, hq] at hl
            · exact ⟨q, hq⟩
          refine ⟨by rw [← hfe]; exact hcat, q, List.mem_of_find?_eq_some hq, ?_⟩
          have hk := List.find?_some hq
          simp only [decide_eq_true_eq] at hk
          rw [← hfe]
          exact hk
      | null => simp at hfe
      | bool b => simp at hfe
      | num n => simp at hfe
      | str t => simp at hfe
      | arr xs => simp at hfe
  · intro e he
    simp only [normalizeSpec, List.mem_filterMap] at he
    obtain ⟨cat, hcat, hfe⟩ := he
    rcases hl : objLookup kvs cat with _ | v
    · rw [hl] at hfe
      simp at hfe
    · rw [hl] at hfe
      cases v with
      | obj inner =>
        by_cases hemp : (keptBuckets inner).isEmpty
        · simp [hemp] at hfe
        · simp only [hemp, Bool.false_eq_true, if_false, Option.some.injEq] at hfe
          rw [← hfe]
          simpa using hemp
      | null => simp at hfe
      | bool b => simp at hfe
      | num n => simp at hfe
      | str t => simp at hfe
      | arr xs => simp at hfe
  · intro inner q xs hq hval
    simp only [keptBuckets, List.mem_filterMap]
    exact ⟨q, hq, by rw [hval]⟩
  · intro inner b hb
    simp only [keptBuckets, List.mem_filterMap] at hb
    obtain ⟨q, hq, hfq⟩ := hb
    refine ⟨q, hq, ?_⟩
    cases hv : q.2 with
    | arr xs =>
      rw [hv] at hfq
      simp only [Option.some.injEq] at hfq
      obtain rfl : (normSubKey q.1, xs) = b := hfq
      exact ⟨by simp [hv], rfl⟩
    | null => rw [hv] at hfq; simp at hfq
    | bool bb => rw [hv] at hfq; simp at hfq
    | num n => rw [hv] at hfq; simp at hfq
    | str t => rw [hv] at hfq; simp at hfq
    | obj kvs2 => rw [hv] at hfq; simp at hfq

/-- C6's original universal form is false: a kept category whose value is
not a mapping makes `_normalize_extraction` raise (`.items()` on a
non-dict) instead of dropping it. -/
theorem normalize_extraction_counterexample :
    normalize_extraction rawBadGoals = Except.error () := by rfl

/-- Unfolding equation of `runlen`. -/
theorem runlen_eq (a b : PStr) (junk : Char → Bool) (alo blo bhi i j : Nat) :
    runlen a b junk alo blo bhi i j =
      if alo ≤ i ∧ blo ≤ j ∧ j < bhi ∧ matchAt a b junk i j then
        (match i, j with
         | 0, _ => 1
         | _ + 1, 0 => 1
         | i' + 1, j' + 1 => runlen a b junk alo blo bhi i' j' + 1)
      else 0 := by
  rw [runlen.eq_def]

/-- A run fits between its window's left edges and its endpoint. -/
theorem runlen_le (a b : PStr) (junk : Char → Bool) (alo blo bhi : Nat) :
    ∀ i j, runlen a b junk alo blo bhi i j ≤ i + 1 - alo ∧
      runlen a b junk alo blo bhi i j ≤ j + 1 - blo := by
  intro i
  induction i with
  | zero =>
    intro j
    rw [runlen_eq]
    split
    · rename_i h
      obtain ⟨h1, h2, -, -⟩ := h
      show 1 ≤ 0 + 1 - alo ∧ 1 ≤ j + 1 - blo
      omega
    · constructor <;> omega
  | succ i' ih =>
    intro j
    rw [runlen_eq]
    split
    · rename_i h
      obtain ⟨h1, h2, -, -⟩ := h
      cases j with
      | zero =>
        show 1 ≤ i' + 1 + 1 - alo ∧ 1 ≤ 0 + 1 - blo
        omega
      | succ j' =>
        show runlen a b junk alo blo bhi i' j' + 1 ≤ i' + 1 + 1 - alo ∧
          runlen a b junk alo blo bhi i' j' + 1 ≤ j' + 1 + 1 - blo
        have := ih j'
        omega
    · constructor <;> omega

/-- A positive run means the endpoint is inside the window and matches. -/
theorem runlen_pos (a b : PStr) (junk : Char → Bool) (alo blo bhi i j : Nat)
    (h : 1 ≤ runlen a b junk alo blo bhi i j) :
    alo ≤ i ∧ blo ≤ j ∧ j < bhi ∧ matchAt a b junk i j = true := by
  rw [runlen_eq] at h
  by_cases hc : alo ≤ i ∧ blo ≤ j ∧ j < bhi ∧ matchAt a b junk i j
  · exact ⟨hc.1, hc.2.1, hc.2.2.1, hc.2.2.2⟩
  · rw [if_neg hc] at h
    omega

/-- On identical strings a match at `(i, j)` gives one at `(i, i)`. -/
theorem matchAt_diag_left (a : PStr) (junk : Char → Bool) (i j : Nat)
    (h : matchAt a a junk i j = true) : matchAt a a junk i i = true := by
  unfold matchAt at h ⊢
  rcases hx : charAt a i with _ | x
  · rw [hx] at h
    simp at h
  · rcases hy : charAt a j with _ | y
    · rw [hx, hy] at h
      simp at h
    · rw [hx, hy] at h
      simp only [Bool.and_eq_true, decide_eq_true_eq] at h
      obtain ⟨heq, h2⟩ := h
      subst heq
      simp [h2]

/-- On identical strings a match at `(i, j)` gives one at `(j, j)`. -/
theorem matchAt_diag_right (a : PStr) (junk : Char → Bool) (i j : Nat)
    (h : matchAt a a junk i j = true) : matchAt a a junk j j = true := by
  unfold matchAt at h ⊢
  rcases hx : charAt a i with _ | x
  · rw [hx] at h
    simp at h
  · rcases hy : charAt a j with _ | y
    · rw [hx, hy] at h
      simp at h
    · rw [hx, hy] at h
      simp only [Bool.and_eq_true, decide_eq_true_eq] at h
      obtain ⟨heq, h2⟩ := h
      simp [h2]

/-- On identical strings with a square window, the run ending at `(i, j)`
is at most the diagonal run ending at `(i, i)` (the endpoint's row must be
inside the window). -/
theorem runlen_le_diag_left (a : PStr) (junk : Char → Bool) (lo hi : Nat) :
    ∀ i j, i < hi →
      runlen a a junk lo lo hi i j ≤ runlen a a junk lo lo hi i i := by
  intro i
  induction i with
  | zero =>
    intro j hij
    by_cases h1 : 1 ≤ runlen a a junk lo lo hi 0 j
    · obtain ⟨h2, h3, h4, h5⟩ := runlen_pos _ _ _ _ _ _ _ _ h1
      have hd : runlen a a junk lo lo hi 0 0 = 1 := by
        rw [runlen_eq, if_pos ⟨h2, h2, hij, matchAt_diag_left _ _ _ _ h5⟩]
      have := (runlen_le a a junk lo lo hi 0 j).1
      omega
    · omega
  | succ i' ih =>
    intro j hij
    by_cases h1 : 1 ≤ runlen a a junk lo lo hi (i' + 1) j
    · obtain ⟨h2, h3, h4, h5⟩ := runlen_pos _ _ _ _ _ _ _ _ h1
      have hdm : matchAt a a junk (i' + 1) (i' + 1) = true :=
        matchAt_diag_left _ _ _ _ h5
      have hd : runlen a a junk lo lo hi (i' + 1) (i' + 1) =
          runlen a a junk lo lo hi i' i' + 1 := by
        rw [runlen_eq, if_pos ⟨h2, h2, hij, hdm⟩]
      match j with
      | 0 =>
        have : runlen a a junk lo lo hi (i' + 1) 0 = 1 := by
          rw [runlen_eq, if_pos ⟨h2, h3, h4, h5⟩]
        omega
      | j' + 1 =>
        have hstep : runlen a a junk lo lo hi (i' + 1) (j' + 1) =
            runlen a a junk lo lo hi i' j' + 1 := by
          rw [runlen_eq, if_pos ⟨h2, h3, h4, h5⟩]
        have := ih j' (by omega)
        omega
    · omega

/-- On identical strings with a square window, the run ending at `(i, j)`
is at most the diagonal run ending at `(j, j)`. -/
theorem runlen_le_diag_right (a : PStr) (junk : Char → Bool) (lo hi : Nat) :
    ∀ i j, runlen a a junk lo lo hi i j ≤ runlen a a junk lo lo hi j j := by
  intro i
  induction i with
  | zero =>
    intro j
    by_cases h1 : 1 ≤ runlen a a junk lo lo hi 0 j
    · obtain ⟨h2, h3, h4, h5⟩ := runlen_pos _ _ _ _ _ _ _ _ h1
      have hd : 1 ≤ runlen a a junk lo lo hi j j := by
        rw [runlen_eq, if_pos ⟨h3, h3, h4, matchAt_diag_right _ _ _ _ h5⟩]
        split <;> omega
      have := (runlen_le a a junk lo lo hi 0 j).1
      omega
    · omega
  | succ i' ih =>
    intro j
    by_cases h1 : 1 ≤ runlen a a junk lo lo hi (i' + 1) j
    · obtain ⟨h2, h3, h4, h5⟩ := runlen_pos _ _ _ _ _ _ _ _ h1
      have hdm : matchAt a a junk j j = true := matchAt_diag_right _ _ _ _ h5
      match j with
      | 0 =>
        have : runlen a a junk lo lo hi (i' + 1) 0 = 1 := by
          rw [runlen_eq, if_pos ⟨h2, h3, h4, h5⟩]
        have hd : runlen a a junk lo lo hi 0 0 = 1 := by
          rw [runlen_eq, if_pos ⟨h3, h3, h4, hdm⟩]
        omega
      | j' + 1 =>
        have hstep : runlen a a junk lo lo hi (i' + 1) (j' + 1) =
            runlen a a junk lo lo hi i' j' + 1 := by
          rw [runlen_eq, if_pos ⟨h2, h3, h4, h5⟩]
        have hd : runlen a a junk lo lo hi (j' + 1) (j' + 1) =
            runlen a a junk lo lo hi j' j' + 1 := by
          rw [runlen_eq, if_pos ⟨h3, h3, h4, hdm⟩]
        have := ih j'
        omega
    · omega

/-- The DP scan keeps the best block inside the window and never shrinks
it. -/
theorem dpGo_valid (a b : PStr) (junk : Char → Bool) (alo blo bhi ahi : Nat) :
    ∀ (L : List (Nat × Nat)) (bi bj bk : Nat),
      (∀ p ∈ L, alo ≤ p.1 ∧ p.1 < ahi ∧ blo ≤ p.2 ∧ p.2 < bhi) →
      alo ≤ bi → blo ≤ bj → bi + bk ≤ ahi → bj + bk ≤ bhi →
      alo ≤ (dpGo a b junk alo blo bhi L bi bj bk).1 ∧
      blo ≤ (dpGo a b junk alo blo bhi L bi bj bk).2.1 ∧
      (dpGo a b junk alo blo bhi L bi bj bk).1 +
        (dpGo a b junk alo blo bhi L bi bj bk).2.2 ≤ ahi ∧
      (dpGo a b junk alo blo bhi L bi bj bk).2.1 +
        (dpGo a b junk alo blo bhi L bi bj bk).2.2 ≤ bhi ∧
      bk ≤ (dpGo a b junk alo blo bhi L bi bj bk).2.2 := by
  intro L
  induction L with
  | nil =>
    intro bi bj bk _ h1 h2 h3 h4
    simp only [dpGo]
    exact ⟨h1, h2, h3, h4, le_refl _⟩
  | cons p ps ih =>
    intro bi bj bk hmem h1 h2 h3 h4
    obtain ⟨hp1, hp2, hp3, hp4⟩ := hmem p (by simp)
    have hrl := runlen_le a b junk alo blo bhi p.1 p.2
    simp only [dpGo]
    split
    · rename_i hlt
      have hres := ih (p.1 + 1 - runlen a b junk alo blo bhi p.1 p.2)
        (p.2 + 1 - runlen a b junk alo blo bhi p.1 p.2)
        (runlen a b junk alo blo bhi p.1 p.2)
        (fun q hq => hmem q (by simp [hq]))
        (by omega) (by omega) (by omega) (by omega)
      exact ⟨hres.1, hres.2.1, hres.2.2.1, hres.2.2.2.1, by
        have := hres.2.2.2.2
        omega⟩
    · exact ih bi bj bk (fun q hq => hmem q (by simp [hq])) h1 h2 h3 h4

/-- Membership in the scan grid. -/
theorem scanPairs_mem (alo ahi blo bhi : Nat) (p : Nat × Nat) :
    p ∈ scanPairs alo ahi blo bhi ↔
      (alo ≤ p.1 ∧ p.1 < ahi) ∧ blo ≤ p.2 ∧ p.2 < bhi := by
  obtain ⟨i, j⟩ := p
  constructor
  · intro h
    simp only [scanPairs, List.mem_flatMap, List.mem_map] at h
    obtain ⟨r, hr, c, hc, hpc⟩ := h
    have hr' := List.mem_range'_1.mp hr
    have hc' := List.mem_range'_1.mp hc
    cases hpc
    constructor
    · constructor <;> omega
    · constructor <;> omega
  · intro ⟨⟨h1, h2⟩, h3, h4⟩
    simp only [scanPairs, List.mem_flatMap, List.mem_map]
    exact ⟨i, List.mem_range'_1.mpr ⟨h1, by omega⟩,
      j, List.mem_range'_1.mpr ⟨h3, by omega⟩, rfl⟩

/-- The scan grid is ordered lexicographically. -/
theorem scanPairs_pairwise (alo ahi blo bhi : Nat) :
    List.Pairwise (fun p q : Nat × Nat => p.1 < q.1 ∨ (p.1 = q.1 ∧ p.2 < q.2))
      (scanPairs alo ahi blo bhi) := by
  have hgrid : ∀ (rows : List Nat), rows.Pairwise (· < ·) →
      List.Pairwise (fun p q : Nat × Nat => p.1 < q.1 ∨ (p.1 = q.1 ∧ p.2 < q.2))
        (rows.flatMap fun i => (List.range' blo (bhi - blo)).map fun j => (i, j)) := by
    intro rows hrows
    induction rows with
    | nil => simp
    | cons r rest ihr =>
      rw [List.flatMap_cons]
      rw [List.pairwise_append]
      refine ⟨?_, ihr (List.Pairwise.sublist (List.sublist_cons_self r rest) hrows), ?_⟩
      · rw [List.pairwise_map]
        have : (List.range' blo (bhi - blo)).Pairwise (· < ·) := by
          have := List.pairwise_lt_range (bhi - blo)
          rw [List.range'_eq_map_range]
          rw [List.pairwise_map]
          exact this.imp (by omega)
        exact this.imp fun h => Or.inr ⟨rfl, h⟩
      · intro x hx y hy
        rw [List.mem_map] at hx
        obtain ⟨jx, _, rfl⟩ := hx
        rw [List.mem_flatMap] at hy
        obtain ⟨ry, hry, hy2⟩ := hy
        rw [List.mem_map] at hy2
        obtain ⟨jy, _, rfl⟩ := hy2
        left
        exact (List.pairwise_cons.mp hrows).1 ry hry
  exact hgrid _ (by
    have := List.pairwise_lt_range (ahi - alo)
    rw [List.range'_eq_map_range, List.pairwise_map]
    exact this.imp (by omega))

/-- On identical strings the DP scan only ever records diagonal blocks:
an off-diagonal endpoint is dominated by a diagonal endpoint scanned
earlier.  The result bounds every diagonal run of the window. -/
theorem dpGo_diag (a : PStr) (junk : Char → Bool) (lo hi : Nat) :
    ∀ (L : List (Nat × Nat)) (bi bk : Nat),
      (∀ p ∈ L, lo ≤ p.1 ∧ p.1 < hi ∧ lo ≤ p.2 ∧ p.2 < hi) →
      List.Pairwise (fun p q : Nat × Nat => p.1 < q.1 ∨ (p.1 = q.1 ∧ p.2 < q.2)) L →
      (∀ m, lo ≤ m → m < hi → (m, m) ∈ L ∨ runlen a a junk lo lo hi m m ≤ bk) →
      ∃ d k, dpGo a a junk lo lo hi L bi bi bk = (d, d, k) ∧ bk ≤ k ∧
        (∀ m, lo ≤ m → m < hi → runlen a a junk lo lo hi m m ≤ k) ∧
        (d = bi ∨ 1 ≤ k) := by
  intro L
  induction L with
  | nil =>
    intro bi bk hb hp hcov
    refine ⟨bi, bk, by simp [dpGo], le_refl _, ?_, Or.inl rfl⟩
    intro m h1 h2
    rcases hcov m h1 h2 with h | h
    · simp at h
    · exact h
  | cons p ps ih =>
    intro bi bk hb hp hcov
    simp only [dpGo]
    split
    · rename_i hlt
      have hdiag : p.1 = p.2 := by
        by_contra hne
        have hk1 : 1 ≤ runlen a a junk lo lo hi p.1 p.2 := by omega
        obtain ⟨h2, h3, h4, h5⟩ := runlen_pos _ _ _ _ _ _ _ _ hk1
        rcases Nat.lt_or_ge p.1 p.2 with hlt2 | hge
        · have hle : runlen a a junk lo lo hi p.1 p.2 ≤
              runlen a a junk lo lo hi p.1 p.1 :=
            runlen_le_diag_left a junk lo hi p.1 p.2 (hb p (by simp)).2.1
          rcases hcov p.1 h2 (hb p (by simp)).2.1 with hmem | hbnd
          · rcases List.mem_cons.mp hmem with he | hmem2
            · have hcon : p.2 = p.1 := congrArg Prod.snd he.symm
              omega
            · have hR' : p.1 < p.1 ∨ (p.1 = p.1 ∧ p.2 < p.1) :=
                (List.pairwise_cons.mp hp).1 (p.1, p.1) hmem2
              omega
          · omega
        · have hlt3 : p.2 < p.1 := by omega
          have hle : runlen a a junk lo lo hi p.1 p.2 ≤
              runlen a a junk lo lo hi p.2 p.2 :=
            runlen_le_diag_right a junk lo hi p.1 p.2
          rcases hcov p.2 h3 h4 with hmem | hbnd
          · rcases List.mem_cons.mp hmem with he | hmem2
            · have hcon : p.1 = p.2 := congrArg Prod.fst he.symm
              omega
            · have hR' : p.1 < p.2 ∨ (p.1 = p.2 ∧ p.2 < p.2) :=
                (List.pairwise_cons.mp hp).1 (p.2, p.2) hmem2
              omega
          · omega
      rw [← hdiag] at hlt ⊢
      have hcov' : ∀ m, lo ≤ m → m < hi → (m, m) ∈ ps ∨
          runlen a a junk lo lo hi m m ≤ runlen a a junk lo lo hi p.1 p.1 := by
        intro m h1 h2
        rcases hcov m h1 h2 with hmem | hbnd
        · rcases List.mem_cons.mp hmem with he | hmem2
          · right
            have hm1 : m = p.1 := congrArg Prod.fst he
            rw [hm1]
          · exact Or.inl hmem2
        · right
          omega
      obtain ⟨d, k', heq, hge, hcv, hdm⟩ :=
        ih (p.1 + 1 - runlen a a junk lo lo hi p.1 p.1)
          (runlen a a junk lo lo hi p.1 p.1)
          (fun q hq => hb q (by simp [hq]))
          ((List.pairwise_cons.mp hp).2) hcov'
      exact ⟨d, k', heq, by omega, hcv, Or.inr (by omega)⟩
    · rename_i hnlt
      apply ih bi bk (fun q hq => hb q (by simp [hq]))
        ((List.pairwise_cons.mp hp).2)
      intro m h1 h2
      rcases hcov m h1 h2 with hmem | hbnd
      · rcases List.mem_cons.mp hmem with he | hmem2
        · right
          have hm1 : m = p.1 := congrArg Prod.fst he
          have hm2 : m = p.2 := congrArg Prod.snd he
          have h12 : runlen a a junk lo lo hi m m =
              runlen a a junk lo lo hi p.1 p.2 := by
            rw [← hm1, ← hm2]
          omega
        · exact Or.inl hmem2
      · exact Or.inr hbnd

/-- Behaviour of one backward extension loop: the block's end `i + k`
and `j + k` stay fixed, the size only grows, and the start never crosses
the window's low edge. -/
theorem extBack_spec (a b : PStr) (junk : Char → Bool) (w : Bool)
    (alo blo : Nat) :
    ∀ (fuel i j k : Nat),
      ∃ i' j' k', extBack a b junk w alo blo fuel (i, j, k) = (i', j', k') ∧
        i' + k' = i + k ∧ j' + k' = j + k ∧ k ≤ k' ∧
        (alo ≤ i → alo ≤ i') ∧ (blo ≤ j → blo ≤ j') := by
  intro fuel
  induction fuel with
  | zero =>
    intro i j k
    exact ⟨i, j, k, rfl, rfl, rfl, le_refl _, fun h => h, fun h => h⟩
  | succ f ih =>
    intro i j k
    have hunf : extBack a b junk w alo blo (f + 1) (i, j, k) =
        if alo < i ∧ blo < j ∧
            matchAt a b (fun c => junk c ≠ w) (i - 1) (j - 1) = true
        then extBack a b junk w alo blo f (i - 1, j - 1, k + 1)
        else (i, j, k) := rfl
    by_cases hg : alo < i ∧ blo < j ∧
        matchAt a b (fun c => junk c ≠ w) (i - 1) (j - 1) = true
    · rw [hunf, if_pos hg]
      obtain ⟨i', j', k', heq, h1, h2, h3, h4, h5⟩ := ih (i - 1) (j - 1) (k + 1)
      obtain ⟨hgi, hgj, -⟩ := hg
      exact ⟨i', j', k', heq, by omega, by omega, by omega,
        fun _ => h4 (by omega), fun _ => h5 (by omega)⟩
    · rw [hunf, if_neg hg]
      exact ⟨i, j, k, rfl, rfl, rfl, le_refl _, fun h => h, fun h => h⟩

/-- On identical strings with equal low edges, the backward extension
keeps a diagonal block diagonal. -/
theorem extBack_diag (a : PStr) (junk : Char → Bool) (w : Bool) (lo : Nat) :
    ∀ (fuel i k : Nat), ∃ i' k',
      extBack a a junk w lo lo fuel (i, i, k) = (i', i', k') := by
  intro fuel
  induction fuel with
  | zero =>
    intro i k
    exact ⟨i, k, rfl⟩
  | succ f ih =>
    intro i k
    have hunf : extBack a a junk w lo lo (f + 1) (i, i, k) =
        if lo < i ∧ lo < i ∧
            matchAt a a (fun c => junk c ≠ w) (i - 1) (i - 1) = true
        then extBack a a junk w lo lo f (i - 1, i - 1, k + 1)
        else (i, i, k) := rfl
    by_cases hg : lo < i ∧ lo < i ∧
        matchAt a a (fun c => junk c ≠ w) (i - 1) (i - 1) = true
    · rw [hunf, if_pos hg]
      exact ih (i - 1) (k + 1)
    · rw [hunf, if_neg hg]
      exact ⟨i, k, rfl⟩

/-- Behaviour of one forward extension loop: the block's start stays
fixed, the size only grows, and the end never crosses the window's high
edge. -/
theorem extFwd_spec (a b : PStr) (junk : Char → Bool) (w : Bool)
    (ahi bhi : Nat) :
    ∀ (fuel i j k : Nat), ∃ k',
      extFwd a b junk w ahi bhi fuel (i, j, k) = (i, j, k') ∧ k ≤ k' ∧
        (i + k ≤ ahi → i + k' ≤ ahi) ∧ (j + k ≤ bhi → j + k' ≤ bhi) := by
  intro fuel
  induction fuel with
  | zero =>
    intro i j k
    exact ⟨k, rfl, le_refl _, fun h => h, fun h => h⟩
  | succ f ih =>
    intro i j k
    have hunf : extFwd a b junk w ahi bhi (f + 1) (i, j, k) =
        if i + k < ahi ∧ j + k < bhi ∧
            matchAt a b (fun c => junk c ≠ w) (i + k) (j + k) = true
        then extFwd a b junk w ahi bhi f (i, j, k + 1)
        else (i, j, k) := rfl
    by_cases hg : i + k < ahi ∧ j + k < bhi ∧
        matchAt a b (fun c => junk c ≠ w) (i + k) (j + k) = true
    · rw [hunf, if_pos hg]
      obtain ⟨k', heq, h1, h2, h3⟩ := ih i j (k + 1)
      obtain ⟨hga, hgb, -⟩ := hg
      exact ⟨k', heq, by omega, fun _ => h2 (by omega), fun _ => h3 (by omega)⟩
    · rw [hunf, if_neg hg]
      exact ⟨k, rfl, le_refl _, fun h => h, fun h => h⟩

/-- If the forward-extension guard fails at the input state, the loop
returns it unchanged. -/
theorem extFwd_stuck (a b : PStr) (junk : Char → Bool) (w : Bool)
    (ahi bhi fuel i j k : Nat)
    (hg : ¬(i + k < ahi ∧ j + k < bhi ∧
        matchAt a b (fun c => junk c ≠ w) (i + k) (j + k) = true)) :
    extFwd a b junk w ahi bhi fuel (i, j, k) = (i, j, k) := by
  cases fuel with
  | zero => rfl
  | succ f =>
    show (if i + k < ahi ∧ j + k < bhi ∧
            matchAt a b (fun c => junk c ≠ w) (i + k) (j + k) = true
          then extFwd a b junk w ahi bhi f (i, j, k + 1)
          else (i, j, k)) = (i, j, k)
    rw [if_neg hg]

/-- If the forward-extension guard holds at the input state and there is
fuel, the block grows by at least one. -/
theorem extFwd_one (a b : PStr) (junk : Char → Bool) (w : Bool)
    (ahi bhi fuel i j k : Nat)
    (hg : i + k < ahi ∧ j + k < bhi ∧
        matchAt a b (fun c => junk c ≠ w) (i + k) (j + k) = true) :
    k + 1 ≤ (extFwd a b junk w ahi bhi (fuel + 1) (i, j, k)).2.2 := by
  have hunf : extFwd a b junk w ahi bhi (fuel + 1) (i, j, k) =
      extFwd a b junk w ahi bhi fuel (i, j, k + 1) := by
    show (if i + k < ahi ∧ j + k < bhi ∧
            matchAt a b (fun c => junk c ≠ w) (i + k) (j + k) = true
          then extFwd a b junk w ahi bhi fuel (i, j, k + 1)
          else (i, j, k)) = _
    rw [if_pos hg]
  rw [hunf]
  obtain ⟨k', heq, h1, -, -⟩ := extFwd_spec a b junk w ahi bhi fuel i j (k + 1)
  rw [heq]
  exact h1

/-- An in-window matching endpoint has a run of at least one. -/
theorem runlen_one (a b : PStr) (junk : Char → Bool) (alo blo bhi i j : Nat)
    (h : alo ≤ i ∧ blo ≤ j ∧ j < bhi ∧ matchAt a b junk i j = true) :
    1 ≤ runlen a b junk alo blo bhi i j := by
  rw [runlen_eq, if_pos h]
  match i, j with
  | 0, j => exact le_refl 1
  | i' + 1, 0 => exact le_refl 1
  | i' + 1, j' + 1 => exact Nat.le_add_left 1 _

/-- `find_longest_match` returns a block inside the requested window. -/
theorem flm_valid (a b : PStr) (junk : Char → Bool) (alo ahi blo bhi : Nat)
    (h1 : alo ≤ ahi) (h2 : blo ≤ bhi) :
    ∃ i j k, find_longest_match a b junk alo ahi blo bhi = (i, j, k) ∧
      alo ≤ i ∧ blo ≤ j ∧ i + k ≤ ahi ∧ j + k ≤ bhi := by
  have hmem : ∀ p ∈ scanPairs alo ahi blo bhi,
      alo ≤ p.1 ∧ p.1 < ahi ∧ blo ≤ p.2 ∧ p.2 < bhi := by
    intro p hp
    have h := (scanPairs_mem alo ahi blo bhi p).mp hp
    exact ⟨h.1.1, h.1.2, h.2.1, h.2.2⟩
  have hv := dpGo_valid a b junk alo blo bhi ahi (scanPairs alo ahi blo bhi)
    alo blo 0 hmem (le_refl _) (le_refl _) (by omega) (by omega)
  rcases h0 : dpGo a b junk alo blo bhi (scanPairs alo ahi blo bhi) alo blo 0
    with ⟨i0, j0, k0⟩
  rw [h0] at hv
  have hv1 : alo ≤ i0 := hv.1
  have hv2 : blo ≤ j0 := hv.2.1
  have hv3 : i0 + k0 ≤ ahi := hv.2.2.1
  have hv4 : j0 + k0 ≤ bhi := hv.2.2.2.1
  obtain ⟨i1, j1, k1, e1, e1a, e1b, e1c, e1d, e1e⟩ :=
    extBack_spec a b junk false alo blo (a.length + b.length + 1) i0 j0 k0
  obtain ⟨k2, e2, e2a, e2b, e2c⟩ :=
    extFwd_spec a b junk false ahi bhi (a.length + b.length + 1) i1 j1 k1
  obtain ⟨i3, j3, k3, e3, e3a, e3b, e3c, e3d, e3e⟩ :=
    extBack_spec a b junk true alo blo (a.length + b.length + 1) i1 j1 k2
  obtain ⟨k4, e4, e4a, e4b, e4c⟩ :=
    extFwd_spec a b junk true ahi bhi (a.length + b.length + 1) i3 j3 k3
  refine ⟨i3, j3, k4, ?_, e3d (e1d hv1), e3e (e1e hv2), ?_, ?_⟩
  · show extFwd a b junk true ahi bhi (a.length + b.length + 1)
      (extBack a b junk true alo blo (a.length + b.length + 1)
        (extFwd a b junk false ahi bhi (a.length + b.length + 1)
          (extBack a b junk false alo blo (a.length + b.length + 1)
            (dpGo a b junk alo blo bhi (scanPairs alo ahi blo bhi)
              alo blo 0)))) = (i3, j3, k4)
    rw [h0, e1, e2, e3, e4]
  · have hm2 : i1 + k2 ≤ ahi := e2b (by omega)
    exact e4b (by omega)
  · have hm2 : j1 + k2 ≤ bhi := e2c (by omega)
    exact e4c (by omega)

/-- On identical strings with a square window inside the string,
`find_longest_match` returns a diagonal block inside the window, and on a
nonempty window the block is nonempty (on an all-junk window the final
junk forward-extension loop still grows it). -/
theorem flm_diag (a : PStr) (junk : Char → Bool) (lo hi : Nat)
    (hlohi : lo ≤ hi) (hhi : hi ≤ a.length) :
    ∃ d k, find_longest_match a a junk lo hi lo hi = (d, d, k) ∧
      lo ≤ d ∧ d + k ≤ hi ∧ (lo < hi → 1 ≤ k) := by
  have hmem : ∀ p ∈ scanPairs lo hi lo hi,
      lo ≤ p.1 ∧ p.1 < hi ∧ lo ≤ p.2 ∧ p.2 < hi := by
    intro p hp
    have h := (scanPairs_mem lo hi lo hi p).mp hp
    exact ⟨h.1.1, h.1.2, h.2.1, h.2.2⟩
  obtain ⟨d0, k0, h0, -, hcov0, hd0⟩ :=
    dpGo_diag a junk lo hi (scanPairs lo hi lo hi) lo 0 hmem
      (scanPairs_pairwise lo hi lo hi)
      (fun m hm1 hm2 =>
        Or.inl ((scanPairs_mem lo hi lo hi (m, m)).mpr ⟨⟨hm1, hm2⟩, hm1, hm2⟩))
  have hv := dpGo_valid a a junk lo lo hi hi (scanPairs lo hi lo hi)
    lo lo 0 hmem (le_refl _) (le_refl _) (by omega) (by omega)
  rw [h0] at hv
  have hv1 : lo ≤ d0 := hv.1
  have hv3 : d0 + k0 ≤ hi := hv.2.2.1
  obtain ⟨i1, j1, k1, e1, e1a, e1b, e1c, e1d, e1e⟩ :=
    extBack_spec a a junk false lo lo (a.length + a.length + 1) d0 d0 k0
  have hij1 : i1 = j1 := by
    obtain ⟨d1, k1', ed⟩ :=
      extBack_diag a junk false lo (a.length + a.length + 1) d0 k0
    rw [e1] at ed
    have g1 : i1 = d1 := congrArg (fun t => t.1) ed
    have g2 : j1 = d1 := congrArg (fun t => t.2.1) ed
    omega
  subst hij1
  obtain ⟨k2, e2, e2a, e2b, e2c⟩ :=
    extFwd_spec a a junk false hi hi (a.length + a.length + 1) i1 i1 k1
  obtain ⟨i3, j3, k3, e3, e3a, e3b, e3c, e3d, e3e⟩ :=
    extBack_spec a a junk true lo lo (a.length + a.length + 1) i1 i1 k2
  have hij3 : i3 = j3 := by
    obtain ⟨d3, k3', ed⟩ :=
      extBack_diag a junk true lo (a.length + a.length + 1) i1 k2
    rw [e3] at ed
    have g1 : i3 = d3 := congrArg (fun t => t.1) ed
    have g2 : j3 = d3 := congrArg (fun t => t.2.1) ed
    omega
  subst hij3
  obtain ⟨k4, e4, e4a, e4b, e4c⟩ :=
    extFwd_spec a a junk true hi hi (a.length + a.length + 1) i3 i3 k3
  have hflm : find_longest_match a a junk lo hi lo hi = (i3, i3, k4) := by
    show extFwd a a junk true hi hi (a.length + a.length + 1)
      (extBack a a junk true lo lo (a.length + a.length + 1)
        (extFwd a a junk false hi hi (a.length + a.length + 1)
          (extBack a a junk false lo lo (a.length + a.length + 1)
            (dpGo a a junk lo lo hi (scanPairs lo hi lo hi)
              lo lo 0)))) = (i3, i3, k4)
    rw [h0, e1, e2, e3, e4]
  refine ⟨i3, k4, hflm, e3d (e1d hv1), ?_, ?_⟩
  · have hm2 : i1 + k2 ≤ hi := e2b (by omega)
    exact e4b (by omega)
  · intro hlt
    have hlt' : lo < a.length := lt_of_lt_of_le hlt hhi
    obtain ⟨c, hc⟩ : ∃ c, charAt a lo = some c :=
      ⟨a.get ⟨lo, hlt'⟩, List.get?_eq_get hlt'⟩
    cases hj : junk c with
    | false =>
      have hm : matchAt a a junk lo lo = true := by
        unfold matchAt
        rw [hc]
        simp [hj]
      have hr1 : 1 ≤ runlen a a junk lo lo hi lo lo :=
        runlen_one a a junk lo lo hi lo lo ⟨le_refl _, le_refl _, hlt, hm⟩
      have hcv := hcov0 lo (le_refl _) hlt
      omega
    | true =>
      by_cases hk0 : 1 ≤ k0
      · omega
      · have hd00 : d0 = lo := by
          rcases hd0 with h | h
          · exact h
          · omega
        have hi1 : i1 = lo := by omega
        have hk1 : k1 = 0 := by omega
        rw [hi1, hk1] at e2
        have hng : ¬(lo + 0 < hi ∧ lo + 0 < hi ∧
            matchAt a a (fun x => junk x ≠ false) (lo + 0) (lo + 0) = true) := by
          rintro ⟨-, -, hm⟩
          unfold matchAt at hm
          rw [Nat.add_zero, hc] at hm
          simp [hj] at hm
        have e2' : extFwd a a junk false hi hi (a.length + a.length + 1)
            (lo, lo, 0) = (lo, lo, 0) :=
          extFwd_stuck a a junk false hi hi (a.length + a.length + 1)
            lo lo 0 hng
        rw [e2'] at e2
        have hk2 : k2 = 0 := (congrArg (fun t => t.2.2) e2).symm
        have hi3 : i3 = lo := by omega
        have hk3 : k3 = 0 := by omega
        rw [hi3, hk3] at e4
        have hmj : matchAt a a (fun x => junk x ≠ true) (lo + 0) (lo + 0) = true := by
          rw [Nat.add_zero]
          unfold matchAt
          rw [hc]
          simp [hj]
        have hone := extFwd_one a a junk true hi hi (a.length + a.length)
          lo lo 0 ⟨by omega, by omega, hmj⟩
        rw [e4] at hone
        have hfin : 0 + 1 ≤ k4 := hone
        omega

/-- The total of the matching blocks fits in both windows. -/
theorem matchSum_le (a b : PStr) (junk : Char → Bool) :
    ∀ (fuel alo ahi blo bhi : Nat), alo ≤ ahi → blo ≤ bhi →
      matchSum a b junk fuel alo ahi blo bhi + alo ≤ ahi ∧
      matchSum a b junk fuel alo ahi blo bhi + blo ≤ bhi := by
  intro fuel
  induction fuel with
  | zero =>
    intro alo ahi blo bhi h1 h2
    constructor
    · show 0 + alo ≤ ahi
      omega
    · show 0 + blo ≤ bhi
      omega
  | succ f ih =>
    intro alo ahi blo bhi h1 h2
    obtain ⟨i, j, k, ht, hv1, hv2, hv3, hv4⟩ :=
      flm_valid a b junk alo ahi blo bhi h1 h2
    have hunf : matchSum a b junk (f + 1) alo ahi blo bhi =
        if k = 0 then 0
        else matchSum a b junk f alo i blo j + k +
          matchSum a b junk f (i + k) ahi (j + k) bhi := by
      show (if (find_longest_match a b junk alo ahi blo bhi).2.2 = 0 then 0
            else matchSum a b junk f alo
                (find_longest_match a b junk alo ahi blo bhi).1 blo
                (find_longest_match a b junk alo ahi blo bhi).2.1 +
              (find_longest_match a b junk alo ahi blo bhi).2.2 +
              matchSum a b junk f
                ((find_longest_match a b junk alo ahi blo bhi).1 +
                  (find_longest_match a b junk alo ahi blo bhi).2.2) ahi
                ((find_longest_match a b junk alo ahi blo bhi).2.1 +
                  (find_longest_match a b junk alo ahi blo bhi).2.2) bhi) = _
      rw [ht]
    rw [hunf]
    by_cases hk : k = 0
    · rw [if_pos hk]
      constructor <;> omega
    · rw [if_neg hk]
      have hl := ih alo i blo j hv1 hv2
      have hr := ih (i + k) ahi (j + k) bhi hv3 hv4
      constructor <;> omega

/-- On identical strings every square window inside the string is matched
completely by the recursive decomposition. -/
theorem matchSum_diag (a : PStr) (junk : Char → Bool) :
    ∀ (fuel lo hi : Nat), lo ≤ hi → hi ≤ a.length → hi - lo ≤ fuel →
      matchSum a a junk fuel lo hi lo hi = hi - lo := by
  intro fuel
  induction fuel with
  | zero =>
    intro lo hi h1 h2 h3
    show (0 : Nat) = hi - lo
    omega
  | succ f ih =>
    intro lo hi h1 h2 h3
    obtain ⟨d, k, hflm, hld, hdk, hpos⟩ := flm_diag a junk lo hi h1 h2
    have hunf : matchSum a a junk (f + 1) lo hi lo hi =
        if k = 0 then 0
        else matchSum a a junk f lo d lo d + k +
          matchSum a a junk f (d + k) hi (d + k) hi := by
      show (if (find_longest_match a a junk lo hi lo hi).2.2 = 0 then 0
            else matchSum a a junk f lo
                (find_longest_match a a junk lo hi lo hi).1 lo
                (find_longest_match a a junk lo hi lo hi).2.1 +
              (find_longest_match a a junk lo hi lo hi).2.2 +
              matchSum a a junk f
                ((find_longest_match a a junk lo hi lo hi).1 +
                  (find_longest_match a a junk lo hi lo hi).2.2) hi
                ((find_longest_match a a junk lo hi lo hi).2.1 +
                  (find_longest_match a a junk lo hi lo hi).2.2) hi) = _
      rw [hflm]
    rw [hunf]
    by_cases hk : k = 0
    · rw [if_pos hk]
      by_cases hlt : lo < hi
      · have := hpos hlt
        omega
      · omega
    · rw [if_neg hk]
      have hk1 : 1 ≤ k := Nat.pos_of_ne_zero hk
      have hl := ih lo d hld (by omega) (by omega)
      have hr := ih (d + k) hi hdk h2 (by omega)
      omega

/-- On identical strings the number of matching characters is the whole
length. -/
theorem matchTotal_self (a : PStr) : matchTotal a a = a.length := by
  show matchSum a a (bjunk a) (a.length + a.length + 1) 0 a.length 0 a.length
    = a.length
  rw [matchSum_diag a (bjunk a) (a.length + a.length + 1) 0 a.length
    (Nat.zero_le _) (le_refl _) (by omega)]
  omega

/-- The number of matching characters is at most each string's length. -/
theorem matchTotal_le (a b : PStr) :
    matchTotal a b ≤ a.length ∧ matchTotal a b ≤ b.length := by
  have h := matchSum_le a b (bjunk b) (a.length + b.length + 1)
    0 a.length 0 b.length (Nat.zero_le _) (Nat.zero_le _)
  unfold matchTotal
  omega

/-- `ratio` is `1` on equal strings. -/
theorem similarity_self (a : PStr) : similarity a a = 1 := by
  unfold similarity
  by_cases h : a.length + a.length = 0
  · rw [if_pos h]
  · rw [if_neg h, matchTotal_self]
    have hne : ((a.length : ℚ) + a.length) ≠ 0 := by exact_mod_cast h
    rw [div_eq_one_iff_eq hne]
    push_cast
    ring

/-- `ratio` is nonnegative. -/
theorem similarity_nonneg (a b : PStr) : 0 ≤ similarity a b := by
  unfold similarity
  by_cases h : a.length + b.length = 0
  · rw [if_pos h]
    norm_num
  · rw [if_neg h]
    apply div_nonneg
    · positivity
    · positivity

/-- `ratio` is at most `1`. -/
theorem similarity_le_one (a b : PStr) : similarity a b ≤ 1 := by
  unfold similarity
  by_cases h : a.length + b.length = 0
  · rw [if_pos h]
  · rw [if_neg h]
    have hpos : (0 : ℚ) < (a.length : ℚ) + (b.length : ℚ) := by
      have h0 : 0 < a.length + b.length := Nat.pos_of_ne_zero h
      exact_mod_cast h0
    rw [div_le_one hpos]
    have hm := matchTotal_le a b
    have h2 : 2 * matchTotal a b ≤ a.length + b.length := by omega
    exact_mod_cast h2

/-- The cross-multiplied integer comparison agrees with the rational
comparison against `ratio`. -/
theorem ratioGE_iff (θ : ℚ) (a b : PStr) :
    ratioGE θ a b = true ↔ θ ≤ similarity a b := by
  unfold ratioGE similarity
  by_cases h : a.length + b.length = 0
  · rw [if_pos h, if_pos h]
    exact ⟨of_decide_eq_true, decide_eq_true⟩
  · rw [if_neg h, if_neg h]
    have hpos : (0 : ℚ) < (a.length : ℚ) + (b.length : ℚ) := by
      have h0 : 0 < a.length + b.length := Nat.pos_of_ne_zero h
      exact_mod_cast h0
    have hdenpos : (0 : ℚ) < (θ.den : ℚ) := by exact_mod_cast θ.den_pos
    have hdenne : ((θ.den : ℚ)) ≠ 0 := ne_of_gt hdenpos
    have hq : θ * (θ.den : ℚ) = (θ.num : ℚ) :=
      (eq_div_iff hdenne).mp (Rat.num_div_den θ).symm
    constructor
    · intro hb
      have hint := of_decide_eq_true hb
      have hrat : (θ.num : ℚ) * ((a.length : ℚ) + (b.length : ℚ)) ≤
          2 * ((matchTotal a b : ℚ)) * (θ.den : ℚ) := by exact_mod_cast hint
      rw [le_div_iff hpos]
      refine (mul_le_mul_right hdenpos).mp ?_
      calc θ * ((a.length : ℚ) + (b.length : ℚ)) * (θ.den : ℚ)
          = (θ.num : ℚ) * ((a.length : ℚ) + (b.length : ℚ)) := by
            rw [mul_right_comm, hq]
        _ ≤ 2 * ((matchTotal a b : ℚ)) * (θ.den : ℚ) := hrat
    · intro hle
      rw [le_div_iff hpos] at hle
      have h2 : (θ.num : ℚ) * ((a.length : ℚ) + (b.length : ℚ)) ≤
          2 * ((matchTotal a b : ℚ)) * (θ.den : ℚ) := by
        calc (θ.num : ℚ) * ((a.length : ℚ) + (b.length : ℚ))
            = θ * ((a.length : ℚ) + (b.length : ℚ)) * (θ.den : ℚ) := by
              rw [mul_right_comm, hq]
          _ ≤ 2 * ((matchTotal a b : ℚ)) * (θ.den : ℚ) :=
            (mul_le_mul_right hdenpos).mpr hle
      exact decide_eq_true (by exact_mod_cast h2)

set_option maxRecDepth 1000000 in
/-- C5 (corrected): `is_duplicate(existing_facts, new_fact, threshold)`
returns true iff some existing fact, after both strings are normalised by
stripping parenthetical groups, case-folding, and trimming the `"- "`
marker and surrounding whitespace, has `SequenceMatcher` ratio at least
the threshold to the normalised candidate; the ratio lies in `[0, 1]` and
equals `1` for strings identical after normalisation; with existing fact
`"- The user lives in Boston"`, candidate `"The user lives in Boston"` is
a duplicate at the default threshold `0.85` and candidate
`"The user enjoys hiking"` is not.  (The ratio is NOT symmetric, contrary
to the original claim — see the counterexample.) -/
theorem is_duplicate_spec (ex : List PStr) (cand : PStr) (θ : ℚ) :
    (is_duplicate ex cand θ = true ↔
      ∃ e ∈ ex, θ ≤ similarity (cleanFact e) (cleanFact cand)) ∧
    (∀ s t : PStr, 0 ≤ similarity s t ∧ similarity s t ≤ 1) ∧
    (∀ s t : PStr, cleanFact s = cleanFact t →
      similarity (cleanFact s) (cleanFact t) = 1) ∧
    is_duplicate [pstr "- The user lives in Boston"]
      (pstr "The user lives in Boston") dupThreshold = true ∧
    is_duplicate [pstr "- The user lives in Boston"]
      (pstr "The user enjoys hiking") dupThreshold = false := by
  refine ⟨?_, fun s t => ⟨similarity_nonneg s t, similarity_le_one s t⟩,
    fun s t h => by rw [h]; exact similarity_self _, by decide, by decide⟩
  unfold is_duplicate
  rw [List.any_eq_true]
  constructor
  · rintro ⟨e, he, hr⟩
    exact ⟨e, he, (ratioGE_iff θ _ _).mp hr⟩
  · rintro ⟨e, he, hr⟩
    exact ⟨e, he, (ratioGE_iff θ _ _).mpr hr⟩

set_option maxRecDepth 1000000 in
/-- C5 witness: the theorem applied at concrete inputs (the Boston
duplicate accepted, the hiking candidate rejected). -/
theorem is_duplicate_spec_witness :
    is_duplicate [pstr "- The user lives in Boston"]
      (pstr "The user lives in Boston") dupThreshold = true ∧
    is_duplicate [pstr "- The user lives in Boston"]
      (pstr "The user enjoys hiking") dupThreshold = false :=
  ⟨(is_duplicate_spec [] (pstr "") 0).2.2.2.1,
   (is_duplicate_spec [] (pstr "") 0).2.2.2.2⟩

set_option maxRecDepth 1000000 in
/-- C5 counterexample: the `SequenceMatcher` ratio is not symmetric —
`ratio("ab", "bacb") = 2/3` but `ratio("bacb", "ab") = 1/3` — and
`is_duplicate` inherits the asymmetry at threshold `1/2`. -/
theorem is_duplicate_spec_counterexample :
    similarity (pstr "ab") (pstr "bacb") ≠
      similarity (pstr "bacb") (pstr "ab") ∧
    is_duplicate [pstr "ab"] (pstr "bacb") (mkRat 1 2) = true ∧
    is_duplicate [pstr "bacb"] (pstr "ab") (mkRat 1 2) = false := by
  refine ⟨?_, by decide, by decide⟩
  have h1 : matchTotal (pstr "ab") (pstr "bacb") = 2 := by decide
  have h2 : matchTotal (pstr "bacb") (pstr "ab") = 1 := by decide
  have hl1 : (pstr "ab").length = 2 := rfl
  have hl2 : (pstr "bacb").length = 4 := rfl
  have e1 : similarity (pstr "ab") (pstr "bacb") = 2 / 3 := by
    unfold similarity
    rw [h1, hl1, hl2]
    norm_num
  have e2 : similarity (pstr "bacb") (pstr "ab") = 1 / 3 := by
    unfold similarity
    rw [h2, hl1, hl2]
    norm_num
  rw [e1, e2]
  norm_num

/-- `MergeExt` is reflexive. -/
theorem mergeExt_refl (ms : MergeState) : MergeExt ms ms :=
  ⟨[], by simp, by simp, List.Pairwise.nil, by simp⟩

/-- `MergeExt` composes. -/
theorem mergeExt_trans {m1 m2 m3 : MergeState}
    (h12 : MergeExt m1 m2) (h23 : MergeExt m2 m3) : MergeExt m1 m3 := by
  obtain ⟨t1, e1, c1, p1, d1⟩ := h12
  obtain ⟨t2, e2, c2, p2, d2⟩ := h23
  refine ⟨t1 ++ t2, ?_, ?_, ?_, ?_⟩
  · rw [e2, e1, List.append_assoc]
  · rw [c2, c1, List.length_append]
    omega
  · rw [List.pairwise_append]
    refine ⟨p1, p2, ?_⟩
    intro x hx y hy
    exact d2 x (by rw [e1]; exact List.mem_append_right _ hx) y hy
  · intro x hx y hy
    rcases List.mem_append.mp hy with h | h
    · exact d1 x hx y h
    · exact d2 x (by rw [e1]; exact List.mem_append_left _ hx) y h

/-- One fact step of the merge loop is a `MergeExt`: a fact is appended
to `all_existing` exactly when the duplicate check against the whole of
`all_existing` fails. -/
theorem mergeFactStep_ext (today : PStr) (sub : Option PStr)
    (ms : MergeState) (fact : PStr) :
    MergeExt ms (mergeFactStep today sub ms fact) := by
  by_cases hd : is_duplicate ms.2.1 (prepFact today fact) dupThreshold = true
  · have he : mergeFactStep today sub ms fact = ms := by
      show (if ¬ is_duplicate ms.2.1 (prepFact today fact) dupThreshold = true
            then (storeAppend ms.1 sub (prepFact today fact),
                  ms.2.1 ++ [prepFact today fact], ms.2.2 + 1)
            else ms) = ms
      rw [if_neg (not_not.mpr hd)]
    rw [he]
    exact mergeExt_refl ms
  · have he : mergeFactStep today sub ms fact =
        (storeAppend ms.1 sub (prepFact today fact),
         ms.2.1 ++ [prepFact today fact], ms.2.2 + 1) := by
      show (if ¬ is_duplicate ms.2.1 (prepFact today fact) dupThreshold = true
            then (storeAppend ms.1 sub (prepFact today fact),
                  ms.2.1 ++ [prepFact today fact], ms.2.2 + 1)
            else ms) = _
      rw [if_pos hd]
    rw [he]
    refine ⟨[prepFact today fact], rfl, by simp, by simp, ?_⟩
    intro x hx y hy
    have hy' : y = prepFact today fact := by simpa using hy
    subst hy'
    intro hsim
    exact hd (List.any_eq_true.mpr ⟨x, hx, (ratioGE_iff _ _ _).mpr hsim⟩)

/-- The inner fact fold of `merge_facts` is a `MergeExt`. -/
theorem mergeFactFold_ext (today : PStr) (sub : Option PStr) :
    ∀ (facts : List PStr) (ms : MergeState),
      MergeExt ms (facts.foldl (mergeFactStep today sub) ms) := by
  intro facts
  induction facts with
  | nil =>
    intro ms
    exact mergeExt_refl ms
  | cons f fs ih =>
    intro ms
    rw [List.foldl_cons]
    exact mergeExt_trans (mergeFactStep_ext today sub ms f) (ih _)

/-- The subcategory step of `merge_facts` is a `MergeExt` (the bucket
creation does not touch `all_existing` or the count). -/
theorem mergeSubStep_ext (today : PStr) (ms : MergeState)
    (entry : Option PStr × List PStr) :
    MergeExt ms (mergeSubStep today ms entry) := by
  obtain ⟨t, e1, c1, p1, d1⟩ := mergeFactFold_ext today entry.1 entry.2
    ((if storeHasKey ms.1 entry.1 then ms.1 else ms.1 ++ [(entry.1, [])]),
      ms.2.1, ms.2.2)
  exact ⟨t, e1, c1, p1, d1⟩

/-- The whole merge fold is a `MergeExt`. -/
theorem mergeDataFold_ext (today : PStr) :
    ∀ (nd : List (Option PStr × List PStr)) (ms : MergeState),
      MergeExt ms (nd.foldl (mergeSubStep today) ms) := by
  intro nd
  induction nd with
  | nil =>
    intro ms
    exact mergeExt_refl ms
  | cons e es ih =>
    intro ms
    rw [List.foldl_cons]
    exact mergeExt_trans (mergeSubStep_ext today ms e) (ih _)

/-- C10 (corrected): within one `merge_facts` call every accepted fact is
immediately appended to `all_existing` and so is checked against by every
later candidate: the list of facts added in one call is pairwise
non-duplicate (no later added fact has ratio ≥ threshold to any earlier
added fact), and the returned count is exactly the number of added facts.
(The original claim's "at most the earlier one is added" is false — the
earlier candidate can be rejected against the pre-existing store while the
later one survives; see the counterexample.) -/
theorem merge_added_pairwise (fs : Files) (category : PStr)
    (new_data : List (Option PStr × List PStr)) (today : PStr) :
    List.Pairwise (fun x y => ¬ SimilarAtLeast x y)
      (merge_added fs category new_data today) ∧
    (merge_facts fs category new_data today).2 =
      (merge_added fs category new_data today).length := by
  obtain ⟨t, e1, c1, p1, d1⟩ :=
    mergeDataFold_ext today new_data
      (read_category (fs category), storeFacts (read_category (fs category)), 0)
  have e1' : merge_all_existing fs category new_data today =
      storeFacts (read_category (fs category)) ++ t := e1
  have hadded : merge_added fs category new_data today = t := by
    unfold merge_added
    rw [e1']
    exact List.drop_left _ _
  have c1' : (merge_facts fs category new_data today).2 = 0 + t.length := c1
  constructor
  · rw [hadded]
    exact p1
  · rw [hadded]
    omega

set_option maxRecDepth 1000000 in
/-- C10 counterexample: with `factX` already stored, candidates `candC1`
and `candC2` in one batch prepare to mutually similar facts (ratio
`52/54 ≈ 0.96 ≥ 0.85`), yet exactly the LATER one is added — `candC1` is
rejected as a duplicate of `factX` (ratio `40/46 ≈ 0.87`) while `candC2`
is not (ratio `40/48 ≈ 0.83`) — so "at most the earlier one is added"
fails. -/
theorem merge_added_pairwise_counterexample :
    SimilarAtLeast (prepFact dateD1 candC1) (prepFact dateD1 candC2) ∧
    merge_added filesPref (pstr "preferences")
      [(none, [candC1, candC2])] dateD1 = [prepFact dateD1 candC2] := by
  constructor
  · exact (ratioGE_iff dupThreshold _ _).mp (by decide)
  · decide

/-! ## Line and whitespace lemmas for the round-trip -/

theorem splitNl_cons (c : Char) (cs : PStr) :
    splitNl (c :: cs) = if c = '\n' then [] :: splitNl cs
      else match splitNl cs with
        | h :: t => (c :: h) :: t
        | [] => [[c]] := rfl

/-- `split` never returns an empty list of lines. -/
theorem splitNl_ne_nil (s : PStr) : splitNl s ≠ [] := by
  induction s with
  | nil => simp [splitNl]
  | cons c cs ih =>
    rw [splitNl_cons]
    split
    · simp
    · rcases h : splitNl cs with _ | ⟨h', t⟩
      · simp
      · simp

/-- A newline-free string is a single line. -/
theorem splitNl_nonl (s : PStr) (h : '\n' ∉ s) : splitNl s = [s] := by
  induction s with
  | nil => rfl
  | cons c cs ih =>
    have h1 : ¬(c = '\n') := fun hc => h (hc ▸ List.mem_cons_self c cs)
    have h2 : '\n' ∉ cs := fun hc => h (List.mem_cons_of_mem c hc)
    rw [splitNl_cons, if_neg h1, ih h2]

/-- Splitting distributes over a newline boundary. -/
theorem splitNl_append (s t : PStr) :
    splitNl (s ++ '\n' :: t) = splitNl s ++ splitNl t := by
  induction s with
  | nil =>
    show splitNl ('\n' :: t) = splitNl [] ++ splitNl t
    rw [splitNl_cons, if_pos rfl]
    rfl
  | cons c cs ih =>
    show splitNl (c :: (cs ++ '\n' :: t)) = splitNl (c :: cs) ++ splitNl t
    rw [splitNl_cons, splitNl_cons]
    by_cases hc : c = '\n'
    · rw [if_pos hc, if_pos hc, ih]
      rfl
    · rw [if_neg hc, if_neg hc, ih]
      rcases h : splitNl cs with _ | ⟨h', t'⟩
      · exact absurd h (splitNl_ne_nil cs)
      · rfl

theorem joinNl_single (l : PStr) : joinNl [l] = l := by
  show List.intercalate ['\n'] [l] = l
  simp [List.intercalate]

theorem joinNl_cons2 (a b : PStr) (L : List PStr) :
    joinNl (a :: b :: L) = a ++ '\n' :: joinNl (b :: L) := by
  show List.intercalate ['\n'] (a :: b :: L) =
    a ++ '\n' :: List.intercalate ['\n'] (b :: L)
  simp [List.intercalate, List.intersperse]

/-- Joining nonempty `M` with one more line. -/
theorem joinNl_append_single (M : List PStr) (l : PStr) (h : M ≠ []) :
    joinNl (M ++ [l]) = joinNl M ++ '\n' :: l := by
  induction M with
  | nil => exact absurd rfl h
  | cons m M' ih =>
    cases M' with
    | nil =>
      rw [joinNl_single]
      show joinNl [m, l] = m ++ '\n' :: l
      rw [joinNl_cons2, joinNl_single]
    | cons m2 M'' =>
      show joinNl (m :: ((m2 :: M'') ++ [l])) = joinNl (m :: m2 :: M'') ++ '\n' :: l
      rw [show m :: ((m2 :: M'') ++ [l]) = m :: m2 :: (M'' ++ [l]) from rfl]
      rw [joinNl_cons2, joinNl_cons2]
      rw [show m2 :: (M'' ++ [l]) = (m2 :: M'') ++ [l] from rfl]
      rw [ih (by simp)]
      simp

/-- Joining all newline-free lines and splitting again is the identity. -/
theorem splitNl_joinNl (L : List PStr) (hne : L ≠ [])
    (h : ∀ l ∈ L, '\n' ∉ l) : splitNl (joinNl L) = L := by
  induction L with
  | nil => exact absurd rfl hne
  | cons l L' ih =>
    cases L' with
    | nil =>
      rw [joinNl_single]
      exact splitNl_nonl l (h l (by simp))
    | cons l2 L'' =>
      rw [joinNl_cons2, splitNl_append]
      rw [splitNl_nonl l (h l (by simp))]
      rw [ih (by simp) (fun x hx => h x (by simp [hx]))]
      rfl

/-- `dropWhile` is idempotent. -/
theorem dropWhile_self (p : Char → Bool) (l : PStr) :
    (l.dropWhile p).dropWhile p = l.dropWhile p := by
  induction l with
  | nil => rfl
  | cons a l' ih =>
    by_cases h : p a = true
    · rw [List.dropWhile_cons_of_pos h]
      exact ih
    · rw [List.dropWhile_cons_of_neg h, List.dropWhile_cons_of_neg h]

/-- The head surviving a `dropWhile` fails the predicate. -/
theorem dropWhile_cons_not (p : Char → Bool) :
    ∀ (l : PStr) (c : Char) (t : PStr), l.dropWhile p = c :: t → p c = false := by
  intro l
  induction l with
  | nil =>
    intro c t h
    simp [List.dropWhile] at h
  | cons a l' ih =>
    intro c t h
    by_cases ha : p a = true
    · rw [List.dropWhile_cons_of_pos ha] at h
      exact ih c t h
    · rw [List.dropWhile_cons_of_neg ha] at h
      cases h
      exact Bool.eq_false_iff.mpr ha

/-- Appending all-whitespace text does not change `rstrip`. -/
theorem pyRstrip_append_ws (s t : PStr) (h : ∀ c ∈ t, isPySpace c = true) :
    pyRstrip (s ++ t) = pyRstrip s := by
  unfold pyRstrip
  rw [List.reverse_append, List.dropWhile_append]
  rw [if_pos]
  rw [List.isEmpty_iff, List.dropWhile_eq_nil_iff]
  intro c hc
  exact h c (List.mem_reverse.mp hc)

/-- `rstrip` of an extension with visible content happens inside the
extension. -/
theorem pyRstrip_append_keep (s t : PStr) (c : Char) (hc : c ∈ t)
    (hcw : isPySpace c = false) :
    pyRstrip (s ++ t) = s ++ pyRstrip t := by
  unfold pyRstrip
  rw [List.reverse_append, List.dropWhile_append]
  rw [if_neg]
  · rw [List.reverse_append, List.reverse_reverse]
  · rw [List.isEmpty_iff, List.dropWhile_eq_nil_iff]
    intro hall
    have := hall c (List.mem_reverse.mpr hc)
    rw [hcw] at this
    exact Bool.false_ne_true this

/-- `rstrip` keeps a prefix of the string. -/
theorem pyRstrip_front (s : PStr) : pyRstrip s <+: s := by
  unfold pyRstrip
  rw [← List.reverse_reverse s]
  rw [List.reverse_prefix]
  rw [List.reverse_reverse]
  exact List.dropWhile_suffix isPySpace

/-- `rstrip` erases exactly the all-whitespace strings. -/
theorem pyRstrip_eq_nil_iff (s : PStr) :
    pyRstrip s = [] ↔ ∀ c ∈ s, isPySpace c = true := by
  unfold pyRstrip
  rw [List.reverse_eq_nil_iff, List.dropWhile_eq_nil_iff]
  constructor
  · intro h c hc
    exact h c (List.mem_reverse.mpr hc)
  · intro h c hc
    exact h c (List.mem_reverse.mp hc)

/-- `strip` is `rstrip` after `lstrip`. -/
theorem pyStrip_eq_rstrip_drop (s : PStr) :
    pyStrip s = pyRstrip (s.dropWhile isPySpace) := rfl

/-- On a string with a visible first character, `strip` is `rstrip`. -/
theorem pyStrip_cons_not_ws (c : Char) (x : PStr) (h : isPySpace c = false) :
    pyStrip (c :: x) = pyRstrip (c :: x) := by
  rw [pyStrip_eq_rstrip_drop, List.dropWhile_cons_of_neg (by simp [h])]

/-- `strip` erases exactly the all-whitespace strings. -/
theorem pyStrip_eq_nil_iff (s : PStr) :
    pyStrip s = [] ↔ ∀ c ∈ s, isPySpace c = true := by
  rw [pyStrip_eq_rstrip_drop, pyRstrip_eq_nil_iff]
  constructor
  · intro h c hc
    have hmem : c ∈ s.takeWhile isPySpace ++ s.dropWhile isPySpace := by
      rw [List.takeWhile_append_dropWhile]
      exact hc
    rcases List.mem_append.mp hmem with h1 | h2
    · exact List.mem_takeWhile_imp h1
    · exact h c h2
  · intro h c hc
    exact h c ((List.dropWhile_sublist _).subset hc)

/-- `rstrip` keeps a visible head character. -/
theorem pyRstrip_head (c : Char) (t : PStr) (hc : isPySpace c = false) :
    ∃ t', pyRstrip (c :: t) = c :: t' := by
  have hne : pyRstrip (c :: t) ≠ [] := by
    rw [Ne, pyRstrip_eq_nil_iff]
    intro hall
    have := hall c (by simp)
    rw [hc] at this
    exact Bool.false_ne_true this
  obtain ⟨u, hu⟩ := pyRstrip_front (c :: t)
  rcases h : pyRstrip (c :: t) with _ | ⟨d, t'⟩
  · exact absurd h hne
  · rw [h] at hu
    have : d = c := by
      have := congrArg (fun l => l.head?) hu
      simpa using this
    exact ⟨t', by rw [this]⟩

/-- `rstrip` is idempotent. -/
theorem pyRstrip_idem (s : PStr) : pyRstrip (pyRstrip s) = pyRstrip s := by
  show ((((s.reverse.dropWhile isPySpace).reverse).reverse.dropWhile isPySpace)).reverse =
    pyRstrip s
  rw [List.reverse_reverse, dropWhile_self]
  rfl

/-- `strip` after `rstrip` is `strip`. -/
theorem pyStrip_rstrip (s : PStr) : pyStrip (pyRstrip s) = pyStrip s := by
  by_cases hall : ∀ c ∈ s, isPySpace c = true
  · rw [(pyRstrip_eq_nil_iff s).mpr hall]
    rw [(pyStrip_eq_nil_iff s).mpr hall]
    rfl
  · push_neg at hall
    obtain ⟨c0, hc0, hc0w⟩ := hall
    have hc0w : isPySpace c0 = false := Bool.eq_false_iff.mpr hc0w
    rcases hu : s.dropWhile isPySpace with _ | ⟨d, u'⟩
    · exact absurd (List.dropWhile_eq_nil_iff.mp hu c0 hc0) (by rw [hc0w]; exact Bool.false_ne_true)
    · have hd : isPySpace d = false := dropWhile_cons_not _ s d u' hu
      have hsplit : s = s.takeWhile isPySpace ++ (d :: u') := by
        rw [← hu, List.takeWhile_append_dropWhile]
      have htw : ∀ x ∈ s.takeWhile isPySpace, isPySpace x = true :=
        fun x hx => List.mem_takeWhile_imp hx
      have hr : pyRstrip s = s.takeWhile isPySpace ++ pyRstrip (d :: u') := by
        conv in pyRstrip s => rw [hsplit]
        exact pyRstrip_append_keep _ _ d (by simp) hd
      obtain ⟨t', ht'⟩ := pyRstrip_head d u' hd
      have hstrips : pyStrip s = pyRstrip (d :: u') := by
        rw [pyStrip_eq_rstrip_drop, hu]
      rw [hr, pyStrip_eq_rstrip_drop]
      rw [List.dropWhile_append]
      rw [if_pos (by rw [List.isEmpty_iff, List.dropWhile_eq_nil_iff]; exact htw)]
      rw [ht', List.dropWhile_cons_of_neg (by simp [hd])]
      rw [← ht', pyRstrip_idem, hstrips]

/-- `strip` is idempotent. -/
theorem pyStrip_idem (s : PStr) : pyStrip (pyStrip s) = pyStrip s := by
  by_cases hall : ∀ c ∈ s, isPySpace c = true
  · rw [(pyStrip_eq_nil_iff s).mpr hall]
    rfl
  · push_neg at hall
    obtain ⟨c0, hc0, hc0w⟩ := hall
    have hc0w : isPySpace c0 = false := Bool.eq_false_iff.mpr hc0w
    rcases hu : s.dropWhile isPySpace with _ | ⟨d, u'⟩
    · exact absurd (List.dropWhile_eq_nil_iff.mp hu c0 hc0) (by rw [hc0w]; exact Bool.false_ne_true)
    · have hd : isPySpace d = false := dropWhile_cons_not _ s d u' hu
      have hstrips : pyStrip s = pyRstrip (d :: u') := by
        rw [pyStrip_eq_rstrip_drop, hu]
      rw [hstrips]
      obtain ⟨t', ht'⟩ := pyRstrip_head d u' hd
      rw [ht', pyStrip_cons_not_ws d t' hd, ← ht', pyRstrip_idem]

/-- `sigOf` distributes over append. -/
theorem sigOf_append (A B : List PStr) : sigOf (A ++ B) = sigOf A ++ sigOf B := by
  unfold sigOf
  rw [List.map_append, List.filter_append]

/-- A string with visible content has a non-whitespace character. -/
theorem exists_not_ws (l : PStr) (hl : pyStrip l ≠ []) :
    ∃ c ∈ l, isPySpace c = false := by
  by_contra hcon
  push_neg at hcon
  exact hl ((pyStrip_eq_nil_iff l).mpr
    (fun c hc => Bool.ne_false_iff.mp (hcon c hc)))

/-- The trailing `strip` of `write_category` does not change the
significant lines: it only deletes trailing blank lines and trailing
whitespace of the last visible line. -/
theorem sig_rstrip_join : ∀ (L : List PStr), (∀ l ∈ L, '\n' ∉ l) →
    sigOf (splitNl (pyRstrip (joinNl L) ++ ['\n'])) = sigOf L := by
  intro L
  induction L using List.reverseRecOn with
  | nil =>
    intro h
    rfl
  | append_singleton M l ih =>
    intro h
    have hnl : '\n' ∉ l := h l (by simp)
    have hnlr : '\n' ∉ pyRstrip l :=
      fun hm => hnl ((pyRstrip_front l).sublist.subset hm)
    cases M with
    | nil =>
      rw [List.nil_append]
      by_cases hl : pyStrip l = []
      · have hall := (pyStrip_eq_nil_iff l).mp hl
        have hr : pyRstrip (joinNl [l]) = [] := by
          rw [joinNl_single]
          exact (pyRstrip_eq_nil_iff l).mpr hall
        rw [hr]
        show sigOf [[], []] = sigOf [l]
        show [] = sigOf [l]
        unfold sigOf
        simp [hl]
      · have hr : pyRstrip (joinNl [l]) = pyRstrip l := by rw [joinNl_single]
        rw [hr]
        rw [show pyRstrip l ++ ['\n'] = pyRstrip l ++ '\n' :: [] from rfl]
        rw [splitNl_append, splitNl_nonl _ hnlr]
        show sigOf ([pyRstrip l] ++ [[]]) = sigOf [l]
        rw [sigOf_append]
        unfold sigOf
        simp [pyStrip_rstrip, hl]
        rfl
    | cons m M'' =>
      have hMne : (m :: M'') ≠ [] := by simp
      have hj : joinNl ((m :: M'') ++ [l]) = joinNl (m :: M'') ++ '\n' :: l :=
        joinNl_append_single _ l hMne
      have hMnl : ∀ x ∈ m :: M'', '\n' ∉ x := by
        intro x hx
        exact h x (List.mem_append_left _ hx)
      by_cases hl : pyStrip l = []
      · have hall := (pyStrip_eq_nil_iff l).mp hl
        have hr : pyRstrip (joinNl (m :: M'') ++ '\n' :: l) =
            pyRstrip (joinNl (m :: M'')) := by
          apply pyRstrip_append_ws
          intro c hc
          rcases List.mem_cons.mp hc with rfl | hc2
          · decide
          · exact hall c hc2
        rw [hj, hr, ih hMnl, sigOf_append]
        have hsl : sigOf [l] = [] := by
          unfold sigOf
          simp [hl]
        rw [hsl, List.append_nil]
      · obtain ⟨c0, hc0, hc0w⟩ := exists_not_ws l hl
        have hr1 : pyRstrip (joinNl (m :: M'') ++ '\n' :: l) =
            joinNl (m :: M'') ++ pyRstrip ('\n' :: l) :=
          pyRstrip_append_keep _ _ c0 (by simp [hc0]) hc0w
        have hr2 : pyRstrip ('\n' :: l) = '\n' :: pyRstrip l := by
          have := pyRstrip_append_keep ['\n'] l c0 hc0 hc0w
          simpa using this
        rw [hj, hr1, hr2]
        rw [show (joinNl (m :: M'') ++ '\n' :: pyRstrip l) ++ ['\n'] =
          joinNl (m :: M'') ++ '\n' :: (pyRstrip l ++ '\n' :: []) by simp]
        rw [splitNl_append, splitNl_append]
        rw [splitNl_joinNl _ hMne hMnl, splitNl_nonl _ hnlr]
        rw [show splitNl ([] : PStr) = [[]] from rfl]
        rw [sigOf_append, sigOf_append, sigOf_append]
        have h1 : sigOf [pyRstrip l] ++ sigOf [([] : PStr)] = sigOf [l] := by
          unfold sigOf
          simp [pyStrip_rstrip, hl]
          rfl
        rw [h1]

/-- The step equation of the parsing loop. -/
theorem parseLines_cons (l : PStr) (ls : List PStr) (cur : Option PStr)
    (st : Store) :
    parseLines (l :: ls) cur st =
      if pyStartsWith (pyStrip l) (pstr "## ") then
        parseLines ls (some (pyStrip ((pyStrip l).drop 3)))
          (if storeHasKey st (some (pyStrip ((pyStrip l).drop 3))) then st
           else st ++ [(some (pyStrip ((pyStrip l).drop 3)), [])])
      else if pyStartsWith (pyStrip l) (pstr "- ") then
        parseLines ls cur (storeAppend st cur (pyStrip l))
      else parseLines ls cur st := rfl

/-- A line whose strip takes neither branch is ignored. -/
theorem parseLines_skip (l : PStr) (ls : List PStr) (cur : Option PStr)
    (st : Store)
    (h1 : pyStartsWith (pyStrip l) (pstr "## ") = false)
    (h2 : pyStartsWith (pyStrip l) (pstr "- ") = false) :
    parseLines (l :: ls) cur st = parseLines ls cur st := by
  rw [parseLines_cons, if_neg (by rw [h1]; exact Bool.false_ne_true),
      if_neg (by rw [h2]; exact Bool.false_ne_true)]

/-- Prefix extraction from `startswith`. -/
theorem startsWith_ex (x p : PStr) (h : pyStartsWith x p = true) :
    ∃ y, x = p ++ y := by
  unfold pyStartsWith at h
  rw [List.isPrefixOf_iff_prefix] at h
  obtain ⟨y, hy⟩ := h
  exact ⟨y, hy.symm⟩

/-- A fact line starts with an explicit dash and blank. -/
theorem dash_shape (x : PStr) (h : pyStartsWith x (pstr "- ") = true) :
    ∃ y, x = '-' :: ' ' :: y := by
  obtain ⟨y, hy⟩ := startsWith_ex x _ h
  exact ⟨y, hy⟩

/-- A fact line is not a subcategory header. -/
theorem dash_not_hash (x : PStr) (h : pyStartsWith x (pstr "- ") = true) :
    pyStartsWith x (pstr "## ") = false := by
  obtain ⟨y, rfl⟩ := dash_shape x h
  rfl

/-- Keys of concatenated stores. -/
theorem storeKeys_append (a b : Store) :
    storeKeys (a ++ b) = storeKeys a ++ storeKeys b := by
  unfold storeKeys
  rw [List.map_append]

/-- `storeHasKey` decides key membership. -/
theorem storeHasKey_iff (st : Store) (k : Option PStr) :
    storeHasKey st k = true ↔ k ∈ storeKeys st := by
  unfold storeHasKey storeKeys
  rw [List.any_eq_true]
  constructor
  · rintro ⟨p, hp, he⟩
    have he' : p.1 = k := by simpa using he
    exact he' ▸ List.mem_map_of_mem Prod.fst hp
  · intro hm
    obtain ⟨p, hp, he⟩ := List.mem_map.mp hm
    exact ⟨p, hp, by simp [he]⟩

/-- Appending at an absent key changes nothing. -/
theorem storeAppend_not_mem (st : Store) (k : Option PStr) (f : PStr)
    (h : k ∉ storeKeys st) : storeAppend st k f = st := by
  induction st with
  | nil => rfl
  | cons p st' ih =>
    have h1 : ¬(p.1 = k) :=
      fun he => h (he ▸ List.mem_map_of_mem Prod.fst (List.mem_cons_self p st'))
    have h2 : k ∉ storeKeys st' := fun hm => h (List.mem_cons_of_mem _ hm)
    show (if p.1 = k then (p.1, p.2 ++ [f]) else p) :: storeAppend st' k f = p :: st'
    rw [if_neg h1, ih h2]

theorem storeAppend_append (a b : Store) (k : Option PStr) (f : PStr) :
    storeAppend (a ++ b) k f = storeAppend a k f ++ storeAppend b k f := by
  unfold storeAppend
  rw [List.map_append]

/-- Appending a fact to the last bucket, whose key is fresh for the rest
of the store. -/
theorem storeAppend_last (st : Store) (k : Option PStr) (fs : List PStr)
    (f : PStr) (h : k ∉ storeKeys st) :
    storeAppend (st ++ [(k, fs)]) k f = st ++ [(k, fs ++ [f])] := by
  rw [storeAppend_append, storeAppend_not_mem st k f h]
  show st ++ [if k = k then (k, fs ++ [f]) else (k, fs)] = _
  rw [if_pos rfl]

/-- Consecutive fact lines append to the current (last, fresh-keyed)
bucket. -/
theorem parse_facts (rest : List PStr) (k : Option PStr) :
    ∀ (fsL : List PStr) (st : Store) (acc : List PStr),
      k ∉ storeKeys st →
      (∀ g ∈ fsL, pyStrip g = g ∧ pyStartsWith g (pstr "- ") = true) →
      parseLines (fsL ++ rest) k (st ++ [(k, acc)]) =
        parseLines rest k (st ++ [(k, acc ++ fsL)]) := by
  intro fsL
  induction fsL with
  | nil =>
    intro st acc h hg
    rw [List.append_nil]
    rfl
  | cons g fsL' ih =>
    intro st acc h hg
    obtain ⟨hgs, hgd⟩ := hg g (by simp)
    rw [show (g :: fsL') ++ rest = g :: (fsL' ++ rest) from rfl]
    rw [parseLines_cons, hgs]
    rw [if_neg (by rw [dash_not_hash g hgd]; exact Bool.false_ne_true)]
    rw [if_pos hgd]
    rw [storeAppend_last st k acc g h]
    have hrec := ih st (acc ++ [g]) h (fun x hx => hg x (by simp [hx]))
    rw [show (acc ++ [g]) ++ fsL' = acc ++ g :: fsL' by simp] at hrec
    exact hrec

/-- The header line written for a usable subcategory key: its strip keeps
the `## ` marker and recovers the stripped key. -/
theorem keyline_spec (k : PStr) (hk : pyStrip k ≠ []) :
    pyStrip (pstr "## " ++ k) = pstr "## " ++ pyRstrip k ∧
    pyStartsWith (pstr "## " ++ pyRstrip k) (pstr "## ") = true ∧
    pyStrip ((pstr "## " ++ pyRstrip k).drop 3) = pyStrip k := by
  obtain ⟨c0, hc0, hc0w⟩ := exists_not_ws k hk
  have hS : pyStrip (pstr "## " ++ k) = pstr "## " ++ pyRstrip k := by
    rw [show pstr "## " ++ k = '#' :: ('#' :: ' ' :: k) from rfl]
    rw [pyStrip_cons_not_ws '#' _ (by decide)]
    rw [show ('#' : Char) :: ('#' :: ' ' :: k) = ['#', '#', ' '] ++ k from rfl]
    rw [pyRstrip_append_keep ['#', '#', ' '] k c0 hc0 hc0w]
    rfl
  refine ⟨hS, ?_, ?_⟩
  · unfold pyStartsWith
    rw [List.isPrefixOf_iff_prefix]
    exact List.prefix_append _ _
  · rw [show (pstr "## " ++ pyRstrip k).drop 3 = pyRstrip k from rfl]
    exact pyStrip_rstrip k

/-- The title line is ignored by the parser: its strip starts with `#`
followed by nothing or a blank. -/
theorem title_skip_props (ttl : PStr) :
    pyStartsWith (pyStrip ('#' :: ' ' :: ttl)) (pstr "## ") = false ∧
    pyStartsWith (pyStrip ('#' :: ' ' :: ttl)) (pstr "- ") = false := by
  rw [pyStrip_cons_not_ws '#' _ (by decide)]
  by_cases hall : ∀ c ∈ (' ' :: ttl), isPySpace c = true
  · have hr : pyRstrip ('#' :: ' ' :: ttl) = pyRstrip ['#'] := by
      have := pyRstrip_append_ws ['#'] (' ' :: ttl) hall
      simpa using this
    rw [hr]
    constructor <;> rfl
  · push_neg at hall
    obtain ⟨c0, hc0, hc0w⟩ := hall
    have hc0w : isPySpace c0 = false := Bool.eq_false_iff.mpr hc0w
    have hc0t : c0 ∈ ttl := by
      rcases List.mem_cons.mp hc0 with rfl | h
      · exact absurd hc0w (by decide)
      · exact h
    have hr1 : pyRstrip ('#' :: ' ' :: ttl) = ['#'] ++ pyRstrip (' ' :: ttl) := by
      have := pyRstrip_append_keep ['#'] (' ' :: ttl) c0 hc0 hc0w
      simpa using this
    have hr2 : pyRstrip (' ' :: ttl) = ' ' :: pyRstrip ttl := by
      have := pyRstrip_append_keep [' '] ttl c0 hc0t hc0w
      simpa using this
    rw [hr1, hr2]
    constructor <;> rfl

/-- Parsing the emitted blocks appends one bucket per block. -/
theorem parse_blocks :
    ∀ (bs : List (PStr × List PStr)) (st : Store),
      (∀ b ∈ bs, pyStrip b.1 ≠ [] ∧
        ∀ f ∈ b.2, pyStartsWith (pyStrip f) (pstr "- ") = true) →
      (bs.map fun b => pyStrip b.1).Nodup →
      (∀ b ∈ bs, some (pyStrip b.1) ∉ storeKeys st) →
      ∀ cur, parseLines (bs.flatMap blockSig) cur st =
        st ++ bs.map (fun b => (some (pyStrip b.1), b.2.map pyStrip)) := by
  intro bs
  induction bs with
  | nil =>
    intro st _ _ _ cur
    show parseLines [] cur st = st ++ []
    rw [List.append_nil]
    rfl
  | cons b bs' ih =>
    intro st hwf hnd hfresh cur
    obtain ⟨hk, hf⟩ := hwf b (by simp)
    obtain ⟨hS, hpre, hsub⟩ := keyline_spec b.1 hk
    rw [List.flatMap_cons]
    rw [show blockSig b ++ bs'.flatMap blockSig =
      pyStrip (pstr "## " ++ b.1) :: (b.2.map pyStrip ++ bs'.flatMap blockSig)
      from rfl]
    rw [parseLines_cons, pyStrip_idem, hS, if_pos hpre, hsub]
    have hnotk : ¬(storeHasKey st (some (pyStrip b.1)) = true) := by
      rw [storeHasKey_iff]
      exact hfresh b (by simp)
    rw [if_neg hnotk]
    rw [parse_facts (bs'.flatMap blockSig) (some (pyStrip b.1)) (b.2.map pyStrip)
      st [] (hfresh b (by simp))
      (fun g hg => by
        obtain ⟨f, hfm, rfl⟩ := List.mem_map.mp hg
        exact ⟨pyStrip_idem f, hf f hfm⟩)]
    rw [show ([] : List PStr) ++ b.2.map pyStrip = b.2.map pyStrip from rfl]
    rw [ih (st ++ [(some (pyStrip b.1), b.2.map pyStrip)])
      (fun q hq => hwf q (by simp [hq]))
      (List.nodup_cons.mp hnd).2
      (fun q hq => by
        rw [storeKeys_append]
        intro hm
        rcases List.mem_append.mp hm with h1 | h2
        · exact hfresh q (by simp [hq]) h1
        · have h2s : some (pyStrip q.1) ∈ [some (pyStrip b.1)] := h2
          have hq1 : pyStrip q.1 = pyStrip b.1 := by simpa using h2s
          have hmem : pyStrip q.1 ∈ bs'.map (fun x => pyStrip x.1) :=
            List.mem_map_of_mem _ hq
          rw [hq1] at hmem
          exact (List.nodup_cons.mp hnd).1 hmem)
      (some (pyStrip b.1))]
    simp

/-- The parser sees only the significant lines. -/
theorem parseLines_sig : ∀ (ls : List PStr) (cur : Option PStr) (st : Store),
    parseLines ls cur st = parseLines (sigOf ls) cur st := by
  intro ls
  induction ls with
  | nil =>
    intro cur st
    rfl
  | cons l ls' ih =>
    intro cur st
    by_cases hl : pyStrip l = []
    · have hsig : sigOf (l :: ls') = sigOf ls' := by
        unfold sigOf
        simp [hl]
      have h1 : pyStartsWith (pyStrip l) (pstr "## ") = false := by
        rw [hl]
        rfl
      have h2 : pyStartsWith (pyStrip l) (pstr "- ") = false := by
        rw [hl]
        rfl
      rw [hsig, parseLines_skip l ls' cur st h1 h2, ih]
    · have hsig : sigOf (l :: ls') = pyStrip l :: sigOf ls' := by
        unfold sigOf
        rw [List.map_cons, List.filter_cons_of_pos (by simpa using hl)]
      rw [hsig, parseLines_cons l, parseLines_cons (pyStrip l), pyStrip_idem l]
      by_cases h1 : pyStartsWith (pyStrip l) (pstr "## ") = true
      · rw [if_pos h1, if_pos h1]
        exact ih _ _
      · rw [if_neg h1, if_neg h1]
        by_cases h2 : pyStartsWith (pyStrip l) (pstr "- ") = true
        · rw [if_pos h2, if_pos h2]
          exact ih _ _
        · rw [if_neg h2, if_neg h2]
          exact ih _ _

/-- The join of a nonempty line list extends its first line. -/
theorem joinNl_head (l0 : PStr) (L' : List PStr) :
    ∃ r, joinNl (l0 :: L') = l0 ++ r := by
  cases L' with
  | nil => exact ⟨[], by rw [joinNl_single, List.append_nil]⟩
  | cons l1 L'' => exact ⟨'\n' :: joinNl (l1 :: L''), joinNl_cons2 _ _ _⟩

/-- The significant lines of a run of fact lines are the stripped facts
themselves. -/
theorem sigOf_facts (fs : List PStr)
    (h : ∀ f ∈ fs, pyStartsWith (pyStrip f) (pstr "- ") = true) :
    sigOf fs = fs.map pyStrip := by
  induction fs with
  | nil => rfl
  | cons f fs' ih =>
    obtain ⟨y, hy⟩ := dash_shape _ (h f (by simp))
    unfold sigOf
    rw [List.map_cons, List.filter_cons_of_pos (by rw [hy]; rfl)]
    rw [show List.filter (fun l => !l.isEmpty) (List.map pyStrip fs') =
      sigOf fs' from rfl]
    rw [ih (fun g hg => h g (by simp [hg]))]

/-- `sigOf` distributes over `flatMap`. -/
theorem sigOf_flatMap {α : Type} (l : List α) (g : α → List PStr) :
    sigOf (l.flatMap g) = l.flatMap fun x => sigOf (g x) := by
  induction l with
  | nil => rfl
  | cons a l' ih =>
    rw [List.flatMap_cons, List.flatMap_cons, sigOf_append, ih]

/-- A `flatMap` with a guard is a `flatMap` over the filtered list. -/
theorem flatMap_if_filter {α β : Type} (P : α → Prop) [DecidablePred P]
    (g : α → List β) (l : List α) :
    (l.flatMap fun x => if P x then g x else []) =
      (l.filter fun x => decide (P x)).flatMap g := by
  induction l with
  | nil => rfl
  | cons a l' ih =>
    rw [List.flatMap_cons]
    by_cases h : P a
    · rw [if_pos h, List.filter_cons_of_pos (by simpa using h),
        List.flatMap_cons, ih]
    · rw [if_neg h, List.filter_cons_of_neg (by simpa using h), ih]
      rfl

/-- Dropping elements with empty images does not change a `flatMap`. -/
theorem flatMap_filter_ne {α β : Type} (Q : α → Bool) (g : α → List β)
    (l : List α) (h : ∀ x, Q x = false → g x = []) :
    (l.filter Q).flatMap g = l.flatMap g := by
  induction l with
  | nil => rfl
  | cons a l' ih =>
    by_cases hq : Q a = true
    · rw [List.filter_cons_of_pos hq, List.flatMap_cons, List.flatMap_cons, ih]
    · rw [List.filter_cons_of_neg hq, List.flatMap_cons, ih,
        h a (Bool.eq_false_iff.mpr hq)]
      rfl

/-- Insertion keeps the multiset of elements. -/
theorem insertLe_perm {α : Type} (le : α → α → Bool) (x : α) :
    ∀ l : List α, (insertLe le x l).Perm (x :: l) := by
  intro l
  induction l with
  | nil => exact List.Perm.refl _
  | cons y ys ih =>
    show (if le x y then x :: y :: ys else y :: insertLe le x ys).Perm _
    by_cases h : le x y = true
    · rw [if_pos h]
    · rw [if_neg h]
      exact (ih.cons y).trans (List.Perm.swap x y ys)

/-- The insertion sort is a permutation. -/
theorem sortLe_perm {α : Type} (le : α → α → Bool) :
    ∀ l : List α, (sortLe le l).Perm l := by
  intro l
  induction l with
  | nil => exact List.Perm.refl _
  | cons x xs ih =>
    show (insertLe le x (sortLe le xs)).Perm (x :: xs)
    exact (insertLe_perm le x (sortLe le xs)).trans (ih.cons x)

/-- A nonempty `storeGet` comes from an actual bucket. -/
theorem storeGet_mem (st : Store) (k : Option PStr) (h : storeGet st k ≠ []) :
    ∃ p ∈ st, p.1 = k ∧ p.2 = storeGet st k := by
  unfold storeGet at *
  rcases hf : st.find? fun p => p.1 = k with _ | p
  · rw [hf] at h
    exact absurd rfl h
  · rw [hf]
    refine ⟨p, List.mem_of_find?_eq_some hf, ?_, rfl⟩
    have := List.find?_some hf
    simpa using this

/-- Members of `namedPairs` are named buckets of the store. -/
theorem namedPairs_mem (st : Store) (b : PStr × List PStr)
    (h : b ∈ namedPairs st) : (some b.1, b.2) ∈ st := by
  unfold namedPairs at h
  obtain ⟨p, hp, he⟩ := List.mem_filterMap.mp h
  rcases p with ⟨_ | k, fs⟩
  · simp at he
  · simp only [Option.some.injEq] at he
    cases he
    exact hp

/-- With distinct keys, the `None` buckets of a store collapse to what
`storeGet` sees. -/
theorem none_filter (st : Store) (h : (storeKeys st).Nodup) :
    st.filter (fun p => p.1.isNone) =
      if storeHasKey st none = true then [(none, storeGet st none)] else [] := by
  induction st with
  | nil => rfl
  | cons p st' ih =>
    have hnd := h
    rw [show storeKeys (p :: st') = p.1 :: storeKeys st' from rfl] at hnd
    obtain ⟨hh, ht⟩ := List.nodup_cons.mp hnd
    rcases hp : p.1 with _ | k
    · have hp1 : p = (none, p.2) := by
        cases p
        simp_all
      have hnmem : none ∉ storeKeys st' := by
        rw [← hp]
        exact hh
      have hfe : st'.filter (fun q => q.1.isNone) = [] := by
        rw [ih ht]
        rw [if_neg]
        intro hcon
        exact hnmem ((storeHasKey_iff st' none).mp hcon)
      rw [List.filter_cons_of_pos (by rw [hp1]; rfl), hfe]
      have hhk : storeHasKey (p :: st') none = true := by
        rw [storeHasKey_iff]
        rw [show storeKeys (p :: st') = p.1 :: storeKeys st' from rfl, hp]
        simp
      rw [if_pos hhk]
      have hget : storeGet (p :: st') none = p.2 := by
        unfold storeGet
        rw [List.find?_cons_of_pos _ (by simp [hp])]
        rfl
      rw [hget, hp1]
    · have hgetc : storeGet (p :: st') none = storeGet st' none := by
        unfold storeGet
        rw [List.find?_cons_of_neg _ (by simp [hp])]
      have hhkc : storeHasKey (p :: st') none = storeHasKey st' none := by
        unfold storeHasKey
        rw [List.any_cons]
        simp [hp]
      rw [List.filter_cons_of_neg (by simp [hp]), ih ht, hgetc, hhkc]

/-- `storePairs` distributes over append. -/
theorem storePairs_append (a b : Store) :
    storePairs (a ++ b) = storePairs a ++ storePairs b := by
  unfold storePairs
  rw [List.flatMap_append]

/-- The stripped pairs of the named buckets, bucket by bucket. -/
theorem named_pairs_strip (st : Store) :
    storePairs (stripStore (st.filter fun p => !p.1.isNone)) =
      (namedPairs st).flatMap
        (fun b => b.2.map fun f => (some (pyStrip b.1), pyStrip f)) := by
  induction st with
  | nil => rfl
  | cons p st' ih =>
    rcases hp : p.1 with _ | k
    · rw [List.filter_cons_of_neg (by rw [hp]; decide)]
      rw [show namedPairs (p :: st') = namedPairs st' by
        unfold namedPairs
        rcases p with ⟨p1, fs⟩
        cases hp
        rfl]
      exact ih
    · rw [List.filter_cons_of_pos (by rw [hp]; rfl)]
      rw [show namedPairs (p :: st') = (k, p.2) :: namedPairs st' by
        unfold namedPairs
        rcases p with ⟨p1, fs⟩
        cases hp
        rfl]
      rw [List.flatMap_cons]
      rw [show stripStore (p :: st'.filter fun q => !q.1.isNone) =
        (p.1.map pyStrip, p.2.map pyStrip) ::
          stripStore (st'.filter fun q => !q.1.isNone) from rfl]
      rw [show storePairs ((p.1.map pyStrip, p.2.map pyStrip) ::
          stripStore (st'.filter fun q => !q.1.isNone)) =
        ((p.2.map pyStrip).map fun f => (p.1.map pyStrip, f)) ++
          storePairs (stripStore (st'.filter fun q => !q.1.isNone)) from rfl]
      rw [ih, hp, List.map_map]
      rfl

/-- `sigOf` keeps a line with visible content. -/
theorem sigOf_cons_pos (x : PStr) (xs : List PStr) (h : pyStrip x ≠ []) :
    sigOf (x :: xs) = pyStrip x :: sigOf xs := by
  unfold sigOf
  rw [List.map_cons, List.filter_cons_of_pos (by simpa using h)]

/-- `flatMap` congruence on members. -/
theorem flatMap_congr {α β : Type} (l : List α) (f g : α → List β)
    (h : ∀ x ∈ l, f x = g x) : l.flatMap f = l.flatMap g := by
  induction l with
  | nil => rfl
  | cons a l' ih =>
    rw [List.flatMap_cons, List.flatMap_cons, h a (by simp),
      ih (fun x hx => h x (by simp [hx]))]

/-- What `read_category` recovers from a written store: the `None` bucket
(with stripped facts) first, then one bucket per non-empty named bucket,
in sorted order, with stripped keys and facts. -/
theorem read_write_store (category : PStr) (S : Store)
    (htitle : '\n' ∉ categoryTitle category)
    (hwf : WFStore S)
    (hkeys : ((namedPairs S).map fun p => pyStrip p.1).Nodup) :
    read_category (write_category category S) =
      (none, (if storeHasKey S none = true ∧ storeGet S none ≠ []
              then storeGet S none else []).map pyStrip) ::
      ((sortLe (fun p q => !(pstrLt q.1 p.1)) (namedPairs S)).filter
          (fun p => decide (p.2 ≠ []))).map
        (fun b => (some (pyStrip b.1), b.2.map pyStrip)) := by
  have hTnl : '\n' ∉ pstr "# " ++ categoryTitle category := by
    intro hm
    rcases List.mem_append.mp hm with h1 | h2
    · exact absurd h1 (by decide)
    · exact htitle h2
  have hNBwf : ∀ f ∈ storeGet S none, storeGet S none ≠ [] → WFFact f := by
    intro f hf hne
    obtain ⟨p, hpmem, hpk, hpv⟩ := storeGet_mem S none hne
    exact (hwf.1 p hpmem (by rw [hpv]; exact hne)).1 f (by rw [hpv]; exact hf)
  have hsubsmem : ∀ b ∈ sortLe (fun p q => !(pstrLt q.1 p.1)) (namedPairs S),
      b ∈ namedPairs S :=
    fun b hb => (sortLe_perm _ (namedPairs S)).mem_iff.mp hb
  have hsubswf : ∀ b ∈ sortLe (fun p q => !(pstrLt q.1 p.1)) (namedPairs S),
      b.2 ≠ [] → (∀ f ∈ b.2, WFFact f) ∧ WFKey b.1 := by
    intro b hb hbne
    have hSmem := namedPairs_mem S b (hsubsmem b hb)
    obtain ⟨hfacts, hkey⟩ := hwf.1 _ hSmem hbne
    exact ⟨hfacts, hkey b.1 rfl⟩
  have hLnl : ∀ l ∈ writeLines category S, '\n' ∉ l := by
    intro l hl
    have hl' : l ∈ (pstr "# " ++ categoryTitle category) ::
        ((if storeHasKey S none = true ∧ storeGet S none ≠ []
          then storeGet S none ++ [[]] else []) ++
         (sortLe (fun p q => !(pstrLt q.1 p.1)) (namedPairs S)).flatMap
           (fun p => if p.2 ≠ [] then (pstr "## " ++ p.1) :: p.2 ++ [[]]
                     else [])) := hl
    rcases List.mem_cons.mp hl' with rfl | hl2
    · exact hTnl
    rcases List.mem_append.mp hl2 with hnl | hsl
    · split at hnl
      · rename_i hcond
        rcases List.mem_append.mp hnl with hf | hblank
        · exact (hNBwf l hf hcond.2).1
        · have : l = [] := by simpa using hblank
          subst this
          simp
      · simp at hnl
    · obtain ⟨p, hp, hlp⟩ := List.mem_flatMap.mp hsl
      split at hlp
      · rename_i hpne
        obtain ⟨hfacts, hkey⟩ := hsubswf p hp hpne
        rcases List.mem_cons.mp hlp with rfl | hl3
        · intro hm
          rcases List.mem_append.mp hm with h1 | h2
          · exact absurd h1 (by decide)
          · exact hkey.1 h2
        · rcases List.mem_append.mp hl3 with hf | hblank
          · exact (hfacts l hf).1
          · have : l = [] := by simpa using hblank
            subst this
            simp
      · simp at hlp
  have hJ : pyStrip (joinNl (writeLines category S)) =
      pyRstrip (joinNl (writeLines category S)) := by
    obtain ⟨r, hr⟩ := joinNl_head (pstr "# " ++ categoryTitle category)
      ((if storeHasKey S none = true ∧ storeGet S none ≠ []
        then storeGet S none ++ [[]] else []) ++
       (sortLe (fun p q => !(pstrLt q.1 p.1)) (namedPairs S)).flatMap
         (fun p => if p.2 ≠ [] then (pstr "## " ++ p.1) :: p.2 ++ [[]]
                   else []))
    rw [show writeLines category S = (pstr "# " ++ categoryTitle category) ::
        ((if storeHasKey S none = true ∧ storeGet S none ≠ []
          then storeGet S none ++ [[]] else []) ++
         (sortLe (fun p q => !(pstrLt q.1 p.1)) (namedPairs S)).flatMap
           (fun p => if p.2 ≠ [] then (pstr "## " ++ p.1) :: p.2 ++ [[]]
                     else [])) from rfl]
    rw [hr]
    rw [show (pstr "# " ++ categoryTitle category) ++ r =
      '#' :: (' ' :: (categoryTitle category ++ r)) from rfl]
    exact pyStrip_cons_not_ws '#' _ (by decide)
  have hsigT : pyStrip (pstr "# " ++ categoryTitle category) ≠ [] := by
    rw [show pstr "# " ++ categoryTitle category =
      '#' :: (' ' :: categoryTitle category) from rfl]
    rw [pyStrip_cons_not_ws '#' _ (by decide)]
    obtain ⟨t', ht'⟩ := pyRstrip_head '#' (' ' :: categoryTitle category)
      (by decide)
    rw [ht']
    simp
  have hsigL : sigOf (writeLines category S) =
      pyStrip (pstr "# " ++ categoryTitle category) ::
        ((if storeHasKey S none = true ∧ storeGet S none ≠ []
          then storeGet S none else []).map pyStrip ++
         ((sortLe (fun p q => !(pstrLt q.1 p.1)) (namedPairs S)).filter
           (fun p => decide (p.2 ≠ []))).flatMap blockSig) := by
    rw [show writeLines category S = (pstr "# " ++ categoryTitle category) ::
        ((if storeHasKey S none = true ∧ storeGet S none ≠ []
          then storeGet S none ++ [[]] else []) ++
         (sortLe (fun p q => !(pstrLt q.1 p.1)) (namedPairs S)).flatMap
           (fun p => if p.2 ≠ [] then (pstr "## " ++ p.1) :: p.2 ++ [[]]
                     else [])) from rfl]
    rw [sigOf_cons_pos _ _ hsigT]
    rw [sigOf_append]
    have hsigNL : sigOf (if storeHasKey S none = true ∧ storeGet S none ≠ []
        then storeGet S none ++ [[]] else []) =
        (if storeHasKey S none = true ∧ storeGet S none ≠ []
         then storeGet S none else []).map pyStrip := by
      split
      · rename_i hcond
        rw [sigOf_append]
        rw [sigOf_facts _ (fun f hf => (hNBwf f hf hcond.2).2)]
        rw [show sigOf [[]] = [] from rfl, List.append_nil]
      · rfl
    have hsigSL : sigOf
        ((sortLe (fun p q => !(pstrLt q.1 p.1)) (namedPairs S)).flatMap
          (fun p => if p.2 ≠ [] then (pstr "## " ++ p.1) :: p.2 ++ [[]]
                    else [])) =
        ((sortLe (fun p q => !(pstrLt q.1 p.1)) (namedPairs S)).filter
          (fun p => decide (p.2 ≠ []))).flatMap blockSig := by
      rw [sigOf_flatMap]
      rw [flatMap_congr _ _
        (fun p => if p.2 ≠ [] then blockSig p else [])
        (fun p hp => by
          show sigOf (if p.2 ≠ [] then (pstr "## " ++ p.1) :: p.2 ++ [[]]
            else []) = if p.2 ≠ [] then blockSig p else []
          by_cases hpne : p.2 ≠ []
          · rw [if_pos hpne, if_pos hpne]
            obtain ⟨hfacts, hkey⟩ := hsubswf p hp hpne
            obtain ⟨hS, -, -⟩ := keyline_spec p.1 hkey.2
            rw [sigOf_append]
            rw [sigOf_cons_pos _ _ (by rw [hS]; exact List.cons_ne_nil _ _)]
            rw [sigOf_facts _ (fun f hf => (hfacts f hf).2)]
            rw [show sigOf [[]] = [] from rfl, List.append_nil]
            rfl
          · rw [if_neg hpne, if_neg hpne]
            rfl)]
      exact flatMap_if_filter _ _ _
    rw [hsigNL, hsigSL]
  have hread : read_category (write_category category S) =
      parseLines (sigOf (writeLines category S)) none [(none, [])] := by
    show parseLines (splitNl (write_category category S)) none [(none, [])] = _
    rw [parseLines_sig]
    congr 1
    show sigOf (splitNl (pyStrip (joinNl (writeLines category S)) ++ ['\n'])) = _
    rw [hJ]
    exact sig_rstrip_join _ hLnl
  rw [hread, hsigL]
  have htskip : parseLines (pyStrip (pstr "# " ++ categoryTitle category) ::
      ((if storeHasKey S none = true ∧ storeGet S none ≠ []
        then storeGet S none else []).map pyStrip ++
       ((sortLe (fun p q => !(pstrLt q.1 p.1)) (namedPairs S)).filter
         (fun p => decide (p.2 ≠ []))).flatMap blockSig)) none [(none, [])] =
      parseLines
        ((if storeHasKey S none = true ∧ storeGet S none ≠ []
          then storeGet S none else []).map pyStrip ++
         ((sortLe (fun p q => !(pstrLt q.1 p.1)) (namedPairs S)).filter
           (fun p => decide (p.2 ≠ []))).flatMap blockSig) none [(none, [])] := by
    apply parseLines_skip
    · rw [pyStrip_idem]
      rw [show pstr "# " ++ categoryTitle category =
        '#' :: (' ' :: categoryTitle category) from rfl]
      exact (title_skip_props (categoryTitle category)).1
    · rw [pyStrip_idem]
      rw [show pstr "# " ++ categoryTitle category =
        '#' :: (' ' :: categoryTitle category) from rfl]
      exact (title_skip_props (categoryTitle category)).2
  rw [htskip]
  show parseLines
      ((if storeHasKey S none = true ∧ storeGet S none ≠ []
        then storeGet S none else []).map pyStrip ++
       ((sortLe (fun p q => !(pstrLt q.1 p.1)) (namedPairs S)).filter
         (fun p => decide (p.2 ≠ []))).flatMap blockSig) none
      ([] ++ [(none, [])]) = _
  rw [parse_facts _ none _ [] [] (by decide)
    (fun g hg => by
      obtain ⟨f, hfm, rfl⟩ := List.mem_map.mp hg
      refine ⟨pyStrip_idem f, ?_⟩
      split at hfm
      · rename_i hcond
        exact (hNBwf f hfm hcond.2).2
      · simp at hfm)]
  rw [show ([] : Store) ++ [(none, ([] : List PStr) ++
      (if storeHasKey S none = true ∧ storeGet S none ≠ []
       then storeGet S none else []).map pyStrip)] =
    [(none, (if storeHasKey S none = true ∧ storeGet S none ≠ []
             then storeGet S none else []).map pyStrip)] from rfl]
  rw [parse_blocks _ _
    (fun b hb => by
      have hbm := List.mem_of_mem_filter hb
      have hbne : b.2 ≠ [] := by simpa using List.of_mem_filter hb
      obtain ⟨hfacts, hkey⟩ := hsubswf b hbm hbne
      exact ⟨hkey.2, fun f hf => (hfacts f hf).2⟩)
    (by
      have hperm : ((sortLe (fun p q => !(pstrLt q.1 p.1))
          (namedPairs S)).map fun p => pyStrip p.1).Perm
          ((namedPairs S).map fun p => pyStrip p.1) :=
        (sortLe_perm _ (namedPairs S)).map _
      have hnd2 := (hperm.nodup_iff).mpr hkeys
      exact List.Nodup.sublist
        (List.Sublist.map _ (List.filter_sublist _)) hnd2)
    (fun b hb => by
      intro hm
      have : some (pyStrip b.1) ∈ [(none : Option PStr)] := hm
      simp at this)
    none]
  rfl

set_option maxRecDepth 1000000 in
/-- C4: for a well-formed category store, writing with `write_category`
and reading back with `read_category` yields a store equal to the
original under `(subcategory, factText)` multiset equality, with
blank-line and trailing/leading-whitespace differences not counted as
semantic differences (both sides are compared after stripping). -/
theorem read_write_roundtrip (category : PStr) (S : Store)
    (htitle : '\n' ∉ categoryTitle category)
    (hwf : WFStore S)
    (hkeys : ((namedPairs S).map fun p => pyStrip p.1).Nodup) :
    (storePairs (read_category (write_category category S)) :
        Multiset (Option PStr × PStr)) =
      (storePairs (stripStore S) : Multiset (Option PStr × PStr)) := by
  rw [Multiset.coe_eq_coe]
  rw [read_write_store category S htitle hwf hkeys]
  have hRpairs : storePairs
      ((none, (if storeHasKey S none = true ∧ storeGet S none ≠ []
               then storeGet S none else []).map pyStrip) ::
       ((sortLe (fun p q => !(pstrLt q.1 p.1)) (namedPairs S)).filter
          (fun p => decide (p.2 ≠ []))).map
         (fun b => (some (pyStrip b.1), b.2.map pyStrip))) =
      ((if storeHasKey S none = true ∧ storeGet S none ≠ []
        then storeGet S none else []).map pyStrip).map (fun f => (none, f)) ++
      ((sortLe (fun p q => !(pstrLt q.1 p.1)) (namedPairs S)).filter
          (fun p => decide (p.2 ≠ []))).flatMap
        (fun b => b.2.map fun f => (some (pyStrip b.1), pyStrip f)) := by
    unfold storePairs
    rw [List.flatMap_cons, List.flatMap_map]
    congr 1
    exact flatMap_congr _ _ _ (fun b hb => by rw [List.map_map]; rfl)
  rw [hRpairs]
  have hfilterperm :
      ((S.filter fun p => p.1.isNone) ++ (S.filter fun p => !p.1.isNone)).Perm
        S := List.filter_append_perm _ S
  have hsplitstrip : storePairs (stripStore
      ((S.filter fun p => p.1.isNone) ++ (S.filter fun p => !p.1.isNone))) =
      storePairs (stripStore (S.filter fun p => p.1.isNone)) ++
      storePairs (stripStore (S.filter fun p => !p.1.isNone)) := by
    unfold stripStore storePairs
    rw [List.map_append, List.flatMap_append]
  have hSperm : (storePairs (stripStore (S.filter fun p => p.1.isNone)) ++
      storePairs (stripStore (S.filter fun p => !p.1.isNone))).Perm
      (storePairs (stripStore S)) := by
    rw [← hsplitstrip]
    exact List.Perm.flatMap_right _ (hfilterperm.map _)
  have hNB : storePairs (stripStore (S.filter fun p => p.1.isNone)) =
      ((if storeHasKey S none = true ∧ storeGet S none ≠ []
        then storeGet S none else []).map pyStrip).map (fun f => (none, f)) := by
    rw [none_filter S hwf.2]
    by_cases hhk : storeHasKey S none = true
    · rw [if_pos hhk]
      by_cases hge : storeGet S none ≠ []
      · rw [if_pos ⟨hhk, hge⟩]
        show ((storeGet S none).map pyStrip).map (fun f => ((none : Option PStr).map pyStrip, f)) ++ [] = _
        rw [List.append_nil]
        rfl
      · rw [if_neg (fun hcon => hge hcon.2)]
        push_neg at hge
        rw [hge]
        rfl
    · rw [if_neg hhk, if_neg (fun hcon => hhk hcon.1)]
      rfl
  have hNamed : storePairs (stripStore (S.filter fun p => !p.1.isNone)) =
      (namedPairs S).flatMap
        (fun b => b.2.map fun f => (some (pyStrip b.1), pyStrip f)) :=
    named_pairs_strip S
  have hblocks : (((sortLe (fun p q => !(pstrLt q.1 p.1))
      (namedPairs S)).filter (fun p => decide (p.2 ≠ []))).flatMap
        (fun b => b.2.map fun f => (some (pyStrip b.1), pyStrip f))).Perm
      ((namedPairs S).flatMap
        (fun b => b.2.map fun f => (some (pyStrip b.1), pyStrip f))) := by
    rw [flatMap_filter_ne _ _ _ (fun x hx => by
      have hx2 : x.2 = [] := by
        have := hx
        simp only [decide_eq_false_iff_not, not_not] at this
        exact this
      rw [hx2]
      rfl)]
    exact List.Perm.flatMap_right _ (sortLe_perm _ (namedPairs S))
  refine ((List.Perm.append_left _ hblocks).trans ?_)
  rw [← hNB, ← hNamed] at *
  exact hSperm

set_option maxRecDepth 1000000 in
/-- C4 witness: the round-trip theorem applied to a concrete store with a
`None` bucket and a named bucket. -/
theorem read_write_roundtrip_witness :
    ('\n' ∉ categoryTitle (pstr "preferences")) ∧
    (storePairs (read_category (write_category (pstr "preferences") storeW)) :
        Multiset (Option PStr × PStr)) =
      (storePairs (stripStore storeW) : Multiset (Option PStr × PStr)) := by
  refine ⟨by decide, read_write_roundtrip (pstr "preferences") storeW
    (by decide) ⟨?_, by decide⟩ (by decide)⟩
  intro p hp
  simp only [storeW, List.mem_cons, List.not_mem_nil, or_false] at hp
  rcases hp with rfl | rfl
  · intro _
    refine ⟨?_, ?_⟩
    · show ∀ f ∈ [pstr "- a"], '\n' ∉ f ∧
        pyStartsWith (pyStrip f) (pstr "- ") = true
      decide
    · intro k hk
      cases hk
  · intro _
    refine ⟨?_, ?_⟩
    · show ∀ f ∈ [pstr "- b", pstr "- c"], '\n' ∉ f ∧
        pyStartsWith (pyStrip f) (pstr "- ") = true
      decide
    · intro k hk
      cases hk
      show '\n' ∉ pstr "Work" ∧ pyStrip (pstr "Work") ≠ []
      decide

/-! ## `re.sub(r'\(.*?\)','',·)` and `merge_facts` fact-preparation
lemmas -/

theorem stripParensF_nil (f : Nat) : stripParensF f [] = [] := by
  cases f <;> rfl

theorem stripParensF_cons (f : Nat) (c : Char) (cs : PStr) :
    stripParensF (f + 1) (c :: cs) =
      if c = '(' then
        match cs.dropWhile (fun d => !(d = ')')) with
        | [] => c :: cs
        | _ :: rest => stripParensF f rest
      else c :: stripParensF f cs := rfl

/-- The fuel of `stripParensF` is irrelevant once it covers the string. -/
theorem stripParensF_fuel : ∀ (f1 : Nat) (s : PStr) (f2 : Nat),
    s.length ≤ f1 → s.length ≤ f2 → stripParensF f1 s = stripParensF f2 s := by
  intro f1
  induction f1 with
  | zero =>
    intro s f2 h1 h2
    have : s = [] := List.length_eq_zero.mp (Nat.le_zero.mp h1)
    subst this
    rw [stripParensF_nil, stripParensF_nil]
  | succ f1' ih =>
    intro s f2 h1 h2
    cases s with
    | nil => rw [stripParensF_nil, stripParensF_nil]
    | cons c cs =>
      cases f2 with
      | zero => simp at h2
      | succ f2' =>
        rw [stripParensF_cons, stripParensF_cons]
        by_cases hc : c = '('
        · rw [if_pos hc, if_pos hc]
          rcases hd : cs.dropWhile (fun d => !(d = ')')) with _ | ⟨x, rest⟩
          · rfl
          · have hlen : rest.length < cs.length + 1 := by
              have hsub : (cs.dropWhile fun d => !(d = ')')).length ≤
                  cs.length := (List.dropWhile_sublist _).length_le
              rw [hd] at hsub
              simp at hsub
              omega
            simp only [List.length_cons] at h1 h2
            exact ih rest f2' (by omega) (by omega)
        · rw [if_neg hc, if_neg hc]
          simp only [List.length_cons] at h1 h2
          rw [ih cs f2' (by omega) (by omega)]

/-- `stripParensF` at any sufficient fuel is `stripParens`. -/
theorem stripParensF_eq (f : Nat) (s : PStr) (h : s.length ≤ f) :
    stripParensF f s = stripParens s :=
  stripParensF_fuel f s s.length h (le_refl _)

/-- Characters before the first `(` pass through `re.sub` unchanged. -/
theorem stripParens_append_left : ∀ (u v : PStr), '(' ∉ u →
    stripParens (u ++ v) = u ++ stripParens v := by
  intro u
  induction u with
  | nil =>
    intro v _
    rfl
  | cons c u' ih =>
    intro v hu
    have hc : ¬(c = '(') := fun he => hu (he ▸ List.mem_cons_self c u')
    have hu' : '(' ∉ u' := fun hm => hu (List.mem_cons_of_mem c hm)
    show stripParensF ((c :: (u' ++ v)).length) (c :: (u' ++ v)) = _
    rw [show (c :: (u' ++ v)).length = (u' ++ v).length + 1 from rfl]
    rw [stripParensF_cons, if_neg hc]
    rw [stripParensF_eq _ _ (le_refl _)]
    rw [ih v hu']
    rfl

/-- A string without `(` is unchanged by `re.sub`. -/
theorem stripParens_no_paren (u : PStr) (hu : '(' ∉ u) :
    stripParens u = u := by
  have h := stripParens_append_left u [] hu
  rw [List.append_nil] at h
  rw [show stripParens ([] : PStr) = [] from rfl, List.append_nil] at h
  exact h

/-- The first parenthetical group, closed at the nearest `)`, is deleted
entirely. -/
theorem stripParens_group (d w : PStr) (hd : ')' ∉ d) :
    stripParens ('(' :: (d ++ ')' :: w)) = stripParens w := by
  show stripParensF (('(' :: (d ++ ')' :: w)).length) _ = _
  rw [show ('(' :: (d ++ ')' :: w)).length = (d ++ ')' :: w).length + 1 from rfl]
  rw [stripParensF_cons, if_pos rfl]
  have hdrop : (d ++ ')' :: w).dropWhile (fun x => !(x = ')')) = ')' :: w := by
    rw [List.dropWhile_append]
    rw [if_pos (by
      rw [List.isEmpty_iff, List.dropWhile_eq_nil_iff]
      intro x hx
      have hxne : ¬(x = ')') := fun he => hd (he ▸ hx)
      simp [hxne])]
    rw [List.dropWhile_cons_of_neg (by simp)]
  rw [hdrop]
  show stripParensF ((d ++ ')' :: w).length) w = _
  rw [stripParensF_eq _ _ (by simp; omega)]

/-- A string ending in a visible character is `rstrip`-stable. -/
theorem pyRstrip_last (u : PStr) (x : Char) (hx : isPySpace x = false) :
    pyRstrip (u ++ [x]) = u ++ [x] := by
  rw [pyRstrip_append_keep u [x] x (by simp) hx]
  unfold pyRstrip
  rw [show ([x] : PStr).reverse = [x] from rfl,
    List.dropWhile_cons_of_neg (by simp [hx])]
  rfl

/-- `c in s` for one character is membership. -/
theorem pyContainsChar_iff (s : PStr) (c : Char) :
    pyContainsChar s c = true ↔ c ∈ s := by
  unfold pyContainsChar
  exact List.elem_iff

/-- Pieces of a split contain no newline. -/
theorem splitNl_no_nl : ∀ (s : PStr), ∀ l ∈ splitNl s, '\n' ∉ l := by
  intro s
  induction s with
  | nil =>
    intro l hl
    have : l = [] := by simpa [splitNl] using hl
    subst this
    simp
  | cons c cs ih =>
    intro l hl
    rw [splitNl_cons] at hl
    by_cases hc : c = '\n'
    · rw [if_pos hc] at hl
      rcases List.mem_cons.mp hl with rfl | h2
      · simp
      · exact ih l h2
    · rw [if_neg hc] at hl
      rcases hd : splitNl cs with _ | ⟨h0, t0⟩
      · exact absurd hd (splitNl_ne_nil cs)
      · rw [hd] at hl
        rcases List.mem_cons.mp hl with rfl | h2
        · intro hm
          rcases List.mem_cons.mp hm with rfl | h3
          · exact hc rfl
          · exact ih h0 (by rw [hd]; simp) h3
        · exact ih l (by rw [hd]; simp [h2])

/-- `strip` keeps a sub-sequence of the string. -/
theorem pyStrip_sublist (s : PStr) : List.Sublist (pyStrip s) s := by
  rw [pyStrip_eq_rstrip_drop]
  have h1 : List.Sublist (pyRstrip (s.dropWhile isPySpace))
      (s.dropWhile isPySpace) := (pyRstrip_front _).sublist
  exact h1.trans (List.dropWhile_sublist _)

/-- The two-layer conditional of `prepFact`, written out. -/
theorem prepFact_eq (d c : PStr) :
    prepFact d c =
      (if ¬(('(' :: d) <:+:
            (if pyStartsWith c (pstr "- ") = true then c
             else pstr "- " ++ c)) ∧
          ¬(pyContainsChar
            (if pyStartsWith c (pstr "- ") = true then c
             else pstr "- " ++ c) '(' = true)
       then (if pyStartsWith c (pstr "- ") = true then c
             else pstr "- " ++ c) ++ (' ' :: '(' :: d ++ [')'])
       else (if pyStartsWith c (pstr "- ") = true then c
             else pstr "- " ++ c)) := rfl

/-- The prepared fact starts with the `- ` marker. -/
theorem prepFact_shape (d c : PStr) : ∃ y, prepFact d c = '-' :: ' ' :: y := by
  rw [prepFact_eq]
  by_cases h1 : pyStartsWith c (pstr "- ") = true
  · obtain ⟨y, hy⟩ := dash_shape c h1
    rw [if_pos h1]
    subst hy
    split
    · exact ⟨y ++ (' ' :: '(' :: d ++ [')']), rfl⟩
    · exact ⟨y, rfl⟩
  · rw [if_neg h1]
    split
    · exact ⟨c ++ (' ' :: '(' :: d ++ [')']), rfl⟩
    · exact ⟨c, rfl⟩

/-- The prepared fact is a single line. -/
theorem prepFact_no_nl (d c : PStr) (hc : '\n' ∉ c) (hd : '\n' ∉ d) :
    '\n' ∉ prepFact d c := by
  rw [prepFact_eq]
  set f1 := if pyStartsWith c (pstr "- ") = true then c else pstr "- " ++ c
    with hf1def
  have hf1 : '\n' ∉ f1 := by
    rw [hf1def]
    split
    · exact hc
    · intro hm
      rcases List.mem_append.mp hm with h1 | h2
      · exact absurd h1 (by decide)
      · exact hc h2
  split
  · intro hm
    rcases List.mem_append.mp hm with h1 | h2
    · exact hf1 h1
    · rcases List.mem_cons.mp h2 with h3 | h4
      · exact absurd h3 (by decide)
      · rcases List.mem_cons.mp h4 with h5 | h6
        · exact absurd h5 (by decide)
        · rcases List.mem_append.mp h6 with h7 | h8
          · exact hd h7
          · exact absurd h8 (by decide)
  · exact hf1

/-- The prepared fact carries no trailing whitespace. -/
theorem pyRstrip_prep (d c : PStr) (hc : WFNewFact c) :
    pyRstrip (prepFact d c) = prepFact d c := by
  obtain ⟨hcn, hcr⟩ := hc
  rw [prepFact_eq]
  by_cases h1 : pyStartsWith c (pstr "- ") = true
  · rw [if_pos h1]
    split
    · rw [show c ++ (' ' :: '(' :: d ++ [')']) =
        (c ++ (' ' :: '(' :: d)) ++ [')'] by simp]
      exact pyRstrip_last _ ')' (by decide)
    · exact hcr
  · rw [if_neg h1]
    split
    · rw [show (pstr "- " ++ c) ++ (' ' :: '(' :: d ++ [')']) =
        ((pstr "- " ++ c) ++ (' ' :: '(' :: d)) ++ [')'] by simp]
      exact pyRstrip_last _ ')' (by decide)
    · rename_i hcond
      have hparen : '(' ∈ pstr "- " ++ c := by
        by_cases hinf : ('(' :: d) <:+: (pstr "- " ++ c)
        · exact hinf.sublist.subset (List.mem_cons_self _ _)
        · by_cases hcont : pyContainsChar (pstr "- " ++ c) '(' = true
          · exact (pyContainsChar_iff _ _).mp hcont
          · exact absurd ⟨hinf, hcont⟩ hcond
      have hpc : '(' ∈ c := by
        rcases List.mem_append.mp hparen with h2 | h2
        · exact absurd h2 (by decide)
        · exact h2
      rw [pyRstrip_append_keep (pstr "- ") c '(' hpc (by decide), hcr]

/-- The prepared fact is `strip`-stable. -/
theorem pyStrip_prep (d c : PStr) (hc : WFNewFact c) :
    pyStrip (prepFact d c) = prepFact d c := by
  obtain ⟨y, hy⟩ := prepFact_shape d c
  rw [hy, pyStrip_cons_not_ws '-' _ (by decide), ← hy]
  exact pyRstrip_prep d c hc

/-- The prepared fact is a well-formed, stripped fact line. -/
theorem prepFact_wf (d c : PStr) (hc : WFNewFact c) (hdn : '\n' ∉ d) :
    WFFact (prepFact d c) ∧ pyStrip (prepFact d c) = prepFact d c := by
  have hself := pyStrip_prep d c hc
  refine ⟨⟨prepFact_no_nl d c hc.1 hdn, ?_⟩, hself⟩
  rw [hself]
  obtain ⟨y, hy⟩ := prepFact_shape d c
  rw [hy]
  show List.isPrefixOf (pstr "- ") ('-' :: ' ' :: y) = true
  rw [List.isPrefixOf_iff_prefix]
  exact ⟨y, rfl⟩

/-- The date only enters the appended ` (date)` group, which the
normalisation removes: preparing the same fact on different days yields
the same cleaned string. -/
theorem cleanFact_prep (c d d' : PStr) (hc : WFNewFact c)
    (hd : ')' ∉ d) (hd' : ')' ∉ d') :
    cleanFact (prepFact d c) = cleanFact (prepFact d' c) := by
  rw [prepFact_eq, prepFact_eq]
  set f1 := if pyStartsWith c (pstr "- ") = true then c else pstr "- " ++ c
    with hf1def
  by_cases hcont : pyContainsChar f1 '(' = true
  · rw [if_neg (fun hcc => hcc.2 hcont), if_neg (fun hcc => hcc.2 hcont)]
  · have hnp : '(' ∉ f1 :=
      fun hm => hcont ((pyContainsChar_iff _ '(').mpr hm)
    have hinf : ¬(('(' :: d) <:+: f1) :=
      fun hi => hnp (hi.sublist.subset (List.mem_cons_self _ _))
    have hinf' : ¬(('(' :: d') <:+: f1) :=
      fun hi => hnp (hi.sublist.subset (List.mem_cons_self _ _))
    rw [if_pos ⟨hinf, hcont⟩, if_pos ⟨hinf', hcont⟩]
    have hsp : ∀ e : PStr, ')' ∉ e →
        stripParens (f1 ++ (' ' :: '(' :: e ++ [')'])) = f1 ++ [' '] := by
      intro e he
      rw [show f1 ++ (' ' :: '(' :: e ++ [')']) =
        (f1 ++ [' ']) ++ ('(' :: (e ++ ')' :: [])) by simp]
      rw [stripParens_append_left _ _ (by
        intro hm
        rcases List.mem_append.mp hm with h2 | h2
        · exact hnp h2
        · exact absurd h2 (by decide))]
      rw [stripParens_group e [] he]
      rw [show stripParens ([] : PStr) = [] from rfl, List.append_nil]
    unfold cleanFact
    rw [hsp d hd, hsp d' hd']

/-- Any string is a duplicate of itself at any threshold up to `1`. -/
theorem ratioGE_self (θ : ℚ) (a : PStr) (h : θ ≤ 1) : ratioGE θ a a = true :=
  (ratioGE_iff θ a a).mpr (by rw [similarity_self]; exact h)

/-- The default threshold does not exceed `1`. -/
theorem dupThreshold_le_one : dupThreshold ≤ 1 := by
  unfold dupThreshold
  norm_num

/-- No fixed category's title line contains a newline. -/
theorem categories_title_no_nl : ∀ cat ∈ CATEGORIES, '\n' ∉ categoryTitle cat := by
  decide

/-- `storeAppend` keeps the key list. -/
theorem storeKeys_storeAppend (st : Store) (k : Option PStr) (f : PStr) :
    storeKeys (storeAppend st k f) = storeKeys st := by
  unfold storeKeys storeAppend
  rw [List.map_map]
  apply List.map_congr_left
  intro p _
  by_cases h : p.1 = k
  · simp [h]
  · simp [h]

/-- Members of `storeAppend` come from members of the store, with at most
the new fact appended. -/
theorem storeAppend_mem (st : Store) (k : Option PStr) (f : PStr)
    (q : Option PStr × List PStr) (hq : q ∈ storeAppend st k f) :
    ∃ p ∈ st, p.1 = q.1 ∧ (q.2 = p.2 ∨ q.2 = p.2 ++ [f]) := by
  unfold storeAppend at hq
  obtain ⟨p, hp, he⟩ := List.mem_map.mp hq
  by_cases h : p.1 = k
  · rw [if_pos h] at he
    exact ⟨p, hp, by rw [← he], Or.inr (by rw [← he])⟩
  · rw [if_neg h] at he
    exact ⟨p, hp, by rw [← he], Or.inl (by rw [← he])⟩

/-- The parsing loop preserves the store invariant when fed single-line
input. -/
theorem parseLines_inv : ∀ (ls : List PStr) (cur : Option PStr) (st : Store),
    (∀ l ∈ ls, '\n' ∉ l) → StoreInv st → StoreInv (parseLines ls cur st) := by
  intro ls
  induction ls with
  | nil =>
    intro cur st _ hst
    exact hst
  | cons l ls' ih =>
    intro cur st hnl hst
    have hlnl : '\n' ∉ l := hnl l (by simp)
    have htail : ∀ x ∈ ls', '\n' ∉ x := fun x hx => hnl x (by simp [hx])
    rw [parseLines_cons]
    by_cases h1 : pyStartsWith (pyStrip l) (pstr "## ") = true
    · rw [if_pos h1]
      by_cases h2 : storeHasKey st (some (pyStrip ((pyStrip l).drop 3))) = true
      · rw [if_pos h2]
        exact ih _ _ htail hst
      · rw [if_neg h2]
        apply ih _ _ htail
        obtain ⟨y, hy⟩ := startsWith_ex (pyStrip l) _ h1
        have hsubself : pyStrip (pyStrip ((pyStrip l).drop 3)) =
            pyStrip ((pyStrip l).drop 3) := pyStrip_idem _
        have hsubnl : '\n' ∉ pyStrip ((pyStrip l).drop 3) := fun hm =>
          hlnl ((pyStrip_sublist l).subset
            ((List.drop_sublist 3 (pyStrip l)).subset
              ((pyStrip_sublist _).subset hm)))
        have hdrop : (pyStrip l).drop 3 = y := by
          rw [hy]
          rfl
        have hsubne : pyStrip ((pyStrip l).drop 3) ≠ [] := by
          rw [hdrop]
          intro hcon
          have hall := (pyStrip_eq_nil_iff y).mp hcon
          have hstep : pyStrip (pyStrip l) = ['#', '#'] := by
            rw [hy]
            rw [show pstr "## " ++ y = '#' :: ('#' :: (' ' :: y)) from rfl]
            rw [pyStrip_cons_not_ws '#' _ (by decide)]
            rw [show ('#' : Char) :: ('#' :: (' ' :: y)) =
              ['#', '#'] ++ (' ' :: y) from rfl]
            rw [pyRstrip_append_ws ['#', '#'] (' ' :: y) (by
              intro x hx
              rcases List.mem_cons.mp hx with rfl | hx2
              · decide
              · exact hall x hx2)]
            decide
          rw [pyStrip_idem l, hy] at hstep
          have hlen := congrArg List.length hstep
          rw [List.length_append] at hlen
          rw [show List.length (pstr "## ") = 3 from rfl] at hlen
          simp at hlen
          omega
        constructor
        · intro p hp
          rcases List.mem_append.mp hp with hp1 | hp2
          · exact hst.1 p hp1
          · have hp3 : p = (some (pyStrip ((pyStrip l).drop 3)), []) := by
              simpa using hp2
            subst hp3
            refine ⟨by simp, ?_⟩
            intro k hk
            have hk' : pyStrip ((pyStrip l).drop 3) = k := by simpa using hk
            subst hk'
            exact ⟨⟨hsubnl, by rw [hsubself]; exact hsubne⟩, hsubself⟩
        · rw [storeKeys_append]
          rw [show storeKeys [(some (pyStrip ((pyStrip l).drop 3)), [])] =
            [some (pyStrip ((pyStrip l).drop 3))] from rfl]
          rw [List.nodup_append]
          refine ⟨hst.2, List.nodup_singleton _, ?_⟩
          intro a ha hb
          have hab : a = some (pyStrip ((pyStrip l).drop 3)) := by simpa using hb
          subst hab
          exact h2 ((storeHasKey_iff st _).mpr ha)
    · rw [if_neg h1]
      by_cases h2 : pyStartsWith (pyStrip l) (pstr "- ") = true
      · rw [if_pos h2]
        apply ih _ _ htail
        constructor
        · intro p hp
          obtain ⟨q, hq, hqk, hcase⟩ := storeAppend_mem st cur (pyStrip l) p hp
          obtain ⟨hqf, hqkeys⟩ := hst.1 q hq
          refine ⟨?_, fun k hk => hqkeys k (by rw [hqk]; exact hk)⟩
          intro f hf
          rcases hcase with he | he
          · exact hqf f (by rw [← he]; exact hf)
          · rw [he] at hf
            rcases List.mem_append.mp hf with hf1 | hf2
            · exact hqf f hf1
            · have hfl : f = pyStrip l := by simpa using hf2
              subst hfl
              refine ⟨⟨?_, ?_⟩, pyStrip_idem l⟩
              · exact fun hm => hlnl ((pyStrip_sublist l).subset hm)
              · rw [pyStrip_idem l]
                exact h2
        · rw [storeKeys_storeAppend]
          exact hst.2
      · rw [if_neg h2]
        exact ih _ _ htail hst

/-- The parse of any file content satisfies the store invariant. -/
theorem read_StoreInv (content : PStr) : StoreInv (read_category content) := by
  apply parseLines_inv (splitNl content) none [(none, [])]
    (splitNl_no_nl content)
  constructor
  · intro p hp
    have hp' : p = (none, []) := by simpa using hp
    subst hp'
    refine ⟨by simp, ?_⟩
    intro k hk
    cases hk
  · decide

/-- Membership in the fact list of a store. -/
theorem mem_storeFacts (st : Store) (x : PStr) :
    x ∈ storeFacts st ↔ ∃ p ∈ st, x ∈ p.2 := List.mem_flatMap

/-- Membership in the pair list of a store. -/
theorem mem_storePairs (st : Store) (k : Option PStr) (x : PStr) :
    (k, x) ∈ storePairs st ↔ ∃ p ∈ st, p.1 = k ∧ x ∈ p.2 := by
  unfold storePairs
  rw [List.mem_flatMap]
  constructor
  · rintro ⟨p, hp, hm⟩
    obtain ⟨f, hf, he⟩ := List.mem_map.mp hm
    obtain ⟨h1, h2⟩ := Prod.mk.injEq .. ▸ he
    exact ⟨p, hp, h1, h2 ▸ hf⟩
  · rintro ⟨p, hp, h1, h2⟩
    exact ⟨p, hp, List.mem_map.mpr ⟨x, h2, by rw [h1]⟩⟩

/-- Fact lists concatenate over store concatenation. -/
theorem storeFacts_append (a b : Store) :
    storeFacts (a ++ b) = storeFacts a ++ storeFacts b := by
  unfold storeFacts
  rw [List.flatMap_append]

/-- `storeAppend` keeps every stored fact. -/
theorem storeFacts_storeAppend_mem (st : Store) (k : Option PStr) (f x : PStr)
    (hx : x ∈ storeFacts st) : x ∈ storeFacts (storeAppend st k f) := by
  obtain ⟨p, hp, hm⟩ := (mem_storeFacts st x).mp hx
  apply (mem_storeFacts _ x).mpr
  unfold storeAppend
  by_cases h : p.1 = k
  · exact ⟨(p.1, p.2 ++ [f]), List.mem_map.mpr ⟨p, hp, by rw [if_pos h]⟩,
      by simp [hm]⟩
  · exact ⟨p, List.mem_map.mpr ⟨p, hp, by rw [if_neg h]⟩, hm⟩

/-- `storeAppend` at a present key stores the new fact. -/
theorem storeFacts_storeAppend_self (st : Store) (k : Option PStr) (f : PStr)
    (hk : k ∈ storeKeys st) : f ∈ storeFacts (storeAppend st k f) := by
  obtain ⟨p, hp, he⟩ := List.mem_map.mp hk
  apply (mem_storeFacts _ f).mpr
  refine ⟨(p.1, p.2 ++ [f]), ?_, by simp⟩
  unfold storeAppend
  exact List.mem_map.mpr ⟨p, hp, by rw [if_pos he]⟩

/-- A store satisfying the merge invariant is already stripped. -/
theorem stripStore_eq_self (st : Store) (h : StoreInv st) :
    stripStore st = st := by
  unfold stripStore
  conv_rhs => rw [← List.map_id st]
  apply List.map_congr_left
  intro p hp
  obtain ⟨hf, hk⟩ := h.1 p hp
  have h1 : p.1.map pyStrip = p.1 := by
    rcases hp1 : p.1 with _ | k
    · rfl
    · show some (pyStrip k) = some k
      rw [(hk k hp1).2]
  have h2 : p.2.map pyStrip = p.2 := by
    conv_rhs => rw [← List.map_id p.2]
    apply List.map_congr_left
    intro f hfm
    exact (hf f hfm).2
  rw [h1, h2]
  rfl

/-- The named keys of a store are its `some` keys. -/
theorem namedPairs_keys : ∀ st : Store,
    (namedPairs st).map (fun p => some p.1) =
      (storeKeys st).filter fun k => k.isSome := by
  intro st
  induction st with
  | nil => rfl
  | cons p st' ih =>
    rcases p with ⟨_ | k, fs⟩
    · show (namedPairs st').map _ = List.filter _ (none :: storeKeys st')
      rw [List.filter_cons_of_neg (by decide)]
      exact ih
    · show some k :: (namedPairs st').map _ =
        List.filter _ (some k :: storeKeys st')
      rw [List.filter_cons_of_pos rfl]
      rw [ih]

/-- The store invariant yields the round-trip hypotheses. -/
theorem storeInv_wf (st : Store) (h : StoreInv st) :
    WFStore st ∧ ((namedPairs st).map fun p => pyStrip p.1).Nodup := by
  constructor
  · exact ⟨fun p hp _ => ⟨fun f hf => ((h.1 p hp).1 f hf).1,
      fun k hk => ((h.1 p hp).2 k hk).1⟩, h.2⟩
  · have he : ((namedPairs st).map fun p => pyStrip p.1) =
        (namedPairs st).map fun p => p.1 := by
      apply List.map_congr_left
      intro b hb
      exact ((h.1 _ (namedPairs_mem st b hb)).2 b.1 rfl).2
    rw [he]
    have h2 : ((namedPairs st).map fun p => some p.1).Nodup := by
      rw [namedPairs_keys st]
      exact h.2.filter _
    have hmm : ((namedPairs st).map fun p => p.1).map some =
        (namedPairs st).map fun p => some p.1 := by
      rw [List.map_map]
      rfl
    have h3 : (((namedPairs st).map fun p => p.1).map some).Nodup := by
      rw [hmm]
      exact h2
    exact h3.of_map some

/-- The duplicate branch of a merge step leaves the state unchanged. -/
theorem mergeFactStep_dup (d : PStr) (sub : Option PStr) (ms : MergeState)
    (c : PStr) (h : is_duplicate ms.2.1 (prepFact d c) dupThreshold = true) :
    mergeFactStep d sub ms c = ms := by
  show (if ¬ is_duplicate ms.2.1 (prepFact d c) dupThreshold = true
        then (storeAppend ms.1 sub (prepFact d c),
              ms.2.1 ++ [prepFact d c], ms.2.2 + 1)
        else ms) = ms
  rw [if_neg (not_not.mpr h)]

/-- A fact fold over all-duplicate candidates is the identity. -/
theorem mergeFactFold_noop (d : PStr) (sub : Option PStr) :
    ∀ (facts : List PStr) (ms : MergeState),
      (∀ c ∈ facts, is_duplicate ms.2.1 (prepFact d c) dupThreshold = true) →
      facts.foldl (mergeFactStep d sub) ms = ms := by
  intro facts
  induction facts with
  | nil =>
    intro ms _
    rfl
  | cons c cs ih =>
    intro ms h
    rw [List.foldl_cons, mergeFactStep_dup d sub ms c (h c (by simp))]
    exact ih ms fun x hx => h x (by simp [hx])

/-- A subcategory step over all-duplicate candidates only (possibly)
creates an empty bucket. -/
theorem mergeSubStep_noop (d : PStr) (ms : MergeState)
    (e : Option PStr × List PStr)
    (h : ∀ c ∈ e.2, is_duplicate ms.2.1 (prepFact d c) dupThreshold = true) :
    mergeSubStep d ms e =
      ((if storeHasKey ms.1 e.1 then ms.1 else ms.1 ++ [(e.1, [])]),
       ms.2.1, ms.2.2) := by
  unfold mergeSubStep
  exact mergeFactFold_noop d e.1 e.2 _ h

/-- The whole merge fold over all-duplicate data keeps `all_existing`,
the count, and the stored pairs and facts. -/
theorem mergeDataFold_noop (d : PStr) :
    ∀ (nd : List (Option PStr × List PStr)) (ms : MergeState),
      (∀ b ∈ nd, ∀ c ∈ b.2,
        is_duplicate ms.2.1 (prepFact d c) dupThreshold = true) →
      (nd.foldl (mergeSubStep d) ms).2.1 = ms.2.1 ∧
      (nd.foldl (mergeSubStep d) ms).2.2 = ms.2.2 ∧
      storePairs (nd.foldl (mergeSubStep d) ms).1 = storePairs ms.1 ∧
      storeFacts (nd.foldl (mergeSubStep d) ms).1 = storeFacts ms.1 := by
  intro nd
  induction nd with
  | nil =>
    intro ms _
    exact ⟨rfl, rfl, rfl, rfl⟩
  | cons e es ih =>
    intro ms h
    rw [List.foldl_cons, mergeSubStep_noop d ms e (h e (by simp))]
    obtain ⟨i1, i2, i3, i4⟩ := ih
      ((if storeHasKey ms.1 e.1 then ms.1 else ms.1 ++ [(e.1, [])]),
       ms.2.1, ms.2.2)
      (fun b hb c hc => h b (by simp [hb]) c hc)
    refine ⟨i1, i2, ?_, ?_⟩
    · rw [i3]
      by_cases hk : storeHasKey ms.1 e.1 = true
      · rw [if_pos hk]
      · rw [if_neg hk, storePairs_append]
        rw [show storePairs [(e.1, [])] = [] from rfl, List.append_nil]
    · rw [i4]
      by_cases hk : storeHasKey ms.1 e.1 = true
      · rw [if_pos hk]
      · rw [if_neg hk, storeFacts_append]
        rw [show storeFacts [(e.1, [])] = [] from rfl, List.append_nil]

/-- One merge step preserves the merge invariant and the key list. -/
theorem mergeFactStep_inv (d : PStr) (sub : Option PStr) (ms : MergeState)
    (c : PStr) (hc : WFNewFact c) (hd : '\n' ∉ d)
    (hsub : sub ∈ storeKeys ms.1) (hinv : MergeInv ms) :
    MergeInv (mergeFactStep d sub ms c) ∧
    storeKeys (mergeFactStep d sub ms c).1 = storeKeys ms.1 := by
  by_cases hdup : is_duplicate ms.2.1 (prepFact d c) dupThreshold = true
  · rw [mergeFactStep_dup d sub ms c hdup]
    exact ⟨hinv, rfl⟩
  · have he : mergeFactStep d sub ms c =
        (storeAppend ms.1 sub (prepFact d c),
         ms.2.1 ++ [prepFact d c], ms.2.2 + 1) := by
      show (if ¬ is_duplicate ms.2.1 (prepFact d c) dupThreshold = true
            then (storeAppend ms.1 sub (prepFact d c),
                  ms.2.1 ++ [prepFact d c], ms.2.2 + 1)
            else ms) = _
      rw [if_pos hdup]
    rw [he]
    obtain ⟨hwf, hstr⟩ := prepFact_wf d c hc hd
    refine ⟨⟨⟨?_, ?_⟩, ?_⟩, storeKeys_storeAppend ms.1 sub _⟩
    · intro p hp
      obtain ⟨q, hq, hqk, hcase⟩ := storeAppend_mem ms.1 sub _ p hp
      obtain ⟨hqf, hqkeys⟩ := hinv.1.1 q hq
      refine ⟨?_, fun k hk => hqkeys k (by rw [hqk]; exact hk)⟩
      intro f hf
      rcases hcase with hce | hce
      · exact hqf f (by rw [← hce]; exact hf)
      · rw [hce] at hf
        rcases List.mem_append.mp hf with hf1 | hf2
        · exact hqf f hf1
        · have : f = prepFact d c := by simpa using hf2
          rw [this]
          exact ⟨hwf, hstr⟩
    · rw [storeKeys_storeAppend]
      exact hinv.1.2
    · intro x hx
      rcases List.mem_append.mp hx with hx1 | hx2
      · exact storeFacts_storeAppend_mem ms.1 sub _ x (hinv.2 x hx1)
      · have : x = prepFact d c := by simpa using hx2
        rw [this]
        exact storeFacts_storeAppend_self ms.1 sub _ hsub

/-- The inner fact fold preserves the merge invariant and the key list. -/
theorem mergeFactFold_inv (d : PStr) (sub : Option PStr) :
    ∀ (facts : List PStr) (ms : MergeState),
      (∀ c ∈ facts, WFNewFact c) → '\n' ∉ d → sub ∈ storeKeys ms.1 →
      MergeInv ms →
      MergeInv (facts.foldl (mergeFactStep d sub) ms) ∧
      storeKeys (facts.foldl (mergeFactStep d sub) ms).1 =
        storeKeys ms.1 := by
  intro facts
  induction facts with
  | nil =>
    intro ms _ _ _ hinv
    exact ⟨hinv, rfl⟩
  | cons c cs ih =>
    intro ms hwf hd hsub hinv
    rw [List.foldl_cons]
    obtain ⟨h1, h2⟩ := mergeFactStep_inv d sub ms c (hwf c (by simp)) hd
      hsub hinv
    obtain ⟨h3, h4⟩ := ih (mergeFactStep d sub ms c)
      (fun x hx => hwf x (by simp [hx])) hd (by rw [h2]; exact hsub) h1
    exact ⟨h3, by rw [h4, h2]⟩

/-- One subcategory step preserves the merge invariant. -/
theorem mergeSubStep_inv (d : PStr) (ms : MergeState)
    (e : Option PStr × List PStr) (hd : '\n' ∉ d)
    (he : (∀ c ∈ e.2, WFNewFact c) ∧
      ∀ k, e.1 = some k → WFKey k ∧ pyStrip k = k)
    (hinv : MergeInv ms) : MergeInv (mergeSubStep d ms e) := by
  unfold mergeSubStep
  have hinv' : MergeInv
      ((if storeHasKey ms.1 e.1 then ms.1 else ms.1 ++ [(e.1, [])]),
       ms.2.1, ms.2.2) := by
    by_cases hk : storeHasKey ms.1 e.1 = true
    · rw [if_pos hk]
      exact hinv
    · rw [if_neg hk]
      refine ⟨⟨?_, ?_⟩, ?_⟩
      · intro p hp
        rcases List.mem_append.mp hp with hp1 | hp2
        · exact hinv.1.1 p hp1
        · have hpe : p = (e.1, []) := by simpa using hp2
          rw [hpe]
          exact ⟨by simp, fun k hk' => he.2 k hk'⟩
      · rw [storeKeys_append]
        rw [show storeKeys [(e.1, [])] = [e.1] from rfl]
        rw [List.nodup_append]
        refine ⟨hinv.1.2, List.nodup_singleton _, ?_⟩
        intro a ha hb
        have hab : a = e.1 := by simpa using hb
        rw [hab] at ha
        exact hk ((storeHasKey_iff ms.1 e.1).mpr ha)
      · intro x hx
        rw [storeFacts_append]
        exact List.mem_append_left _ (hinv.2 x hx)
  have hsub : e.1 ∈ storeKeys
      ((if storeHasKey ms.1 e.1 then ms.1 else ms.1 ++ [(e.1, [])])) := by
    by_cases hk : storeHasKey ms.1 e.1 = true
    · rw [if_pos hk]
      exact (storeHasKey_iff ms.1 e.1).mp hk
    · rw [if_neg hk, storeKeys_append]
      exact List.mem_append_right _ (by simp [storeKeys])
  exact (mergeFactFold_inv d e.1 e.2 _ he.1 hd hsub hinv').1

/-- The whole merge fold preserves the merge invariant. -/
theorem mergeDataFold_inv (d : PStr) :
    ∀ (nd : List (Option PStr × List PStr)) (ms : MergeState),
      GoodData nd → '\n' ∉ d → MergeInv ms →
      MergeInv (nd.foldl (mergeSubStep d) ms) := by
  intro nd
  induction nd with
  | nil =>
    intro ms _ _ hinv
    exact hinv
  | cons e es ih =>
    intro ms hgood hd hinv
    rw [List.foldl_cons]
    exact ih _ (fun b hb => hgood b (by simp [hb])) hd
      (mergeSubStep_inv d ms e hd (hgood e (by simp)) hinv)

/-- After the inner fold, every candidate of the processed fact list has
a ratio-≥-threshold witness in `all_existing`. -/
theorem mergeFactFold_cov (d : PStr) (sub : Option PStr) :
    ∀ (facts : List PStr) (ms : MergeState), ∀ c ∈ facts,
      ∃ x ∈ (facts.foldl (mergeFactStep d sub) ms).2.1,
        ratioGE dupThreshold (cleanFact x) (cleanFact (prepFact d c)) =
          true := by
  intro facts
  induction facts with
  | nil =>
    intro ms c hc
    exact absurd hc (by simp)
  | cons f fs ih =>
    intro ms c hc
    rw [List.foldl_cons]
    rcases List.mem_cons.mp hc with rfl | hcs
    · obtain ⟨t, e1, _, _, _⟩ := mergeFactFold_ext d sub fs
        (mergeFactStep d sub ms c)
      by_cases hdup : is_duplicate ms.2.1 (prepFact d c) dupThreshold = true
      · obtain ⟨x, hx, hrat⟩ := List.any_eq_true.mp hdup
        refine ⟨x, ?_, hrat⟩
        rw [e1, mergeFactStep_dup d sub ms c hdup]
        exact List.mem_append_left _ hx
      · refine ⟨prepFact d c, ?_,
          ratioGE_self dupThreshold _ dupThreshold_le_one⟩
        rw [e1]
        apply List.mem_append_left
        have he : mergeFactStep d sub ms c =
            (storeAppend ms.1 sub (prepFact d c),
             ms.2.1 ++ [prepFact d c], ms.2.2 + 1) := by
          show (if ¬ is_duplicate ms.2.1 (prepFact d c) dupThreshold = true
                then (storeAppend ms.1 sub (prepFact d c),
                      ms.2.1 ++ [prepFact d c], ms.2.2 + 1)
                else ms) = _
          rw [if_pos hdup]
        rw [he]
        simp
    · exact ih (mergeFactStep d sub ms f) c hcs

/-- After the whole merge fold, every candidate of the processed data has
a ratio-≥-threshold witness in `all_existing`. -/
theorem mergeDataFold_cov (d : PStr) :
    ∀ (nd : List (Option PStr × List PStr)) (ms : MergeState),
      ∀ b ∈ nd, ∀ c ∈ b.2,
      ∃ x ∈ (nd.foldl (mergeSubStep d) ms).2.1,
        ratioGE dupThreshold (cleanFact x) (cleanFact (prepFact d c)) =
          true := by
  intro nd
  induction nd with
  | nil =>
    intro ms b hb
    exact absurd hb (by simp)
  | cons e es ih =>
    intro ms b hb c hc
    rw [List.foldl_cons]
    rcases List.mem_cons.mp hb with rfl | hbs
    · obtain ⟨x, hx, hrat⟩ := mergeFactFold_cov d b.1 b.2
        ((if storeHasKey ms.1 b.1 then ms.1 else ms.1 ++ [(b.1, [])]),
         ms.2.1, ms.2.2) c hc
      obtain ⟨t, e1, _, _, _⟩ := mergeDataFold_ext d es (mergeSubStep d ms b)
      refine ⟨x, ?_, hrat⟩
      rw [e1]
      apply List.mem_append_left
      exact hx
    · exact ih (mergeSubStep d ms e) b hbs c hc

/-- Reading back the file just written. -/
theorem updateFile_same (fs : Files) (cat content : PStr) :
    updateFile fs cat content cat = content := by
  unfold updateFile
  rw [if_pos rfl]

/-- Other files are untouched. -/
theorem updateFile_ne (fs : Files) (cat content c' : PStr) (h : c' ≠ cat) :
    updateFile fs cat content c' = fs c' := by
  unfold updateFile
  rw [if_neg h]

/-- `merge_facts` written out through the fold. -/
theorem merge_facts_eq (fs : Files) (cat : PStr)
    (data : List (Option PStr × List PStr)) (d : PStr) :
    merge_facts fs cat data d =
      (updateFile fs cat (write_category cat
        ((data.foldl (mergeSubStep d) (read_category (fs cat),
          storeFacts (read_category (fs cat)), 0)).1)),
       (data.foldl (mergeSubStep d) (read_category (fs cat),
          storeFacts (read_category (fs cat)), 0)).2.2) := rfl

/-- The initial merge state satisfies the merge invariant. -/
theorem merge_init_inv (content : PStr) :
    MergeInv (read_category content, storeFacts (read_category content), 0) :=
  ⟨read_StoreInv content, fun _ hx => hx⟩

/-- After one `merge_facts` call, every candidate of its data has a
ratio-≥-threshold witness among the facts read back from the written
category file. -/
theorem merge_cov (fs : Files) (cat : PStr)
    (data : List (Option PStr × List PStr)) (d : PStr)
    (hd : '\n' ∉ d) (hgood : GoodData data)
    (htitle : '\n' ∉ categoryTitle cat) :
    ∀ b ∈ data, ∀ c ∈ b.2,
      ∃ x ∈ storeFacts (read_category ((merge_facts fs cat data d).1 cat)),
        ratioGE dupThreshold (cleanFact x) (cleanFact (prepFact d c)) =
          true := by
  intro b hb c hc
  have hinvf := mergeDataFold_inv d data
    (read_category (fs cat), storeFacts (read_category (fs cat)), 0)
    hgood hd (merge_init_inv (fs cat))
  obtain ⟨x, hx1, hrat⟩ := mergeDataFold_cov d data
    (read_category (fs cat), storeFacts (read_category (fs cat)), 0)
    b hb c hc
  have hxs := hinvf.2 x hx1
  obtain ⟨hwfS, hkeysS⟩ := storeInv_wf _ hinvf.1
  have hperm := read_write_roundtrip cat _ htitle hwfS hkeysS
  rw [stripStore_eq_self _ hinvf.1] at hperm
  have hperm' := Multiset.coe_eq_coe.mp hperm
  obtain ⟨p, hp, hxp⟩ := (mem_storeFacts _ x).mp hxs
  have hpair : (p.1, x) ∈ storePairs
      ((data.foldl (mergeSubStep d) (read_category (fs cat),
        storeFacts (read_category (fs cat)), 0)).1) :=
    (mem_storePairs _ _ _).mpr ⟨p, hp, rfl, hxp⟩
  have hpair2 := hperm'.mem_iff.mpr hpair
  obtain ⟨q, hq, _, hxq⟩ := (mem_storePairs _ _ _).mp hpair2
  refine ⟨x, ?_, hrat⟩
  have hfile : (merge_facts fs cat data d).1 cat = write_category cat
      ((data.foldl (mergeSubStep d) (read_category (fs cat),
        storeFacts (read_category (fs cat)), 0)).1) :=
    updateFile_same fs cat _
  rw [hfile]
  exact (mem_storeFacts _ x).mpr ⟨q, hq, hxq⟩

/-- If every candidate is already a duplicate of the stored facts, the
merge adds nothing and every category file reads back to the same pairs. -/
theorem merge_facts_noop (fs : Files) (cat : PStr)
    (data : List (Option PStr × List PStr)) (d : PStr)
    (hd : '\n' ∉ d) (hgood : GoodData data)
    (htitle : '\n' ∉ categoryTitle cat)
    (hcov : ∀ b ∈ data, ∀ c ∈ b.2,
      is_duplicate (storeFacts (read_category (fs cat)))
        (prepFact d c) dupThreshold = true) :
    (merge_facts fs cat data d).2 = 0 ∧
    ∀ c', (storePairs (read_category ((merge_facts fs cat data d).1 c')) :
        Multiset (Option PStr × PStr)) =
      (storePairs (read_category (fs c')) :
        Multiset (Option PStr × PStr)) := by
  have hno := mergeDataFold_noop d data
    (read_category (fs cat), storeFacts (read_category (fs cat)), 0)
    (fun b hb c hc => hcov b hb c hc)
  have hinvf := mergeDataFold_inv d data
    (read_category (fs cat), storeFacts (read_category (fs cat)), 0)
    hgood hd (merge_init_inv (fs cat))
  constructor
  · rw [merge_facts_eq]
    exact hno.2.1
  · intro c'
    by_cases hc' : c' = cat
    · subst hc'
      have hfile : (merge_facts fs c' data d).1 c' = write_category c'
          ((data.foldl (mergeSubStep d) (read_category (fs c'),
            storeFacts (read_category (fs c')), 0)).1) :=
        updateFile_same fs c' _
      rw [hfile]
      obtain ⟨hwfS, hkeysS⟩ := storeInv_wf _ hinvf.1
      have hperm := read_write_roundtrip c' _ htitle hwfS hkeysS
      rw [stripStore_eq_self _ hinvf.1] at hperm
      rw [hperm]
      rw [hno.2.2.1]
    · have hfile : (merge_facts fs cat data d).1 c' = fs c' :=
        updateFile_ne fs cat _ c' hc'
      rw [hfile]

/-- `process` written through the named step. -/
theorem process_eq (fs : Files) (r d : PStr) :
    process fs r d = (parse_response r >>= fun raw =>
      normalize_extraction raw >>= fun ex =>
      ex.foldlM (procStep d) (fs, [])) := rfl

/-- `_normalize_extraction` written through the named step. -/
theorem normalize_foldlM (raw : Json) :
    normalize_extraction raw = CATEGORIES.foldlM (normStep raw) [] := rfl

/-- What a successful `process` step looks like. -/
theorem procStep_ok (d : PStr) (st : Files × List (PStr × Nat))
    (e : PStr × RawBuckets) (out : Files × List (PStr × Nat))
    (h : procStep d st e = Except.ok out) :
    ∃ data, bucketsAsStrs e.2 = Except.ok data ∧
      out = ((merge_facts st.1 e.1 data d).1,
        if 0 < (merge_facts st.1 e.1 data d).2
        then st.2 ++ [(e.1, (merge_facts st.1 e.1 data d).2)] else st.2) := by
  unfold procStep at h
  cases hbs : bucketsAsStrs e.2 with
  | error u =>
    rw [hbs] at h
    exact Except.noConfusion h
  | ok data =>
    rw [hbs] at h
    refine ⟨data, rfl, ?_⟩
    have h' : (Except.ok ((merge_facts st.1 e.1 data d).1,
        if 0 < (merge_facts st.1 e.1 data d).2
        then st.2 ++ [(e.1, (merge_facts st.1 e.1 data d).2)] else st.2) :
        Except Unit (Files × List (PStr × Nat))) = Except.ok out := h
    injection h' with h''
    exact h''.symm

/-- Categories not named in the fold keep their files. -/
theorem procFold_untouched (d : PStr) :
    ∀ (ex : List (PStr × RawBuckets)) (st out : Files × List (PStr × Nat)),
      ex.foldlM (procStep d) st = Except.ok out →
      ∀ c', c' ∉ ex.map Prod.fst → out.1 c' = st.1 c' := by
  intro ex
  induction ex with
  | nil =>
    intro st out h c' _
    have h' : (Except.ok st : Except Unit (Files × List (PStr × Nat))) =
        Except.ok out := h
    injection h' with h''
    rw [← h'']
  | cons e es ih =>
    intro st out h c' hc'
    rw [List.foldlM_cons] at h
    cases hstep : procStep d st e with
    | error u =>
      rw [hstep] at h
      exact Except.noConfusion h
    | ok st' =>
      rw [hstep] at h
      have h' : es.foldlM (procStep d) st' = Except.ok out := h
      have hne : c' ≠ e.1 := fun hcc => hc' (by rw [hcc]; simp)
      have hnotin : c' ∉ es.map Prod.fst := fun hm => hc' (by simp [hm])
      rw [ih st' out h' c' hnotin]
      obtain ⟨data, hbs, hst'⟩ := procStep_ok d st e st' hstep
      rw [hst']
      exact updateFile_ne st.1 e.1 _ c' hne

/-- A `true` decidable fact condition on a string fact. -/
theorem factWF_spec (j : Json) (h : factWF j = true) :
    ∀ s, j = Json.str s → WFNewFact s := by
  intro s hs
  rw [hs] at h
  unfold factWF at h
  rw [Bool.and_eq_true] at h
  exact ⟨of_decide_eq_true h.1, of_decide_eq_true h.2⟩

/-- A `true` decidable key condition on a named subcategory. -/
theorem keyWF_spec (k : Option PStr) (h : keyWF k = true) :
    ∀ s, k = some s → WFKey s ∧ pyStrip s = s := by
  intro s hs
  rw [hs] at h
  unfold keyWF at h
  rw [Bool.and_eq_true, Bool.and_eq_true] at h
  refine ⟨⟨of_decide_eq_true h.1.1, ?_⟩, of_decide_eq_true h.2⟩
  intro hcon
  rw [hcon] at h
  exact absurd h.1.2 (by decide)

/-- Successful string extraction of a fact list with well-formed facts. -/
theorem mapM_facts_good : ∀ (js : List Json) (facts : List PStr),
    js.mapM (fun j => match j with
      | Json.str s => Except.ok s
      | _ => (Except.error () : Except Unit PStr)) = Except.ok facts →
    (∀ j ∈ js, factWF j = true) → ∀ c ∈ facts, WFNewFact c := by
  intro js
  induction js with
  | nil =>
    intro facts h _
    have h' : (Except.ok ([] : List PStr) : Except Unit (List PStr)) =
        Except.ok facts := h
    injection h' with h''
    rw [← h'']
    intro c hc
    exact absurd hc (by simp)
  | cons j js' ih =>
    intro facts h hwf
    rw [List.mapM_cons] at h
    cases j with
    | str s =>
      cases hrest : js'.mapM (fun j => match j with
          | Json.str s => Except.ok s
          | _ => (Except.error () : Except Unit PStr)) with
      | error u =>
        rw [hrest] at h
        exact Except.noConfusion h
      | ok fs' =>
        rw [hrest] at h
        have h' : (Except.ok (s :: fs') : Except Unit (List PStr)) =
            Except.ok facts := h
        injection h' with h''
        rw [← h'']
        intro c hc
        rcases List.mem_cons.mp hc with rfl | hcs
        · exact factWF_spec (Json.str c) (hwf _ (by simp)) c rfl
        · exact ih fs' hrest (fun x hx => hwf x (by simp [hx])) c hcs
    | null => exact Except.noConfusion h
    | bool b => exact Except.noConfusion h
    | num n => exact Except.noConfusion h
    | arr a => exact Except.noConfusion h
    | obj o => exact Except.noConfusion h

/-- A successful bucket-to-strings conversion of well-formed buckets
yields well-formed merge data. -/
theorem bucketsAsStrs_good : ∀ (bs : RawBuckets)
    (data : List (Option PStr × List PStr)),
    bucketsAsStrs bs = Except.ok data →
    (∀ b ∈ bs, (∀ j ∈ b.2, factWF j = true) ∧ keyWF b.1 = true) →
    GoodData data := by
  intro bs
  induction bs with
  | nil =>
    intro data h _
    have h' : (Except.ok ([] : List (Option PStr × List PStr)) :
        Except Unit (List (Option PStr × List PStr))) = Except.ok data := h
    injection h' with h''
    rw [← h'']
    intro b hb
    exact absurd hb (by simp)
  | cons p ps ih =>
    intro data h hwf
    unfold bucketsAsStrs at h
    rw [List.mapM_cons] at h
    cases hfs : p.2.mapM (fun j => match j with
        | Json.str s => Except.ok s
        | _ => (Except.error () : Except Unit PStr)) with
    | error u =>
      rw [hfs] at h
      exact Except.noConfusion h
    | ok facts =>
      rw [hfs] at h
      cases hrest : bucketsAsStrs ps with
      | error u =>
        have hrest' : ps.mapM (fun p => do
            let facts ← p.2.mapM fun j =>
              match j with
              | Json.str s => Except.ok s
              | _ => (Except.error () : Except Unit PStr)
            pure (p.1, facts)) = Except.error u := hrest
        rw [hrest'] at h
        exact Except.noConfusion h
      | ok data' =>
        have hrest' : ps.mapM (fun p => do
            let facts ← p.2.mapM fun j =>
              match j with
              | Json.str s => Except.ok s
              | _ => (Except.error () : Except Unit PStr)
            pure (p.1, facts)) = Except.ok data' := hrest
        rw [hrest'] at h
        have h' : (Except.ok ((p.1, facts) :: data') :
            Except Unit (List (Option PStr × List PStr))) = Except.ok data := h
        injection h' with h''
        rw [← h'']
        intro b hb
        rcases List.mem_cons.mp hb with rfl | hbs
        · exact ⟨mapM_facts_good p.2 facts hfs (hwf p (by simp)).1,
            fun k hk => keyWF_spec p.1 (hwf p (by simp)).2 k hk⟩
        · exact ih data' hrest (fun x hx => hwf x (by simp [hx])) b hbs

/-- A successful `_normalize_extraction` step appends at most one entry,
keyed by the scanned category. -/
theorem normStep_ok (raw : Json) (acc : List (PStr × RawBuckets))
    (cat : PStr) (acc' : List (PStr × RawBuckets))
    (h : normStep raw acc cat = Except.ok acc') :
    acc' = acc ∨ ∃ nb, acc' = acc ++ [(cat, nb)] := by
  unfold normStep at h
  cases hhas : jsonHasCat raw cat with
  | error u =>
    rw [hhas] at h
    exact Except.noConfusion h
  | ok has =>
    rw [hhas] at h
    cases has with
    | false =>
      have h' : (Except.ok acc :
          Except Unit (List (PStr × RawBuckets))) = Except.ok acc' := h
      injection h' with h''
      exact Or.inl h''.symm
    | true =>
      have h2 : (jsonGetItem raw cat >>= fun catData =>
          jsonItems catData >>= fun kvs =>
          (pure (if (normCatBuckets kvs).isEmpty then acc
            else acc ++ [(cat, normCatBuckets kvs)]) :
            Except Unit (List (PStr × RawBuckets)))) = Except.ok acc' := h
      cases hget : jsonGetItem raw cat with
      | error u =>
        rw [hget] at h2
        exact Except.noConfusion h2
      | ok catData =>
        rw [hget] at h2
        have h3 : (jsonItems catData >>= fun kvs =>
            (pure (if (normCatBuckets kvs).isEmpty then acc
              else acc ++ [(cat, normCatBuckets kvs)]) :
              Except Unit (List (PStr × RawBuckets)))) = Except.ok acc' := h2
        cases hitems : jsonItems catData with
        | error u =>
          rw [hitems] at h3
          exact Except.noConfusion h3
        | ok kvs =>
          rw [hitems] at h3
          have h' : (Except.ok (if (normCatBuckets kvs).isEmpty then acc
              else acc ++ [(cat, normCatBuckets kvs)]) :
              Except Unit (List (PStr × RawBuckets))) = Except.ok acc' := h3
          injection h' with h''
          by_cases hemp : (normCatBuckets kvs).isEmpty = true
          · rw [if_pos hemp] at h''
            exact Or.inl h''.symm
          · rw [if_neg hemp] at h''
            exact Or.inr ⟨normCatBuckets kvs, h''.symm⟩

/-- The categories appended by the normalisation fold form a sublist of
the scanned category list. -/
theorem normFold_sublist (raw : Json) :
    ∀ (cats : List PStr) (acc ex : List (PStr × RawBuckets)),
      cats.foldlM (normStep raw) acc = Except.ok ex →
      ∃ t, ex = acc ++ t ∧ (t.map Prod.fst).Sublist cats := by
  intro cats
  induction cats with
  | nil =>
    intro acc ex h
    have h' : (Except.ok acc :
        Except Unit (List (PStr × RawBuckets))) = Except.ok ex := h
    injection h' with h''
    exact ⟨[], by rw [← h'']; simp, by simp⟩
  | cons cat cats' ih =>
    intro acc ex h
    rw [List.foldlM_cons] at h
    cases hstep : normStep raw acc cat with
    | error u =>
      rw [hstep] at h
      exact Except.noConfusion h
    | ok acc' =>
      rw [hstep] at h
      obtain ⟨t', he, hs⟩ := ih acc' ex h
      rcases normStep_ok raw acc cat acc' hstep with hcase | ⟨nb, hcase⟩
      · exact ⟨t', by rw [he, hcase], hs.cons cat⟩
      · refine ⟨(cat, nb) :: t', ?_, ?_⟩
        · rw [he, hcase, List.append_assoc]
          rfl
        · exact hs.cons₂ cat
      
/-- The categories of a normalised extraction are distinct members of
the fixed enumeration. -/
theorem normalize_cats (raw : Json) (ex : List (PStr × RawBuckets))
    (h : normalize_extraction raw = Except.ok ex) :
    (ex.map Prod.fst).Sublist CATEGORIES := by
  rw [normalize_foldlM] at h
  obtain ⟨t, he, hs⟩ := normFold_sublist raw CATEGORIES [] ex h
  rw [he]
  exact hs

/-- Running the category fold a second time with the same extraction
against the files produced by the first run adds nothing: every step's
merge is a no-op, the result list stays as started, and every category
file reads back to the same pairs. -/
theorem procFold_twice (d1 d2 : PStr) (hd1 : WFDate d1) (hd2 : WFDate d2) :
    ∀ (ex : List (PStr × RawBuckets)) (fs : Files)
      (res : List (PStr × Nat)) (out1 : Files × List (PStr × Nat)),
      (ex.map Prod.fst).Nodup →
      (∀ e ∈ ex, e.1 ∈ CATEGORIES) →
      (∀ e ∈ ex, ∀ b ∈ e.2, (∀ j ∈ b.2, factWF j = true) ∧
        keyWF b.1 = true) →
      ex.foldlM (procStep d1) (fs, res) = Except.ok out1 →
      ∀ (fs2s : Files) (res2 : List (PStr × Nat)),
        (∀ e ∈ ex, fs2s e.1 = out1.1 e.1) →
        ∃ fs2 : Files,
          ex.foldlM (procStep d2) (fs2s, res2) = Except.ok (fs2, res2) ∧
          ∀ c', (storePairs (read_category (fs2 c')) :
              Multiset (Option PStr × PStr)) =
            (storePairs (read_category (fs2s c')) :
              Multiset (Option PStr × PStr)) := by
  intro ex
  induction ex with
  | nil =>
    intro fs res out1 _ _ _ _ fs2s res2 _
    exact ⟨fs2s, rfl, fun c' => rfl⟩
  | cons e es ih =>
    intro fs res out1 hnd hmem hwfb h1 fs2s res2 hagree
    rw [List.foldlM_cons] at h1
    rw [List.map_cons] at hnd
    have hcatnot : e.1 ∉ es.map Prod.fst := (List.nodup_cons.mp hnd).1
    cases hstep : procStep d1 (fs, res) e with
    | error u =>
      rw [hstep] at h1
      exact Except.noConfusion h1
    | ok st1 =>
      rw [hstep] at h1
      have h1' : es.foldlM (procStep d1) st1 = Except.ok out1 := h1
      obtain ⟨data, hbs, hst1⟩ := procStep_ok d1 (fs, res) e st1 hstep
      have hout1cat : out1.1 e.1 = st1.1 e.1 :=
        procFold_untouched d1 es st1 out1 h1' e.1 hcatnot
      have hgood : GoodData data :=
        bucketsAsStrs_good e.2 data hbs (hwfb e (by simp))
      have htitle : '\n' ∉ categoryTitle e.1 :=
        categories_title_no_nl e.1 (hmem e (by simp))
      have hcov0 := merge_cov fs e.1 data d1 hd1.1 hgood htitle
      have hproj : st1.1 e.1 = (merge_facts fs e.1 data d1).1 e.1 :=
        congrArg (fun s => s.1 e.1) hst1
      have hfseq : fs2s e.1 = (merge_facts fs e.1 data d1).1 e.1 :=
        (hagree e (by simp)).trans (hout1cat.trans hproj)
      have hdup : ∀ b ∈ data, ∀ c ∈ b.2,
          is_duplicate (storeFacts (read_category (fs2s e.1)))
            (prepFact d2 c) dupThreshold = true := by
        intro b hb c hc
        obtain ⟨x, hx, hrat⟩ := hcov0 b hb c hc
        rw [hfseq]
        apply List.any_eq_true.mpr
        refine ⟨x, hx, ?_⟩
        rw [cleanFact_prep c d2 d1 ((hgood b hb).1 c hc) hd2.2 hd1.2]
        exact hrat
      have hnoop := merge_facts_noop fs2s e.1 data d2 hd2.1 hgood htitle hdup
      have hstep2 : procStep d2 (fs2s, res2) e =
          Except.ok ((merge_facts fs2s e.1 data d2).1, res2) := by
        unfold procStep
        rw [hbs]
        show (Except.ok ((merge_facts fs2s e.1 data d2).1,
            if 0 < (merge_facts fs2s e.1 data d2).2
            then res2 ++ [(e.1, (merge_facts fs2s e.1 data d2).2)]
            else res2) : Except Unit (Files × List (PStr × Nat))) = _
        rw [hnoop.1, if_neg (by decide)]
      have hagree' : ∀ e' ∈ es,
          (merge_facts fs2s e.1 data d2).1 e'.1 = out1.1 e'.1 := by
        intro e' he'
        have hne : e'.1 ≠ e.1 := by
          intro hcc
          exact hcatnot (hcc ▸ List.mem_map_of_mem Prod.fst he')
        have hu : (merge_facts fs2s e.1 data d2).1 e'.1 = fs2s e'.1 :=
          updateFile_ne fs2s e.1 _ e'.1 hne
        rw [hu]
        exact hagree e' (by simp [he'])
      rw [hst1] at h1'
      obtain ⟨fs2, hfold2, hpres⟩ := ih (merge_facts fs e.1 data d1).1 _
        out1 (List.nodup_cons.mp hnd).2
        (fun e' he' => hmem e' (by simp [he']))
        (fun e' he' => hwfb e' (by simp [he'])) h1'
        (merge_facts fs2s e.1 data d2).1 res2 hagree'
      refine ⟨fs2, ?_, ?_⟩
      · rw [List.foldlM_cons, hstep2]
        exact hfold2
      · intro c'
        exact (hpres c').trans (hnoop.2 c')

/-- C1 (corrected): provided each extracted fact and subcategory label is
a well-formed single line (no embedded newline, no trailing whitespace,
labels non-blank and stripped) and the date stamps are single-line and
parenthesis-free, `process` is idempotent: calling it a second time on
the same oracle response against the store produced by the first call
succeeds, reports the empty mapping (zero added facts in every category),
and leaves every category store's `(subcategory, fact)` multiset
unchanged, because every previously accepted fact is read back and
matches itself under the duplicate check.  The original unconditional
claim is false: a fact containing an embedded newline is split by the
write/read round trip, so the second call re-adds it (see the
counterexample). -/
theorem process_idempotent (fs : Files) (r d1 d2 : PStr)
    (hr : ExtractWF r) (hd1 : WFDate d1) (hd2 : WFDate d2)
    (fs1 : Files) (res1 : List (PStr × Nat))
    (h1 : process fs r d1 = Except.ok (fs1, res1)) :
    ∃ fs2 : Files, process fs1 r d2 = Except.ok (fs2, []) ∧
      ∀ cat, (storePairs (read_category (fs2 cat)) :
          Multiset (Option PStr × PStr)) =
        (storePairs (read_category (fs1 cat)) :
          Multiset (Option PStr × PStr)) := by
  rw [process_eq] at h1
  cases hraw : parse_response r with
  | error u =>
    rw [hraw] at h1
    exact Except.noConfusion h1
  | ok raw =>
    rw [hraw] at h1
    have h1a : (normalize_extraction raw >>= fun ex =>
        ex.foldlM (procStep d1) (fs, [])) = Except.ok (fs1, res1) := h1
    cases hex : normalize_extraction raw with
    | error u =>
      rw [hex] at h1a
      exact Except.noConfusion h1a
    | ok ex =>
      rw [hex] at h1a
      have h1b : ex.foldlM (procStep d1) (fs, []) =
          Except.ok (fs1, res1) := h1a
      have hsub := normalize_cats raw ex hex
      have hnd : (ex.map Prod.fst).Nodup :=
        List.Nodup.sublist hsub (by decide)
      have hmem : ∀ e ∈ ex, e.1 ∈ CATEGORIES :=
        fun e he => hsub.subset (List.mem_map_of_mem Prod.fst he)
      have hwfb := hr raw ex hraw hex
      obtain ⟨fs2, hfold2, hpres⟩ := procFold_twice d1 d2 hd1 hd2 ex fs []
        (fs1, res1) hnd hmem hwfb h1b fs1 [] (fun e _ => rfl)
      refine ⟨fs2, ?_, hpres⟩
      rw [process_eq, hraw]
      show (normalize_extraction raw >>= fun ex' =>
        ex'.foldlM (procStep d2) (fs1, [])) = Except.ok (fs2, [])
      rw [hex]
      exact hfold2

set_option maxRecDepth 2000000 in
/-- Witness for C1: a fenced-JSON response with one well-formed fact.
The first run stores it; the theorem applies and the second run reports
no additions and preserves every store. -/
theorem process_idempotent_witness :
    ExtractWF respOk ∧ WFDate dateD1 ∧ WFDate dateD2 ∧
    process emptyFiles respOk dateD1 = Except.ok (fs1W, res1W) ∧
    ∃ fs2 : Files, process fs1W respOk dateD2 = Except.ok (fs2, []) ∧
      ∀ cat, (storePairs (read_category (fs2 cat)) :
          Multiset (Option PStr × PStr)) =
        (storePairs (read_category (fs1W cat)) :
          Multiset (Option PStr × PStr)) := by
  have hwf : ExtractWF respOk := by
    intro raw ex h1 h2
    have hp : parse_response respOk = Except.ok (Json.obj [(pstr "goals",
        Json.obj [(pstr "null",
          Json.arr [Json.str (pstr "- wants to learn Rust")])])]) := by
      rfl
    rw [hp] at h1
    injection h1 with h1'
    rw [← h1'] at h2
    have hn : normalize_extraction (Json.obj [(pstr "goals",
        Json.obj [(pstr "null",
          Json.arr [Json.str (pstr "- wants to learn Rust")])])]) =
        Except.ok [(pstr "goals",
          [(none, [Json.str (pstr "- wants to learn Rust")])])] := by
      rfl
    rw [hn] at h2
    injection h2 with h2'
    rw [← h2']
    decide
  have hd1 : WFDate dateD1 := by
    constructor
    · decide
    · decide
  have hd2 : WFDate dateD2 := by
    constructor
    · decide
    · decide
  have h1 : process emptyFiles respOk dateD1 = Except.ok (fs1W, res1W) := by
    rfl
  exact ⟨hwf, hd1, hd2, h1,
    process_idempotent emptyFiles respOk dateD1 dateD2 hwf hd1 hd2
      fs1W res1W h1⟩

set_option maxRecDepth 2000000 in
/-- C1 counterexample to the unconditional claim: an extraction whose
fact embeds a newline.  The first run adds it; the write/read round trip
splits it, so the second run with the very same response adds a fact
again instead of reporting the empty mapping. -/
theorem process_idempotent_counterexample :
    processTwice emptyFiles respNl dateD1 dateD2 =
      Except.ok [(pstr "goals", 1)] := by
  rfl

/-- Witness for C6: a mapping holding one kept category with one
list-valued bucket, one string-valued bucket (dropped), one number-valued
bucket (dropped), an unknown category (dropped) and a category left empty
after filtering (omitted). -/
theorem normalize_extraction_spec_witness :
    normalize_extraction rawGood =
      Except.ok [(pstr "goals",
        [(none, [Json.str (pstr "- wants to learn Rust")])])] := by
  have hv : ∀ p ∈ [(pstr "goals", Json.obj
        [(pstr "null", Json.arr [Json.str (pstr "- wants to learn Rust")]),
         (pstr "Sub", Json.str (pstr "oops")),
         (pstr "other", Json.num (pstr "3"))]),
       (pstr "not_a_category", Json.obj
        [(pstr "null", Json.arr [Json.str (pstr "- dropped")])]),
       (pstr "habits", Json.obj [(pstr "x", Json.num (pstr "1"))])],
      p.1 ∈ CATEGORIES →
      ∃ inner, p.2 = Json.obj inner ∧
        (inner.map fun q => normSubKey q.1).Nodup := by
    intro p hp hcat
    rcases List.mem_cons.mp hp with rfl | hp2
    · exact ⟨_, rfl, by decide⟩
    rcases List.mem_cons.mp hp2 with rfl | hp3
    · exact absurd hcat (by decide)
    rcases List.mem_cons.mp hp3 with rfl | hp4
    · exact ⟨_, rfl, by decide⟩
    · exact absurd hp4 (by simp)
  have h := (normalize_extraction_spec _ hv).1
  rw [show rawGood = Json.obj
      [(pstr "goals", Json.obj
        [(pstr "null", Json.arr [Json.str (pstr "- wants to learn Rust")]),
         (pstr "Sub", Json.str (pstr "oops")),
         (pstr "other", Json.num (pstr "3"))]),
       (pstr "not_a_category", Json.obj
        [(pstr "null", Json.arr [Json.str (pstr "- dropped")])]),
       (pstr "habits", Json.obj [(pstr "x", Json.num (pstr "1"))])] from rfl]
  rw [h]
  rfl
